import Mathlib

/-!
# LOC-OS installer: output classification and the worker's read loop

A shallow embedding of `parse_installation_output`, of the read loop and the
end of `run_installation_thread`, and of `start_installation` (all in
`src/installer.c`), with the C library routines they call and the session part
of the two dialog callbacks of `src/ui.c`; and of the helpers of `src/tools.c`
that the wizard relies on: the validation and storage of the credentials,
`extract_code`, `extract_device`, the timezone table and the Finish button of
`update_navigation_buttons`.

Conventions of the embedding.

* A C string is the list of its bytes before the terminating NUL; each byte is
  written as a `Char`.  `strlen` is `List.length`, `s + k` is `List.drop k`.
  A buffer filled by `fgets` is the list of the bytes read, NUL bytes included;
  `c_string` is the string that the routines see in it.
* `g_idle_add (callback, data)` appends one `OutputEvent` to the list of posted
  events: the constructor names the callback, its fields are the payload.
  GLib runs idle callbacks of equal priority in the order they were added.
* `malloc`, `strdup`, `g_strdup` and `create_log_data` are taken to succeed.
* `long` is 64 bits wide (`LONG_MAX = 2^63 - 1`).
* `pclose` returns the wait status of the command; without a message catalogue
  `_()` returns its argument.
* The two threads are interleaved step by step (`Session`, `Action`, `step`).
-/

namespace Installer

/-! ## Data model -/

/-- The two session flags of `InstallConfig` (installer.h) that the pipeline
reads and writes. -/
structure InstallConfig where
  installation_started : Bool
  installation_complete : Bool
deriving DecidableEq, Repr

/-- The part of `InstallerApp` (installer.h) that is not a widget. -/
structure InstallerApp where
  config : InstallConfig
  thread_running : Bool
deriving DecidableEq, Repr

/-- One posted idle callback with its payload.
`LogLine` is `append_to_log_idle`, `LogLineReplace` is
`update_last_log_line_idle`, `ProgressUpdate` is `update_progress_ui`,
`StatusUpdate` is `update_status_ui`, `ErrorNotice` is `show_error_dialog`,
`SuccessDialog` is `show_success_dialog`, `NavigationUpdate` is
`update_navigation_buttons` and `ClearLog` is `clear_log_idle`. -/
inductive OutputEvent where
  | LogLine (text : List Char)
  | LogLineReplace (text : List Char)
  | ProgressUpdate (percent : Int) (message : List Char)
  | StatusUpdate (message : List Char)
  | ErrorNotice (message : List Char)
  | SuccessDialog
  | NavigationUpdate
  | ClearLog
deriving DecidableEq, Repr

/-! ## C library routines -/

/-- The `isspace` of the C locale: space, `\t`, `\n`, `\v`, `\f`, `\r`. -/
def isspace (c : Char) : Bool :=
  c.toNat = 32 || (9 ≤ c.toNat && c.toNat ≤ 13)

/-- The `isdigit` of `<ctype.h>`. -/
def isdigit (c : Char) : Bool :=
  48 ≤ c.toNat && c.toNat ≤ 57

/-- Largest value of a 64-bit `long`. -/
def LONG_MAX : Int := 2 ^ 63 - 1

/-- Smallest value of a 64-bit `long`. -/
def LONG_MIN : Int := -(2 ^ 63)

/-- Does `hay` start with `needle`? -/
def starts_with : List Char → List Char → Bool
  | _, [] => true
  | [], _ :: _ => false
  | h :: hs, n :: ns => h == n && starts_with hs ns

/-- The `strstr` of `<string.h>`: offset of the first occurrence of `needle` in
`hay`, `none` for the NULL result. -/
def strstr : List Char → List Char → Option Nat
  | [], needle => if needle.isEmpty then some 0 else none
  | h :: hs, needle =>
    if starts_with (h :: hs) needle then some 0
    else (strstr hs needle).map (· + 1)

/-- The `strchr` of `<string.h>`: offset of the first `c` in `s`. -/
def strchr : List Char → Char → Option Nat
  | [], _ => none
  | h :: hs, c => if h = c then some 0 else (strchr hs c).map (· + 1)

/-- The `strrchr` of `<string.h>`: offset of the last `c` in `s`. -/
def strrchr : List Char → Char → Option Nat
  | [], _ => none
  | h :: hs, c =>
    match strrchr hs c with
    | some i => some (i + 1)
    | none => if h = c then some 0 else none

/-- The test `strncmp (a, b, n) == 0` on NUL-free strings: the first `n` bytes
agree, the end of a shorter string included. -/
def strncmp_eq (a b : List Char) (n : Nat) : Bool :=
  a.take n == b.take n

/-- Value of a run of decimal digits, accumulated left to right. -/
def digits_value (ds : List Char) : Nat :=
  ds.foldl (fun acc c => acc * 10 + (c.toNat - 48)) 0

/-- The `strtol (s, &end, 10)` of `<stdlib.h>`: leading white space, an
optional sign, then the longest run of digits.  Returns the value, clamped to
the range of `long`, and `end - s`; with no digit the result is `(0, 0)`. -/
def strtol (s : List Char) : Int × Nat :=
  let ws := s.takeWhile isspace
  let s1 := s.drop ws.length
  let neg := s1.head? = some '-'
  let signLen := if s1.head? = some '-' ∨ s1.head? = some '+' then 1 else 0
  let ds := (s1.drop signLen).takeWhile isdigit
  if ds.isEmpty then (0, 0)
  else
    let mag : Int := digits_value ds
    let v : Int := if neg then -mag else mag
    (max LONG_MIN (min LONG_MAX v), ws.length + signLen + ds.length)

/-- The `%ld` conversion of `printf`. -/
def fmt_ld (v : Int) : List Char :=
  if v < 0 then '-' :: (Nat.repr v.natAbs).toList else (Nat.repr v.toNat).toList

/-- What `snprintf (buf, size, ...)` leaves in `buf` when the formatted text is
`text`: at most `size - 1` bytes. -/
def snprintf (size : Nat) (text : List Char) : List Char :=
  text.take (size - 1)

/-- A `%N[^...]` conversion of `scanf`: the longest prefix of the input, of at
most `width` bytes, that avoids the excluded bytes; the conversion fails when
that prefix is empty.  Returns the token and the rest of the input. -/
def scanset (width : Nat) (excluded : Char → Bool) (s : List Char) :
    Option (List Char × List Char) :=
  let tok := (s.takeWhile (fun c => !excluded c)).take width
  if tok.isEmpty then none else some (tok, s.drop tok.length)

/-- Result of the `sscanf` call of `parse_installation_output`: its return
value and the three output buffers. -/
structure ScanResult where
  count : Int
  percent_str : List Char
  speed_str : List Char
  time_str : List Char
deriving DecidableEq, Repr

/-- The call `sscanf (input, " %9[^ ] %19[^ ] %9[^ \n]", percent_str, speed_str,
time_str)`; the last three arguments are the buffers as they are before the
call.  A blank in the format skips any white space; the return value is the
number of conversions stored, or `EOF = -1` when the input ends before the
first one. -/
def sscanf_progress (input percent_str speed_str time_str : List Char) : ScanResult :=
  let s0 := input.dropWhile isspace
  match scanset 9 (fun c => c = ' ') s0 with
  | none => ⟨if s0.isEmpty then -1 else 0, percent_str, speed_str, time_str⟩
  | some (p, s1) =>
    match scanset 19 (fun c => c = ' ') (s1.dropWhile isspace) with
    | none => ⟨1, p, speed_str, time_str⟩
    | some (sp, s2) =>
      match scanset 9 (fun c => c = ' ' || c = '\n') (s2.dropWhile isspace) with
      | none => ⟨2, p, sp, time_str⟩
      | some (t, _) => ⟨3, p, sp, t⟩

/-! ## `parse_installation_output` -/

/-- The marker of a tagged transfer-progress line. -/
def RSYNC_TAG : List Char := "RSYNC_PROGRESS:".toList

/-- Lines 171-183: the percentage of a raw transfer line.  The scan stops at the
first digit of the line; the number read there is kept only when a `%` follows
it, and is printed with `%ld%%` into a 10-byte buffer. -/
def extract_percent (line : List Char) : List Char :=
  let p := line.dropWhile (fun c => !isdigit c)
  match p with
  | [] => "0%".toList
  | c :: _ =>
    if isdigit c then
      let r := strtol p
      if r.2 > 0 ∧ (p.drop r.2).head? = some '%' then
        snprintf 10 (fmt_ld r.1 ++ "%".toList)
      else "0%".toList
    else "0%".toList

/-- The bytes the backward scan of lines 190-194 steps over. -/
def is_speed_char (c : Char) : Bool :=
  isdigit c || c = '.' || c = 'M' || c = 'K' || c = 'G'

/-- Lines 185-200: the speed of a raw transfer line.  From the first `"B/s"` of
the line the scan walks back over digits, `.`, `M`, `K`, `G`; the token is
copied when it fits the 20-byte buffer. -/
def extract_speed (line : List Char) : List Char :=
  match strstr line "B/s".toList with
  | none => "0.0MB/s".toList
  | some speed_pos =>
    let back := ((line.take speed_pos).reverse.takeWhile is_speed_char).length
    let speed_start := speed_pos - back
    let speed_len := speed_pos - speed_start + 3
    if speed_len < 20 then (line.drop speed_start).take speed_len
    else "0.0MB/s".toList

/-- Lines 214-304: the ordinary path.  A non-empty line goes to the log, then
the control prefixes are tried in turn. -/
def parse_control_line (line : List Char) (app : InstallerApp) :
    List OutputEvent × InstallerApp :=
  let log : List OutputEvent :=
    if line.length > 0 then [OutputEvent.LogLine line] else []
  if strncmp_eq line "PROGRESS:".toList 9 then
    let percent_str := line.drop 9
    match strchr percent_str ':' with
    | none => (log, app)
    | some k =>
      let message := percent_str.drop (k + 1)
      let r := strtol (percent_str.take k)
      if r.2 ≠ 0 ∧ r.1 ≥ 0 ∧ r.1 ≤ 100 then
        (log ++ [OutputEvent.ProgressUpdate r.1 message], app)
      else (log, app)
  else if strncmp_eq line "ERROR:".toList 6 then
    (log ++ [OutputEvent.ErrorNotice (line.drop 6)], app)
  else if strncmp_eq line "SUCCESS:".toList 8 then
    (log ++ [OutputEvent.SuccessDialog, OutputEvent.NavigationUpdate,
             OutputEvent.ProgressUpdate 100 "Installation complete!".toList,
             OutputEvent.StatusUpdate "Installation completed successfully!".toList],
     { app with config :=
        { app.config with installation_complete := true, installation_started := false } })
  else if strncmp_eq line "INFO:".toList 5 then
    (log ++ [OutputEvent.StatusUpdate (line.drop 5)], app)
  else if line.length > 0 then
    if (strchr line ':').isSome ∧
        ¬ strncmp_eq line "PROGRESS:".toList 9 ∧
        ¬ strncmp_eq line "ERROR:".toList 6 ∧
        ¬ strncmp_eq line "SUCCESS:".toList 8 ∧
        ¬ strncmp_eq line "INFO:".toList 5 then
      (log ++ [OutputEvent.StatusUpdate line], app)
    else if line.length < 100 then
      (log ++ [OutputEvent.StatusUpdate line], app)
    else (log, app)
  else (log, app)

/-- The function `parse_installation_output (line, app)` of installer.c, for
non-NULL arguments: the events it posts, in order, and the session afterwards. -/
def parse_installation_output (line : List Char) (app : InstallerApp) :
    List OutputEvent × InstallerApp :=
  if (strstr line RSYNC_TAG).isSome then
    let progress_info := line.drop RSYNC_TAG.length
    let r := sscanf_progress progress_info "0%".toList "0.0MB/s".toList "0:00:00".toList
    if r.count ≥ 1 then
      let clean_progress := snprintf 256
        ("Copying files: ".toList ++ r.percent_str ++ " ".toList ++ r.speed_str ++
          " ".toList ++ r.time_str)
      ([OutputEvent.LogLineReplace clean_progress,
        OutputEvent.StatusUpdate
          ("Copying system files... ".toList ++ r.percent_str ++ " ".toList ++ r.speed_str)],
       app)
    else parse_control_line line app
  else if (strstr line "MB/s".toList).isSome ∨ (strstr line "KB/s".toList).isSome ∨
      (strstr line "GB/s".toList).isSome then
    let percent_str := extract_percent line
    let speed_str := extract_speed line
    let clean_progress := snprintf 256
      ("Copying: ".toList ++ percent_str ++ " ".toList ++ speed_str)
    ([OutputEvent.LogLineReplace clean_progress], app)
  else parse_control_line line app

/-! ## The read loop of `run_installation_thread` -/

/-- The NUL byte. -/
def NUL : Char := Char.ofNat 0

/-- The string that `strcspn`, `strrchr` and `strlen` see in a buffer filled by
`fgets`: the bytes before the first NUL that was read, if one was. -/
def c_string (buffer : List Char) : List Char :=
  buffer.takeWhile (fun c => c ≠ NUL)

/-- Lines 583-606: the body of the read loop for one buffer filled by `fgets`.
The string in the buffer is cut at its newline; when it holds a carriage return
only the text after the last one is kept, and the line is skipped when that text
is empty or starts with a space. -/
def read_loop_body (line_buffer : List Char) (app : InstallerApp) :
    List OutputEvent × InstallerApp :=
  let line_buffer := (c_string line_buffer).takeWhile (fun c => c ≠ '\n')
  match strrchr line_buffer '\r' with
  | some last_cr =>
    let clean_line := line_buffer.drop (last_cr + 1)
    if clean_line.length = 0 ∨ clean_line.head? = some ' ' then ([], app)
    else parse_installation_output clean_line app
  | none => parse_installation_output line_buffer app

/-- A session whose worker is running, as `start_installation` leaves it. -/
def running_app : InstallerApp :=
  { config := { installation_started := true, installation_complete := false },
    thread_running := true }

/-- The `%d` conversion of `printf`. -/
def fmt_d (v : Int) : List Char :=
  if v < 0 then '-' :: (Nat.repr v.natAbs).toList else (Nat.repr v.toNat).toList

/-- Lines 580-607: the read loop over the buffers that `fgets` fills, in the
order in which it fills them. -/
def read_loop : List (List Char) → InstallerApp → List OutputEvent × InstallerApp
  | [], app => ([], app)
  | line_buffer :: rest, app =>
    let r := read_loop_body line_buffer app
    let rs := read_loop rest r.2
    (r.1 ++ rs.1, rs.2)

/-- The value `pclose` returns for a command that ends by `exit (c)`: the wait
status of `waitpid`, which carries the exit code in bits 8 to 15 (the bits that
`WEXITSTATUS` reads). -/
def pclose_status (c : Nat) : Int :=
  ((c % 256) * 256 : Nat)

/-- Lines 609-666: the end of the stream.  `exit_code` is the value that `pclose`
returned.  The exit line goes to the log, both session flags are written, and
the success or the failure events follow; with no message catalogue `_()`
returns its argument. -/
def end_of_stream (exit_code : Int) (app : InstallerApp) :
    List OutputEvent × InstallerApp :=
  let exit_msg := snprintf 256
    ("=== Installation process finished with exit code: ".toList ++ fmt_d exit_code ++
      " ===".toList)
  let app1 : InstallerApp :=
    { app with config :=
      { app.config with installation_complete := true, installation_started := false } }
  if exit_code = 0 ∨ exit_code = 23 ∨ exit_code = 24 then
    ([OutputEvent.LogLine exit_msg, OutputEvent.NavigationUpdate,
      OutputEvent.NavigationUpdate,
      OutputEvent.LogLine "=== Installation completed successfully! ===".toList,
      OutputEvent.ProgressUpdate 100 "Installation complete!".toList], app1)
  else
    let error_msg := "Installation failed with exit code ".toList ++ fmt_d exit_code
    ([OutputEvent.LogLine exit_msg, OutputEvent.NavigationUpdate,
      OutputEvent.LogLine error_msg, OutputEvent.ErrorNotice error_msg], app1)

/-- Lines 580-666: the read loop followed by the end of the stream. -/
def read_and_finish (buffers : List (List Char)) (exit_code : Int) (app : InstallerApp) :
    List OutputEvent × InstallerApp :=
  let r := read_loop buffers app
  let f := end_of_stream exit_code r.2
  (r.1 ++ f.1, f.2)

/-! ## Starting a session, and the two threads -/

/-- The function `start_installation` of installer.c: whether a worker thread
was created, and the session afterwards.  `pthread_create_ok` tells whether
`pthread_create` returns 0.  The widget calls leave the session as it is. -/
def start_installation (pthread_create_ok : Bool) (app : InstallerApp) :
    Bool × InstallerApp :=
  if app.config.installation_started then (false, app)
  else
    let app1 : InstallerApp :=
      { app with config := { app.config with installation_started := true } }
    if pthread_create_ok then (true, { app1 with thread_running := true })
    else (false, { app1 with config := { app1.config with installation_started := false } })

/-- The session part of `show_error_dialog` (ui.c). -/
def show_error_dialog (app : InstallerApp) : InstallerApp :=
  { app with config := { app.config with installation_started := false } }

/-- The session part of `show_success_dialog` (ui.c). -/
def show_success_dialog (app : InstallerApp) : InstallerApp :=
  { app with config := { app.config with installation_complete := true } }

/-- What running a posted callback does to the session: the two dialogs write a
flag, the other callbacks touch widgets only. -/
def run_callback : OutputEvent → InstallerApp → InstallerApp
  | OutputEvent.ErrorNotice _, app => show_error_dialog app
  | OutputEvent.SuccessDialog, app => show_success_dialog app
  | _, app => app

/-- The session with its threads: the shared `InstallerApp`, the number of
worker threads that were created and have not yet left their read loop, and the
callbacks posted and not yet run by the main loop. -/
structure Session where
  app : InstallerApp
  workers : Nat
  idle_queue : List OutputEvent
deriving DecidableEq, Repr

/-- One step of either thread. -/
inductive Action where
  /-- The main thread calls `start_installation`. -/
  | start (pthread_create_ok : Bool)
  /-- A worker in its read loop gets one buffer from `fgets`. -/
  | read_line (line_buffer : List Char)
  /-- The main loop runs the oldest posted callback. -/
  | run_idle
  /-- The read of a worker returns NULL: it leaves the loop with this `pclose` value. -/
  | end_of_stream (exit_code : Int)
deriving DecidableEq, Repr

/-- The effect of one step; a worker step needs a worker in its loop. -/
def step (s : Session) : Action → Session
  | Action.start ok =>
    let r := start_installation ok s.app
    { s with app := r.2, workers := if r.1 then s.workers + 1 else s.workers }
  | Action.read_line line_buffer =>
    if s.workers = 0 then s
    else
      let r := read_loop_body line_buffer s.app
      { s with app := r.2, idle_queue := s.idle_queue ++ r.1 }
  | Action.run_idle =>
    match s.idle_queue with
    | [] => s
    | e :: rest => { s with app := run_callback e s.app, idle_queue := rest }
  | Action.end_of_stream exit_code =>
    if s.workers = 0 then s
    else
      let r := end_of_stream exit_code s.app
      { app := r.2, workers := s.workers - 1, idle_queue := s.idle_queue ++ r.1 }

/-- A sequence of steps. -/
def run_steps (s : Session) (actions : List Action) : Session :=
  actions.foldl step s

/-- The session as `installer_run` sets it up. -/
def initial_app : InstallerApp :=
  { config := { installation_started := false, installation_complete := false },
    thread_running := false }

/-- The initial session: no worker, nothing posted. -/
def initial_session : Session :=
  { app := initial_app, workers := 0, idle_queue := [] }

/-! ## Reading the stream, and the whole worker -/

/-- The bytes that one call `fgets (buf, n + 1, fp)` takes from the stream: at
most `n`, up to and including the first newline.  Returns the buffer and the
rest of the stream. -/
def fgets_take : Nat → List Char → List Char × List Char
  | 0, s => ([], s)
  | _ + 1, [] => ([], [])
  | n + 1, c :: s =>
    if c = '\n' then ([c], s)
    else
      let r := fgets_take n s
      (c :: r.1, r.2)

/-- The loop `while (fgets (line_buffer, sizeof (line_buffer), fp))` with the
2048-byte buffer of line 569: the buffers it fills until the end of the file.
`fuel` bounds the number of calls. -/
def fgets_loop : Nat → List Char → List (List Char)
  | 0, _ => []
  | _ + 1, [] => []
  | fuel + 1, c :: s =>
    let r := fgets_take 2047 (c :: s)
    r.1 :: fgets_loop fuel r.2

/-- The buffers read from a stream: every call takes at least one byte, so as
many calls as the stream has bytes are enough. -/
def stream_buffers (stream : List Char) : List (List Char) :=
  fgets_loop stream.length stream

/-- The function `run_installation_thread` of installer.c.  `safe_cmd` is the
command line written to the log (lines 521-538); `popen_result` is
`Except.error (strerror (errno))` when `popen` fails, and otherwise the bytes
the command writes and the value of `pclose`. -/
def run_installation_thread (safe_cmd : List Char)
    (popen_result : Except (List Char) (List Char × Int)) (app : InstallerApp) :
    List OutputEvent × InstallerApp :=
  let startup : List OutputEvent :=
    [OutputEvent.NavigationUpdate, OutputEvent.ClearLog,
     OutputEvent.LogLine "=== Starting LOC-OS Installation ===".toList,
     OutputEvent.StatusUpdate "Preparing installation...".toList,
     OutputEvent.ProgressUpdate 0 "Starting...".toList,
     OutputEvent.LogLine "=== Installation Command (passwords hidden) ===".toList,
     OutputEvent.LogLine safe_cmd]
  match popen_result with
  | Except.error err =>
    let error_msg := "Failed to start installation process: ".toList ++ err
    (startup ++ [OutputEvent.LogLine error_msg, OutputEvent.ErrorNotice error_msg,
       OutputEvent.NavigationUpdate],
     { app with config :=
        { app.config with installation_started := false, installation_complete := false } })
  | Except.ok (stream, exit_code) =>
    let r := read_and_finish (stream_buffers stream) exit_code app
    (startup ++ [OutputEvent.StatusUpdate "Installation in progress...".toList] ++ r.1, r.2)

/-- The page of the progress tab (`TAB_PROGRESS`, installer.h). -/
def TAB_PROGRESS : Int := 3

/-- The page of the user tab (`TAB_USER`, installer.h). -/
def TAB_USER : Int := 2

/-- The page of the regional tab (`TAB_REGIONAL`, installer.h). -/
def TAB_REGIONAL : Int := 0

/-- What `update_navigation_buttons` makes visible and sensitive. -/
structure NavButtons where
  show_prev : Bool
  show_next : Bool
  show_install : Bool
  show_finish : Bool
deriving DecidableEq, Repr

/-- The function `update_navigation_buttons` of tools.c with all widgets
created: the four buttons as a function of `app->last_page` and of the session
flags. -/
def update_navigation_buttons (last_page : Int) (app : InstallerApp) : NavButtons :=
  { show_prev := decide (last_page > TAB_REGIONAL) && decide (last_page ≤ TAB_USER),
    show_next := decide (last_page ≥ TAB_REGIONAL) && decide (last_page < TAB_USER),
    show_install := decide (last_page = TAB_USER) && !app.config.installation_started,
    show_finish := decide (last_page = TAB_PROGRESS) && app.config.installation_complete }

/-! ## Validation and storage of the credentials (tools.c) -/

/-- The test `c >= 'a' && c <= 'z'`. -/
def is_lower (c : Char) : Bool := 97 ≤ c.toNat && c.toNat ≤ 122

/-- The test `c >= 'A' && c <= 'Z'`. -/
def is_upper (c : Char) : Bool := 65 ≤ c.toNat && c.toNat ≤ 90

/-- The function `is_valid_username` of tools.c; `none` is the NULL pointer. -/
def is_valid_username (username : Option (List Char)) : Bool :=
  match username with
  | none => false
  | some u =>
    if u.length < 2 ∨ u.length > 32 then false
    else if u.all (fun c => is_lower c || is_upper c || isdigit c || c = '_' || c = '-') then
      !(match u.head? with
        | some c => isdigit c
        | none => false)
    else false

/-- The function `is_valid_hostname` of tools.c. -/
def is_valid_hostname (hostname : Option (List Char)) : Bool :=
  match hostname with
  | none => false
  | some h =>
    if h.length < 1 ∨ h.length > 63 then false
    else if h.all (fun c => is_lower c || is_upper c || isdigit c || c = '-') then
      !(decide (h.head? = some '-') || decide (h.getLast? = some '-'))
    else false

/-- The function `is_valid_password` of tools.c. -/
def is_valid_password (password : Option (List Char)) : Bool :=
  match password with
  | none => false
  | some p => !decide (p.length < 1)

/-- What `g_strlcpy (dest, src, dest_size)` leaves in `dest`, for a positive
size: at most `dest_size - 1` bytes of `src`. -/
def g_strlcpy (src : List Char) (dest_size : Nat) : List Char :=
  src.take (dest_size - 1)

/-- The credential fields of `InstallConfig`: `username[32]`, `realname[64]`,
`hostname[64]`, `password[64]`, `root_password[64]`. -/
structure Credentials where
  username : List Char
  realname : List Char
  hostname : List Char
  password : List Char
  root_password : List Char
deriving DecidableEq, Repr

/-- Lines 1217-1389 of `on_install_clicked`: the checks on the entries (texts of
`GtkEntry` widgets, never NULL, already valid UTF-8) and the copies into the
configuration; `none` when a check shows its dialog and returns. -/
def on_install_clicked_credentials (username realname hostname password confirm : List Char)
    (same_root_password : Bool) (root_password root_confirm : List Char) :
    Option Credentials :=
  if username.length < 2 then none
  else if password.length < 1 then none
  else if password ≠ confirm then none
  else if !is_valid_username (some username) then none
  else if !is_valid_hostname (some hostname) then none
  else if !is_valid_password (some password) then none
  else
    let stored_root : Option (List Char) :=
      if !same_root_password then
        if root_password.length < 1 then none
        else if root_password ≠ root_confirm then none
        else if !is_valid_password (some root_password) then none
        else some (g_strlcpy root_password 64)
      else some (g_strlcpy password 64)
    match stored_root with
    | none => none
    | some root =>
      some { username := g_strlcpy username 32,
             realname := g_strlcpy realname 64,
             hostname := g_strlcpy hostname 64,
             password := g_strlcpy password 64,
             root_password := root }

/-! ## Codes and devices of the combo entries (tools.c) -/

/-- The `strpbrk` of `<string.h>`: offset of the first byte of `s` that occurs
in `accept`. -/
def strpbrk : List Char → List Char → Option Nat
  | [], _ => none
  | c :: s, accept => if c ∈ accept then some 0 else (strpbrk s accept).map (· + 1)

/-- The trimming loop of `extract_code` and `extract_device`: trailing white
space is cut, but never the first byte. -/
def trim_end : List Char → List Char
  | [] => []
  | c :: rest => c :: (rest.reverse.dropWhile isspace).reverse

/-- The function `extract_code` of tools.c on valid UTF-8 (which
`g_utf8_make_valid` returns unchanged). -/
def extract_code (text : Option (List Char)) : Option (List Char) :=
  match text with
  | none => none
  | some t =>
    let code := match strpbrk t " -".toList with
      | some i => t.take i
      | none => t
    let code := match strchr code '(' with
      | some i => code.take i
      | none => code
    some (trim_end code)

/-- The function `extract_device` of tools.c: its return value and the content
of `buffer` afterwards. -/
def extract_device (display_text : Option (List Char)) (buffer : List Char)
    (buffer_size : Nat) : Bool × List Char :=
  let rejected : Bool × List Char := (false, if buffer_size > 0 then [] else buffer)
  match display_text with
  | none => rejected
  | some text =>
    if strncmp_eq text "(None)".toList 6 then rejected
    else
      let separator := match strchr text '|' with
        | some i => some i
        | none => strstr text " - ".toList
      let whole : Bool × List Char :=
        (true, if buffer_size > 0 then g_strlcpy text buffer_size else buffer)
      match separator with
      | some len => if len < buffer_size then (true, trim_end (text.take len)) else whole
      | none => whole

/-! ## The timezone table (tools.c) -/

/-- The sign of `strcmp (a, b)`: the bytes are compared as unsigned values and
the string that ends first is the smaller one. -/
def strcmp : List Char → List Char → Int
  | [], [] => 0
  | [], _ :: _ => -1
  | _ :: _, [] => 1
  | x :: xs, y :: ys =>
    if x.toNat < y.toNat then -1
    else if y.toNat < x.toNat then 1
    else strcmp xs ys

/-- The `TimezoneRegion` of `load_timezones_hierarchical`: a name and its
array of cities. -/
structure TimezoneRegion where
  name : List Char
  cities : List (List Char)
deriving DecidableEq, Repr

/-- Lines 190-232: the city is appended unless an equal one is there (the two
branches of the source do the same). -/
def add_city (cities : List (List Char)) (city_name : List Char) : List (List Char) :=
  if cities.any (fun c => strcmp c city_name = 0) then cities else cities ++ [city_name]

/-- Lines 233-239: a zone without slash gives its region the empty city when
the region has no city yet. -/
def add_empty_city (cities : List (List Char)) : List (List Char) :=
  if cities.length = 0 then [[]] else cities

/-- Lines 166-183 and the city step: the first region of that name gets its
cities updated; when there is none a new region is appended. -/
def update_region (region_name : List Char) (f : List (List Char) → List (List Char)) :
    List TimezoneRegion → List TimezoneRegion
  | [] => [{ name := region_name, cities := f [] }]
  | r :: rs =>
    if strcmp r.name region_name = 0 then { r with cities := f r.cities } :: rs
    else r :: update_region region_name f rs

/-- The names skipped at lines 152-156. -/
def is_special_zone (tz : List Char) : Bool :=
  strcmp tz "leapseconds".toList = 0 || strcmp tz "tzdata.zi".toList = 0 ||
    strcmp tz "Factory".toList = 0

/-- One turn of the loop of lines 148-240. -/
def add_zone (regions : List TimezoneRegion) (tz : List Char) : List TimezoneRegion :=
  if is_special_zone tz then regions
  else
    match strchr tz '/' with
    | some i => update_region (tz.take i) (fun cs => add_city cs (tz.drop (i + 1))) regions
    | none => update_region tz add_empty_city regions

/-- The inner loop of the two sorts (lines 244-250, 256-262): the element at
position `i` is compared with each later one and exchanged with it when it is
the greater; returns the element left at position `i` and the later ones. -/
def exchange_pass {α : Type} (key : α → List Char) (x : α) : List α → α × List α
  | [] => (x, [])
  | y :: ys =>
    if strcmp (key x) (key y) > 0 then
      let r := exchange_pass key y ys
      (r.1, x :: r.2)
    else
      let r := exchange_pass key x ys
      (r.1, y :: r.2)

/-- The outer loop of the two sorts: `n` turns, one position each. -/
def exchange_sort_from {α : Type} (key : α → List Char) : Nat → List α → List α
  | 0, l => l
  | _ + 1, [] => []
  | n + 1, x :: xs =>
    let r := exchange_pass key x xs
    r.1 :: exchange_sort_from key n r.2

/-- The exchange sort of lines 242-265 on the keys compared by `strcmp`: the
outer loop runs over all positions but the last. -/
def exchange_sort {α : Type} (key : α → List Char) (l : List α) : List α :=
  exchange_sort_from key (l.length - 1) l

/-- The two arrays that `load_timezones_hierarchical` stores: `region_names`,
and for each region, at the same index, its cities (`timezone_regions`). -/
structure TimezoneTable where
  region_names : List (List Char)
  timezone_regions : List (List (List Char))
deriving DecidableEq, Repr

/-- The regions after the loop and the two sorts (lines 148-265). -/
def sorted_regions (timezones : List (List Char)) : List TimezoneRegion :=
  (exchange_sort (fun r => r.name) (timezones.foldl add_zone [])).map
    (fun r => { r with cities :=
      if r.cities.length > 1 then exchange_sort (fun c => c) r.cities else r.cities })

/-- The function `load_timezones_hierarchical` of tools.c on the list that
`get_timezones` returns (the empty list also stands for NULL). -/
def load_timezones_hierarchical (timezones : List (List Char)) : TimezoneTable :=
  if timezones.length = 0 then
    { region_names := ["America".toList],
      timezone_regions := [["New_York".toList, "Los_Angeles".toList, "Chicago".toList,
        "Denver".toList, "Mexico_City".toList]] }
  else
    { region_names := (sorted_regions timezones).map (fun r => r.name),
      timezone_regions := (sorted_regions timezones).map (fun r => r.cities) }

/-- The function `get_selected_timezone` of tools.c on `region` and `city`,
the active texts of the two combos as `g_utf8_make_valid` returns them (`none`
for NULL).  The result is `some` of the string returned; it is `none` for the
regions `UTC` and `GMT`, where lines 22-25 free `region` and then copy it, so
that the bytes returned are not determined by the arguments. -/
def get_selected_timezone (region city : Option (List Char)) : Option (List Char) :=
  match region with
  | none => some "UTC".toList
  | some r =>
    if strcmp r "UTC".toList = 0 ∨ strcmp r "GMT".toList = 0 then none
    else
      match city with
      | some (c :: cs) => some (r ++ "/".toList ++ (c :: cs))
      | _ =>
        if strcmp r "America".toList = 0 then some "America/New_York".toList
        else if strcmp r "Europe".toList = 0 then some "Europe/London".toList
        else if strcmp r "Asia".toList = 0 then some "Asia/Tokyo".toList
        else if strcmp r "Australia".toList = 0 then some "Australia/Sydney".toList
        else some "UTC".toList

/-! ## Vocabulary of the properties -/

/-- The line contains the marker `RSYNC_PROGRESS:`. -/
def contains_tag (line : List Char) : Prop :=
  "RSYNC_PROGRESS:".toList <:+: line

/-- The line contains one of the byte-rate units `MB/s`, `KB/s`, `GB/s`. -/
def contains_rate_unit (line : List Char) : Prop :=
  "MB/s".toList <:+: line ∨ "KB/s".toList <:+: line ∨ "GB/s".toList <:+: line

/-- Value of a decimal numeral, most significant digit first, by Mathlib's
`Nat.ofDigits` (which takes the least significant digit first). -/
def numeral_value (d : List Char) : Nat :=
  Nat.ofDigits 10 ((d.map (fun c => c.toNat - 48)).reverse)

/-- Value of an integer numeral: an optional sign followed by one or more
decimal digits and nothing else; `none` for any other text. -/
def integer_numeral (f : List Char) : Option Int :=
  match f with
  | '-' :: ds => if ds ≠ [] ∧ ds.all isdigit then some (-(numeral_value ds : Int)) else none
  | '+' :: ds => if ds ≠ [] ∧ ds.all isdigit then some (numeral_value ds : Int) else none
  | ds => if ds ≠ [] ∧ ds.all isdigit then some (numeral_value ds : Int) else none

/-- A field of a tagged progress line: non-empty, free of white space, and of
at most `width` bytes. -/
def is_field (width : Nat) (tok : List Char) : Prop :=
  tok ≠ [] ∧ (∀ c ∈ tok, isspace c = false) ∧ tok.length ≤ width

/-- Strict byte order on strings: lexicographic on the byte values, a proper
prefix being the smaller. -/
def byte_lt (a b : List Char) : Prop :=
  List.Lex (fun x y : Char => x.toNat < y.toNat) a b

/-- The regions keep different names, and each keeps different cities. -/
def regions_distinct (regions : List TimezoneRegion) : Prop :=
  (regions.map (fun r => r.name)).Nodup ∧ ∀ r ∈ regions, r.cities.Nodup

/-- Region `R` of the list has the city `C`. -/
def has_city (regions : List TimezoneRegion) (R C : List Char) : Prop :=
  ∃ r ∈ regions, r.name = R ∧ C ∈ r.cities

/-- A step that leaves `installation_started` set: a further call of
`start_installation`, the main loop running a posted callback, or the worker
reading a buffer that holds neither `SUCCESS:` nor `ERROR:`.  The end of the
stream is not such a step. -/
def keeps_started : Action → Prop
  | Action.start _ => True
  | Action.run_idle => True
  | Action.read_line line_buffer =>
    ¬ "SUCCESS:".toList <:+: line_buffer ∧ ¬ "ERROR:".toList <:+: line_buffer
  | Action.end_of_stream _ => False

/-- One worker is in its read loop, `installation_started` is set and no
`show_error_dialog` is waiting in the main loop. -/
def one_worker_reading (s : Session) : Prop :=
  s.workers = 1 ∧ s.app.config.installation_started = true ∧
    ∀ m, OutputEvent.ErrorNotice m ∉ s.idle_queue

/-- The ASCII letters, the digits, the underscore and the hyphen. -/
def NAME_CHARS : List Char :=
  "abcdefghijklmnopqrstuvwxyzABCDEFGHIJKLMNOPQRSTUVWXYZ0123456789_-".toList

/-- The decimal digits. -/
def DIGIT_CHARS : List Char := "0123456789".toList

instance (width : Nat) (tok : List Char) : Decidable (is_field width tok) := by
  unfold is_field; infer_instance

instance (line : List Char) : Decidable (contains_tag line) := by
  unfold contains_tag; infer_instance

instance (line : List Char) : Decidable (contains_rate_unit line) := by
  unfold contains_rate_unit; infer_instance

instance (a : Action) : Decidable (keeps_started a) := by
  cases a <;> (unfold keeps_started; infer_instance)

/-! ## Lemmas on the C library routines -/

theorem starts_with_iff (hay needle : List Char) :
    starts_with hay needle = true ↔ needle <+: hay := by
  induction hay generalizing needle with
  | nil =>
    cases needle with
    | nil => simp [starts_with]
    | cons n ns => simp [starts_with]
  | cons h hs ih =>
    cases needle with
    | nil => simp [starts_with]
    | cons n ns =>
      simp only [starts_with, Bool.and_eq_true, beq_iff_eq, ih, List.cons_prefix_cons]
      constructor
      · rintro ⟨rfl, h2⟩; exact ⟨rfl, h2⟩
      · rintro ⟨rfl, h2⟩; exact ⟨rfl, h2⟩

theorem strstr_isSome_iff (hay needle : List Char) :
    (strstr hay needle).isSome = true ↔ needle <:+: hay := by
  induction hay with
  | nil =>
    cases needle with
    | nil => simp [strstr]
    | cons n ns => simp [strstr]
  | cons h hs ih =>
    rw [List.infix_cons_iff, ← ih, ← starts_with_iff]
    by_cases hsw : starts_with (h :: hs) needle = true
    · simp [strstr, hsw]
    · simp [strstr, hsw]

theorem strstr_isSome_eq_false (hay needle : List Char) (h : ¬ needle <:+: hay) :
    (strstr hay needle).isSome = false := by
  rw [← strstr_isSome_iff] at h
  simpa using h

theorem strncmp_eq_iff (line pfx : List Char) :
    strncmp_eq line pfx pfx.length = true ↔ pfx <+: line := by
  unfold strncmp_eq
  rw [List.take_length, beq_iff_eq, List.prefix_iff_eq_take]
  exact eq_comm

theorem strchr_isSome_iff (s : List Char) (c : Char) :
    (strchr s c).isSome = true ↔ c ∈ s := by
  induction s with
  | nil => simp [strchr]
  | cons h hs ih =>
    unfold strchr
    by_cases hc : h = c
    · simp [hc]
    · have hc2 : ¬ c = h := fun e => hc e.symm
      simp [hc, hc2, ih]

theorem strchr_append_of_not_mem (a b : List Char) (c : Char) (h : c ∉ a) :
    strchr (a ++ c :: b) c = some a.length := by
  induction a with
  | nil => simp [strchr]
  | cons x xs ih =>
    have hx : ¬ x = c := fun e => h (by simp [e])
    have hxs : c ∉ xs := fun e => h (by simp [e])
    simp [strchr, hx, ih hxs]

theorem strrchr_eq_none (s : List Char) (c : Char) (h : c ∉ s) : strrchr s c = none := by
  induction s with
  | nil => simp [strrchr]
  | cons x xs ih =>
    have hx : ¬ x = c := fun e => h (by simp [e])
    have hxs : c ∉ xs := fun e => h (by simp [e])
    simp [strrchr, ih hxs, hx]

theorem strrchr_append_of_not_mem (a b : List Char) (c : Char) (h : c ∉ b) :
    strrchr (a ++ c :: b) c = some a.length := by
  induction a with
  | nil => simp [strrchr, strrchr_eq_none b c h]
  | cons x xs ih => simp [strrchr, ih]

theorem strchr_append_cons (a b : List Char) (c : Char) :
    ∃ k, k ≤ a.length ∧ strchr (a ++ c :: b) c = some k := by
  induction a with
  | nil => exact ⟨0, by simp, by simp [strchr]⟩
  | cons x xs ih =>
    obtain ⟨k, hk, hk2⟩ := ih
    by_cases hx : x = c
    · exact ⟨0, by simp, by simp [strchr, hx]⟩
    · exact ⟨k + 1, by simpa using hk, by simp [strchr, hx, hk2]⟩

theorem isdigit_not_special (c : Char) (h : isdigit c = true) :
    isspace c = false ∧ c ≠ '-' ∧ c ≠ '+' ∧ c ≠ ':' ∧ c ≠ ' ' := by
  unfold isdigit at h
  simp only [Bool.and_eq_true, decide_eq_true_eq] at h
  refine ⟨?_, ?_, ?_, ?_, ?_⟩
  · unfold isspace
    simp only [Bool.or_eq_false_iff, Bool.and_eq_false_iff, decide_eq_false_iff_not]
    omega
  all_goals
    intro e
    subst e
    revert h
    decide

theorem digits_value_foldl (ds : List Char) (acc : Nat) :
    ds.foldl (fun acc c => acc * 10 + (c.toNat - 48)) acc =
      acc * 10 ^ ds.length + numeral_value ds := by
  induction ds generalizing acc with
  | nil => simp [numeral_value]
  | cons c t ih =>
    rw [List.foldl_cons, ih]
    have ht := ih 0
    simp only [numeral_value, List.map_cons, List.reverse_cons, Nat.ofDigits_append,
      List.length_reverse, List.length_map, Nat.ofDigits_singleton, List.length_cons]
    ring

theorem digits_value_eq (ds : List Char) : digits_value ds = numeral_value ds := by
  unfold digits_value
  rw [digits_value_foldl]
  simp

theorem takeWhile_isdigit_run (ds rest : List Char) (hd : ∀ c ∈ ds, isdigit c = true)
    (hrest : rest.takeWhile isdigit = []) :
    (ds ++ rest).takeWhile isdigit = ds := by
  rw [List.takeWhile_append_of_pos hd, hrest, List.append_nil]

/-- The `strtol` of an unsigned run of digits. -/
theorem strtol_digits (ds rest : List Char) (hne : ds ≠ [])
    (hd : ∀ c ∈ ds, isdigit c = true) (hrest : rest.takeWhile isdigit = []) :
    strtol (ds ++ rest) = (max LONG_MIN (min LONG_MAX (numeral_value ds : Int)), ds.length) := by
  obtain ⟨c, t, rfl⟩ := List.exists_cons_of_ne_nil hne
  have hc := isdigit_not_special c (hd c (by simp))
  have hrun := takeWhile_isdigit_run (c :: t) rest hd hrest
  unfold strtol
  have hws : ((c :: t) ++ rest).takeWhile isspace = [] := by
    simp [List.takeWhile, hc.1]
  simp only [hws, List.length_nil, List.drop_zero]
  have hhead : ((c :: t) ++ rest).head? = some c := rfl
  have h1 : ¬ (some c = some '-') := by simpa using hc.2.1
  have h2 : ¬ (some c = some '+') := by simpa using hc.2.2.1
  simp only [hhead, h1, h2, or_self, if_false, List.drop_zero, hrun, digits_value_eq]
  simp

/-- The `strtol` of a run of digits behind a minus sign. -/
theorem strtol_minus_digits (ds rest : List Char) (hne : ds ≠ [])
    (hd : ∀ c ∈ ds, isdigit c = true) (hrest : rest.takeWhile isdigit = []) :
    strtol ('-' :: ds ++ rest) =
      (max LONG_MIN (min LONG_MAX (-(numeral_value ds : Int))), 1 + ds.length) := by
  have hrun := takeWhile_isdigit_run ds rest hd hrest
  have hne2 : ds.isEmpty = false := by
    cases ds with
    | nil => exact absurd rfl hne
    | cons _ _ => rfl
  unfold strtol
  have hws : ('-' :: ds ++ rest).takeWhile isspace = [] := by
    have : isspace '-' = false := by decide
    simp [List.takeWhile, this]
  simp only [hws, List.length_nil, List.drop_zero]
  have hhead : ('-' :: ds ++ rest).head? = some '-' := rfl
  simp only [hhead, true_or, if_true]
  have hdrop : List.drop 1 ('-' :: ds ++ rest) = ds ++ rest := rfl
  simp only [hdrop, hrun, hne2, digits_value_eq]
  simp

/-- The `strtol` of a run of digits behind a plus sign. -/
theorem strtol_plus_digits (ds rest : List Char) (hne : ds ≠ [])
    (hd : ∀ c ∈ ds, isdigit c = true) (hrest : rest.takeWhile isdigit = []) :
    strtol ('+' :: ds ++ rest) =
      (max LONG_MIN (min LONG_MAX (numeral_value ds : Int)), 1 + ds.length) := by
  have hrun := takeWhile_isdigit_run ds rest hd hrest
  have hne2 : ds.isEmpty = false := by
    cases ds with
    | nil => exact absurd rfl hne
    | cons _ _ => rfl
  unfold strtol
  have hws : ('+' :: ds ++ rest).takeWhile isspace = [] := by
    have : isspace '+' = false := by decide
    simp [List.takeWhile, this]
  simp only [hws, List.length_nil, List.drop_zero]
  have hhead : ('+' :: ds ++ rest).head? = some '+' := rfl
  have h1 : ¬ (some '+' = some '-') := by decide
  simp only [hhead, h1, or_true, if_true, if_false]
  have hdrop : List.drop 1 ('+' :: ds ++ rest) = ds ++ rest := rfl
  simp only [hdrop, hrun, hne2, digits_value_eq]
  simp

/-- Without a digit `strtol` converts nothing. -/
theorem strtol_no_digit (s : List Char) (h : ∀ c ∈ s, isdigit c = false) :
    strtol s = (0, 0) := by
  unfold strtol
  simp only
  have hnil : ∀ n : Nat,
      (List.drop n (List.drop (s.takeWhile isspace).length s)).takeWhile isdigit = [] := by
    intro n
    cases hrun : (List.drop n (List.drop (s.takeWhile isspace).length s)).takeWhile isdigit with
    | nil => rfl
    | cons c t =>
      have hmem : c ∈ (List.drop n (List.drop (s.takeWhile isspace).length s)).takeWhile isdigit := by
        rw [hrun]; simp
      have hdig := List.mem_takeWhile_imp hmem
      have hin : c ∈ s :=
        List.mem_of_mem_drop (List.mem_of_mem_drop ((List.takeWhile_sublist _).subset hmem))
      rw [h c hin] at hdig
      exact absurd hdig (by simp)
  rw [hnil]
  simp

theorem not_isspace_ne (c : Char) (h : isspace c = false) : c ≠ ' ' ∧ c ≠ '\n' := by
  constructor
  all_goals
    intro e
    subst e
    revert h
    decide

theorem dropWhile_isspace_field (tok rest : List Char) (hne : tok ≠ [])
    (hns : ∀ c ∈ tok, isspace c = false) :
    (' ' :: tok ++ rest).dropWhile isspace = tok ++ rest := by
  obtain ⟨c, t, rfl⟩ := List.exists_cons_of_ne_nil hne
  have hc : isspace c = false := hns c (by simp)
  have hsp : isspace ' ' = true := by decide
  simp [List.dropWhile, hsp, hc]

theorem scanset_field (width : Nat) (excluded : Char → Bool) (tok rest : List Char)
    (hne : tok ≠ []) (hex : ∀ c ∈ tok, excluded c = false) (hw : tok.length ≤ width)
    (hrest : rest.takeWhile (fun c => !excluded c) = []) :
    scanset width excluded (tok ++ rest) = some (tok, rest) := by
  have hrun : (tok ++ rest).takeWhile (fun c => !excluded c) = tok := by
    rw [List.takeWhile_append_of_pos, hrest, List.append_nil]
    intro c hc
    simp [hex c hc]
  have hemp : tok.isEmpty = false := by
    cases tok with
    | nil => exact absurd rfl hne
    | cons _ _ => rfl
  unfold scanset
  simp only [hrun, List.take_of_length_le hw, hemp, Bool.false_eq_true, if_false,
    List.drop_left]

theorem scanset_nil (width : Nat) (excluded : Char → Bool) :
    scanset width excluded [] = none := by
  simp [scanset]

theorem field_not_space (tok : List Char) (hns : ∀ c ∈ tok, isspace c = false) :
    ∀ c ∈ tok, (decide (c = ' ')) = false := by
  intro c hc
  simpa using (not_isspace_ne c (hns c hc)).1

theorem field_not_space_newline (tok : List Char) (hns : ∀ c ∈ tok, isspace c = false) :
    ∀ c ∈ tok, (decide (c = ' ') || decide (c = '\n')) = false := by
  intro c hc
  have h := not_isspace_ne c (hns c hc)
  simp [h.1, h.2]

/-- The `sscanf` call on one field. -/
theorem sscanf_one (p b0 b1 b2 : List Char) (hp : is_field 9 p) :
    sscanf_progress (' ' :: p) b0 b1 b2 = ⟨1, p, b1, b2⟩ := by
  obtain ⟨hne, hns, hw⟩ := hp
  have h0 := dropWhile_isspace_field p [] hne hns
  simp only [List.append_nil] at h0
  have h1 := scanset_field 9 (fun c => c = ' ') p [] hne (field_not_space p hns) hw rfl
  rw [List.append_nil] at h1
  unfold sscanf_progress
  simp only [h0, h1, List.dropWhile_nil, scanset_nil]

/-- The `sscanf` call on two fields. -/
theorem sscanf_two (p s b0 b1 b2 : List Char) (hp : is_field 9 p) (hs : is_field 19 s) :
    sscanf_progress (' ' :: p ++ ' ' :: s) b0 b1 b2 = ⟨2, p, s, b2⟩ := by
  obtain ⟨hne, hns, hw⟩ := hp
  obtain ⟨hne2, hns2, hw2⟩ := hs
  have h0 := dropWhile_isspace_field p (' ' :: s) hne hns
  have h1 := scanset_field 9 (fun c => c = ' ') p (' ' :: s) hne (field_not_space p hns) hw
    (by simp [List.takeWhile])
  have h2 := dropWhile_isspace_field s [] hne2 hns2
  simp only [List.append_nil] at h2
  have h3 := scanset_field 19 (fun c => c = ' ') s [] hne2 (field_not_space s hns2) hw2 rfl
  rw [List.append_nil] at h3
  unfold sscanf_progress
  simp only [h0, h1, h2, h3, List.dropWhile_nil, scanset_nil]

/-- The `sscanf` call on three fields. -/
theorem sscanf_three (p s t b0 b1 b2 : List Char) (hp : is_field 9 p) (hs : is_field 19 s)
    (ht : is_field 9 t) :
    sscanf_progress (' ' :: p ++ ' ' :: s ++ ' ' :: t) b0 b1 b2 = ⟨3, p, s, t⟩ := by
  obtain ⟨hne, hns, hw⟩ := hp
  obtain ⟨hne2, hns2, hw2⟩ := hs
  obtain ⟨hne3, hns3, hw3⟩ := ht
  have h0 := dropWhile_isspace_field p (' ' :: s ++ ' ' :: t) hne hns
  have h1 := scanset_field 9 (fun c => c = ' ') p (' ' :: s ++ ' ' :: t) hne
    (field_not_space p hns) hw (by simp [List.takeWhile])
  have h2 := dropWhile_isspace_field s (' ' :: t) hne2 hns2
  have h3 := scanset_field 19 (fun c => c = ' ') s (' ' :: t) hne2 (field_not_space s hns2) hw2
    (by simp [List.takeWhile])
  have h4 := dropWhile_isspace_field t [] hne3 hns3
  simp only [List.append_nil] at h4
  have h5 := scanset_field 9 (fun c => c = ' ' || c = '\n') t [] hne3
    (field_not_space_newline t hns3) hw3 rfl
  rw [List.append_nil] at h5
  have e : ' ' :: p ++ ' ' :: s ++ ' ' :: t = ' ' :: p ++ (' ' :: s ++ ' ' :: t) := by simp
  unfold sscanf_progress
  simp only [e, h0, h1, h2, h3, h4, h5]

/-! ## Lemmas on `parse_installation_output` -/

/-- A line that starts with the tag: the scan runs on the text after it. -/
theorem parse_tagged (info : List Char) (app : InstallerApp) (r : ScanResult)
    (hr : sscanf_progress info "0%".toList "0.0MB/s".toList "0:00:00".toList = r)
    (hcount : r.count ≥ 1) :
    parse_installation_output ("RSYNC_PROGRESS:".toList ++ info) app =
      ([OutputEvent.LogLineReplace (snprintf 256
          ("Copying files: ".toList ++ r.percent_str ++ " ".toList ++ r.speed_str ++
            " ".toList ++ r.time_str)),
        OutputEvent.StatusUpdate
          ("Copying system files... ".toList ++ r.percent_str ++ " ".toList ++ r.speed_str)],
       app) := by
  have htag : (strstr ("RSYNC_PROGRESS:".toList ++ info) RSYNC_TAG).isSome = true :=
    (strstr_isSome_iff _ _).mpr (List.prefix_append _ _).isInfix
  have hdrop : ("RSYNC_PROGRESS:".toList ++ info).drop RSYNC_TAG.length = info :=
    List.drop_left _ _
  unfold parse_installation_output
  simp only [htag, if_true, hdrop, hr, hcount]

theorem parse_without_marker (line : List Char) (app : InstallerApp)
    (h1 : ¬ contains_tag line) (h2 : ¬ contains_rate_unit line) :
    parse_installation_output line app = parse_control_line line app := by
  unfold contains_tag at h1
  unfold contains_rate_unit at h2
  simp only [not_or] at h2
  unfold parse_installation_output
  have e1 := strstr_isSome_eq_false line RSYNC_TAG h1
  have e2 := strstr_isSome_eq_false line _ h2.1
  have e3 := strstr_isSome_eq_false line _ h2.2.1
  have e4 := strstr_isSome_eq_false line _ h2.2.2
  simp only [e1, e2, e3, e4, Bool.false_eq_true, or_self, if_false]

theorem strncmp_progress (line : List Char) :
    strncmp_eq line "PROGRESS:".toList 9 = true ↔ "PROGRESS:".toList <+: line :=
  strncmp_eq_iff line "PROGRESS:".toList

theorem strncmp_error (line : List Char) :
    strncmp_eq line "ERROR:".toList 6 = true ↔ "ERROR:".toList <+: line :=
  strncmp_eq_iff line "ERROR:".toList

theorem strncmp_success (line : List Char) :
    strncmp_eq line "SUCCESS:".toList 8 = true ↔ "SUCCESS:".toList <+: line :=
  strncmp_eq_iff line "SUCCESS:".toList

theorem strncmp_info (line : List Char) :
    strncmp_eq line "INFO:".toList 5 = true ↔ "INFO:".toList <+: line :=
  strncmp_eq_iff line "INFO:".toList

/-- A tagged line with three fields within the buffer widths. -/
theorem parse_three_fields (p s t : List Char) (app : InstallerApp)
    (hp : is_field 9 p) (hs : is_field 19 s) (ht : is_field 9 t) :
    parse_installation_output
        ("RSYNC_PROGRESS:".toList ++ " ".toList ++ p ++ " ".toList ++ s ++ " ".toList ++ t) app =
      ([OutputEvent.LogLineReplace
          ("Copying files: ".toList ++ p ++ " ".toList ++ s ++ " ".toList ++ t),
        OutputEvent.StatusUpdate ("Copying system files... ".toList ++ p ++ " ".toList ++ s)],
       app) := by
  have e : "RSYNC_PROGRESS:".toList ++ " ".toList ++ p ++ " ".toList ++ s ++ " ".toList ++ t =
      "RSYNC_PROGRESS:".toList ++ (' ' :: p ++ ' ' :: s ++ ' ' :: t) := by simp
  rw [e, parse_tagged _ app _ (sscanf_three p s t _ _ _ hp hs ht) (by norm_num)]
  have hlen : ("Copying files: ".toList ++ p ++ " ".toList ++ s ++ " ".toList ++ t).length
      ≤ 256 - 1 := by
    have h1 := hp.2.2
    have h2 := hs.2.2
    have h3 := ht.2.2
    simp only [List.length_append]
    have : "Copying files: ".toList.length = 15 := rfl
    have : " ".toList.length = 1 := rfl
    omega
  simp only [snprintf, List.take_of_length_le hlen]

/-- A tagged line with two fields: the time keeps its initial value. -/
theorem parse_two_fields (p s : List Char) (app : InstallerApp)
    (hp : is_field 9 p) (hs : is_field 19 s) :
    parse_installation_output
        ("RSYNC_PROGRESS:".toList ++ " ".toList ++ p ++ " ".toList ++ s) app =
      ([OutputEvent.LogLineReplace
          ("Copying files: ".toList ++ p ++ " ".toList ++ s ++ " 0:00:00".toList),
        OutputEvent.StatusUpdate ("Copying system files... ".toList ++ p ++ " ".toList ++ s)],
       app) := by
  have e : "RSYNC_PROGRESS:".toList ++ " ".toList ++ p ++ " ".toList ++ s =
      "RSYNC_PROGRESS:".toList ++ (' ' :: p ++ ' ' :: s) := by simp
  rw [e, parse_tagged _ app _ (sscanf_two p s _ _ _ hp hs) (by norm_num)]
  have hlen : ("Copying files: ".toList ++ p ++ " ".toList ++ s ++ " ".toList ++
      "0:00:00".toList).length ≤ 256 - 1 := by
    have h1 := hp.2.2
    have h2 := hs.2.2
    simp only [List.length_append]
    have : "Copying files: ".toList.length = 15 := rfl
    have : " ".toList.length = 1 := rfl
    have : "0:00:00".toList.length = 7 := rfl
    omega
  simp only [snprintf, List.take_of_length_le hlen]
  simp

/-- A tagged line with one field: speed and time keep their initial values. -/
theorem parse_one_field (p : List Char) (app : InstallerApp) (hp : is_field 9 p) :
    parse_installation_output ("RSYNC_PROGRESS:".toList ++ " ".toList ++ p) app =
      ([OutputEvent.LogLineReplace
          ("Copying files: ".toList ++ p ++ " 0.0MB/s 0:00:00".toList),
        OutputEvent.StatusUpdate ("Copying system files... ".toList ++ p ++ " 0.0MB/s".toList)],
       app) := by
  have e : "RSYNC_PROGRESS:".toList ++ " ".toList ++ p =
      "RSYNC_PROGRESS:".toList ++ (' ' :: p) := by simp
  rw [e, parse_tagged _ app _ (sscanf_one p _ _ _ hp) (by norm_num)]
  have hlen : ("Copying files: ".toList ++ p ++ " ".toList ++ "0.0MB/s".toList ++ " ".toList ++
      "0:00:00".toList).length ≤ 256 - 1 := by
    have h1 := hp.2.2
    simp only [List.length_append]
    have : "Copying files: ".toList.length = 15 := rfl
    have : " ".toList.length = 1 := rfl
    have : "0:00:00".toList.length = 7 := rfl
    have : "0.0MB/s".toList.length = 7 := rfl
    omega
  simp only [snprintf, List.take_of_length_le hlen]
  simp

/-- The decimal numeral of a percentage with its `%` is a field. -/
theorem percent_numeral_field :
    ∀ n, n ≤ 100 → is_field 9 ((Nat.repr n).toList ++ "%".toList) := by
  decide

theorem takeWhile_dropWhile_nil (q : Char → Bool) (l : List Char) :
    (l.dropWhile q).takeWhile q = [] := by
  induction l with
  | nil => rfl
  | cons x xs ih =>
    by_cases hx : q x = true
    · rw [List.dropWhile_cons_of_pos hx]; exact ih
    · rw [List.dropWhile_cons_of_neg hx, List.takeWhile_cons_of_neg hx]

theorem extract_percent_length (line : List Char) : (extract_percent line).length ≤ 9 := by
  unfold extract_percent
  simp only
  split
  · decide
  · split
    · split
      · simp only [snprintf, List.length_take]
        omega
      · decide
    · decide

theorem extract_speed_length (line : List Char) : (extract_speed line).length ≤ 19 := by
  unfold extract_speed
  split
  · decide
  · simp only
    split
    · rename_i h
      simp only [List.length_take]
      omega
    · decide

/-- A raw transfer line posts one `LogLineReplace`, built from the two
extracted texts. -/
theorem parse_raw (line : List Char) (app : InstallerApp)
    (h1 : ¬ contains_tag line) (h2 : contains_rate_unit line) :
    parse_installation_output line app =
      ([OutputEvent.LogLineReplace
          ("Copying: ".toList ++ extract_percent line ++ " ".toList ++ extract_speed line)],
       app) := by
  have e1 := strstr_isSome_eq_false line RSYNC_TAG h1
  have e2 : (strstr line "MB/s".toList).isSome = true ∨ (strstr line "KB/s".toList).isSome = true ∨
      (strstr line "GB/s".toList).isSome = true := by
    unfold contains_rate_unit at h2
    simpa only [strstr_isSome_iff] using h2
  have hlen : ("Copying: ".toList ++ extract_percent line ++ " ".toList ++
      extract_speed line).length ≤ 256 - 1 := by
    have h3 := extract_percent_length line
    have h4 := extract_speed_length line
    simp only [List.length_append]
    have : "Copying: ".toList.length = 9 := rfl
    have : " ".toList.length = 1 := rfl
    omega
  unfold parse_installation_output
  simp only [e1, Bool.false_eq_true, if_false, e2, if_true, snprintf,
    List.take_of_length_le hlen]

/-- The percentage of a raw transfer line is decided at its first run of
digits. -/
theorem extract_percent_run (pre run rest : List Char)
    (hpre : ∀ c ∈ pre, isdigit c = false) (hne : run ≠ [])
    (hd : ∀ c ∈ run, isdigit c = true) (hrest : rest.takeWhile isdigit = []) :
    extract_percent (pre ++ run ++ rest) =
      if rest.head? = some '%' then
        ((Nat.repr (min (numeral_value run) (2 ^ 63 - 1))).toList ++ "%".toList).take 9
      else "0%".toList := by
  obtain ⟨c, t, rfl⟩ := List.exists_cons_of_ne_nil hne
  have hc : isdigit c = true := hd c (by simp)
  have hdrop : (pre ++ (c :: t) ++ rest).dropWhile (fun c => !isdigit c) = c :: (t ++ rest) := by
    rw [List.append_assoc, List.dropWhile_append_of_pos]
    · simp [List.dropWhile, hc]
    · intro a ha
      simp [hpre a ha]
  have hst := strtol_digits (c :: t) rest (by simp) hd hrest
  have hst2 : strtol (c :: (t ++ rest)) =
      (max LONG_MIN (min LONG_MAX (numeral_value (c :: t) : Int)), (c :: t).length) := hst
  have hrem : (c :: (t ++ rest)).drop (c :: t).length = rest := by
    simp
  have hfmt : fmt_ld (max LONG_MIN (min LONG_MAX (numeral_value (c :: t) : Int))) =
      (Nat.repr (min (numeral_value (c :: t)) (2 ^ 63 - 1))).toList := by
    have hnn : ¬ (max LONG_MIN (min LONG_MAX (numeral_value (c :: t) : Int)) < 0) := by
      unfold LONG_MIN LONG_MAX
      omega
    have hto : (max LONG_MIN (min LONG_MAX (numeral_value (c :: t) : Int))).toNat =
        min (numeral_value (c :: t)) (2 ^ 63 - 1) := by
      unfold LONG_MIN LONG_MAX
      omega
    unfold fmt_ld
    rw [if_neg hnn, hto]
  unfold extract_percent
  simp only [hdrop, hc, if_true, hst2, hrem, hfmt, snprintf]
  have hpos : (c :: t).length > 0 := by simp
  simp only [hpos, true_and]

/-- A line in which no digit stands right before a `%` shows `0%`. -/
theorem extract_percent_default (line : List Char)
    (h : ∀ a d b, line = a ++ d :: '%' :: b → isdigit d = false) :
    extract_percent line = "0%".toList := by
  have hsplit := List.takeWhile_append_dropWhile (fun c => !isdigit c) line
  have hpre : ∀ c ∈ line.takeWhile (fun c => !isdigit c), isdigit c = false := by
    intro c hc
    simpa using List.mem_takeWhile_imp hc
  cases hrem : line.dropWhile (fun c => !isdigit c) with
  | nil =>
    unfold extract_percent
    simp only [hrem]
  | cons x tl =>
    have hx : isdigit x = true := by
      have := List.head?_dropWhile_not (fun c => !isdigit c) line
      rw [hrem] at this
      simpa using this
    have hrun := List.takeWhile_append_dropWhile isdigit (x :: tl)
    have hrunne : (x :: tl).takeWhile isdigit ≠ [] := by
      rw [List.takeWhile_cons_of_pos hx]
      simp
    have hrund : ∀ c ∈ (x :: tl).takeWhile isdigit, isdigit c = true :=
      fun c hc => List.mem_takeWhile_imp hc
    have hline : line = line.takeWhile (fun c => !isdigit c) ++ (x :: tl).takeWhile isdigit ++
        (x :: tl).dropWhile isdigit := by
      rw [List.append_assoc, hrun, ← hrem, hsplit]
    have hres := extract_percent_run _ _ _ hpre hrunne hrund
      (takeWhile_dropWhile_nil isdigit (x :: tl))
    rw [← hline] at hres
    rw [hres]
    split
    · rename_i hhead
      exfalso
      obtain ⟨b, hb⟩ : ∃ b, (x :: tl).dropWhile isdigit = '%' :: b := by
        cases hdw : (x :: tl).dropWhile isdigit with
        | nil => rw [hdw] at hhead; exact absurd hhead (by simp)
        | cons y ys =>
          rw [hdw] at hhead
          simp only [List.head?_cons, Option.some.injEq] at hhead
          exact ⟨ys, by rw [hhead]⟩
      have hlast := List.dropLast_append_getLast hrunne
      have hdl := hrund _ (List.getLast_mem hrunne)
      have hfalse := h (line.takeWhile (fun c => !isdigit c) ++
        ((x :: tl).takeWhile isdigit).dropLast)
        (((x :: tl).takeWhile isdigit).getLast hrunne) b (by
          conv_lhs => rw [hline, hb, ← hlast]
          simp)
      rw [hfalse] at hdl
      exact absurd hdl (by simp)
    · rfl

/-- The first occurrence of the needle is the one `strstr` returns. -/
theorem strstr_first (pre needle post : List Char)
    (hfirst : ∀ a b, pre ++ needle ++ post = a ++ needle ++ b → pre.length ≤ a.length) :
    strstr (pre ++ needle ++ post) needle = some pre.length := by
  induction pre with
  | nil =>
    cases hn : [] ++ needle ++ post with
    | nil =>
      have : needle = [] := by
        cases needle with
        | nil => rfl
        | cons _ _ => simp at hn
      simp [strstr, this]
    | cons x xs =>
      have hsw : starts_with (x :: xs) needle = true := by
        rw [starts_with_iff, ← hn]
        exact ⟨post, by simp⟩
      simp [strstr, hsw]
  | cons x xs ih =>
    have hnot : ¬ starts_with (x :: xs ++ needle ++ post) needle = true := by
      rw [starts_with_iff]
      rintro ⟨b, hb⟩
      have := hfirst [] b (by simpa using hb.symm)
      simp at this
    have hrec := ih (fun a b hab => by
      have := hfirst (x :: a) b (by simp [hab])
      simpa using this)
    simp only [List.cons_append, List.append_assoc] at hnot hrec ⊢
    simp only [strstr, hnot, hrec]
    simp

theorem is_speed_char_iff (c : Char) :
    is_speed_char c = true ↔ c ∈ "0123456789.MKG".toList := by
  constructor
  · intro h
    unfold is_speed_char isdigit at h
    simp only [Bool.or_eq_true, Bool.and_eq_true, decide_eq_true_eq] at h
    rcases h with (((h | h) | h) | h) | h
    · have e : c = Char.ofNat c.toNat := (Char.ofNat_toNat c).symm
      rw [e]
      generalize c.toNat = n at h
      obtain ⟨h1, h2⟩ := h
      interval_cases n <;> decide
    all_goals
      subst h
      decide
  · intro h
    have hall : ∀ x ∈ "0123456789.MKG".toList, is_speed_char x = true := by decide
    exact hall c h

theorem strstr_some_min (hay needle : List Char) (i : Nat) (h : strstr hay needle = some i) :
    ∀ a b, hay = a ++ needle ++ b → i ≤ a.length := by
  induction hay generalizing i with
  | nil =>
    intro a b _
    unfold strstr at h
    split at h
    · have := Option.some.inj h
      omega
    · exact absurd h (by simp)
  | cons x xs ih =>
    intro a b hab
    unfold strstr at h
    split at h
    · have := Option.some.inj h
      omega
    · rename_i hsw
      cases a with
      | nil =>
        exfalso
        apply hsw
        rw [starts_with_iff, hab]
        exact ⟨b, by simp⟩
      | cons y ys =>
        cases hrec : strstr xs needle with
        | none => rw [hrec] at h; exact absurd h (by simp)
        | some j =>
          rw [hrec] at h
          have hj : j + 1 = i := by simpa using h
          have hxs : xs = ys ++ needle ++ b := by
            simp only [List.cons_append, List.cons.injEq] at hab
            exact hab.2
          have := ih j hrec ys b hxs
          simp only [List.length_cons]
          omega

theorem strstr_some_spec (hay needle : List Char) (i : Nat) (h : strstr hay needle = some i) :
    ∃ post, hay = hay.take i ++ needle ++ post := by
  induction hay generalizing i with
  | nil =>
    unfold strstr at h
    split at h
    · rename_i hemp
      exact ⟨[], by simpa using hemp⟩
    · exact absurd h (by simp)
  | cons x xs ih =>
    unfold strstr at h
    split at h
    · rename_i hsw
      have hi : i = 0 := (Option.some.inj h).symm
      subst hi
      obtain ⟨post, hpost⟩ := (starts_with_iff _ _).mp hsw
      exact ⟨post, by simpa using hpost.symm⟩
    · cases hrec : strstr xs needle with
      | none => rw [hrec] at h; exact absurd h (by simp)
      | some j =>
        rw [hrec] at h
        have hj : j + 1 = i := by simpa using h
        subst hj
        obtain ⟨post, hpost⟩ := ih j hrec
        refine ⟨post, ?_⟩
        simp only [List.take_succ_cons, List.cons_append, List.cons.injEq, true_and]
        exact hpost

/-- Every line with a byte-rate unit splits at its first `B/s`, with the longest
run of speed bytes right before it. -/
theorem raw_line_decomposition (line : List Char) (h : contains_rate_unit line) :
    ∃ front run post, line = front ++ run ++ "B/s".toList ++ post ∧
      (∀ a b, line = a ++ "B/s".toList ++ b → (front ++ run).length ≤ a.length) ∧
      (∀ c ∈ run, is_speed_char c = true) ∧
      (∀ c ∈ front.getLast?, is_speed_char c = false) := by
  have hinf : "B/s".toList <:+: line := by
    unfold contains_rate_unit at h
    rcases h with h | h | h
    · exact List.IsInfix.trans ⟨['M'], [], rfl⟩ h
    · exact List.IsInfix.trans ⟨['K'], [], rfl⟩ h
    · exact List.IsInfix.trans ⟨['G'], [], rfl⟩ h
  have hsome := (strstr_isSome_iff line "B/s".toList).mpr hinf
  obtain ⟨i, hi⟩ := Option.isSome_iff_exists.mp hsome
  obtain ⟨post, hpost⟩ := strstr_some_spec line _ i hi
  have hmin := strstr_some_min line _ i hi
  have hsplit := List.takeWhile_append_dropWhile is_speed_char (line.take i).reverse
  have hpre : line.take i = ((line.take i).reverse.dropWhile is_speed_char).reverse ++
      ((line.take i).reverse.takeWhile is_speed_char).reverse := by
    rw [← List.reverse_append, hsplit, List.reverse_reverse]
  have hlen : (line.take i).length = i := by
    have := congrArg List.length hpost
    have h3 : "B/s".toList.length = 3 := rfl
    simp only [List.length_append, List.length_take, h3] at this
    simp only [List.length_take]
    omega
  refine ⟨((line.take i).reverse.dropWhile is_speed_char).reverse,
    ((line.take i).reverse.takeWhile is_speed_char).reverse, post, ?_, ?_, ?_, ?_⟩
  · rw [← hpre]
    exact hpost
  · intro a b hab
    rw [← hpre, hlen]
    exact hmin a b hab
  · intro c hc
    exact List.mem_takeWhile_imp (List.mem_reverse.mp hc)
  · intro c hc
    rw [List.getLast?_reverse] at hc
    have := List.head?_dropWhile_not is_speed_char (line.take i).reverse
    have hc2 : ((line.take i).reverse.dropWhile is_speed_char).head? = some c := hc
    rw [hc2] at this
    simpa using this

/-- The backward scan stops where the run of speed bytes cannot be extended. -/
theorem backward_run (front run : List Char) (hrun : ∀ c ∈ run, is_speed_char c = true)
    (hmax : ∀ c ∈ front.getLast?, is_speed_char c = false) :
    ((front ++ run).reverse.takeWhile is_speed_char).reverse = run := by
  have hfront : front.reverse.takeWhile is_speed_char = [] := by
    cases hrev : front.reverse with
    | nil => rfl
    | cons c t =>
      have hlast : front.getLast? = some c := by
        rw [← List.head?_reverse, hrev]
        rfl
      have := hmax c (by rw [hlast]; rfl)
      rw [List.takeWhile_cons_of_neg (by simp [this])]
  rw [List.reverse_append, List.takeWhile_append_of_pos, hfront, List.append_nil,
    List.reverse_reverse]
  intro c hc
  exact hrun c (List.mem_reverse.mp hc)

/-- The speed of a raw transfer line, at the first `B/s` of the line. -/
theorem extract_speed_first (front run post : List Char)
    (hfirst : ∀ a b, front ++ run ++ "B/s".toList ++ post = a ++ "B/s".toList ++ b →
      (front ++ run).length ≤ a.length)
    (hrun : ∀ c ∈ run, is_speed_char c = true)
    (hmax : ∀ c ∈ front.getLast?, is_speed_char c = false) :
    extract_speed (front ++ run ++ "B/s".toList ++ post) =
      if run.length + 3 < 20 then run ++ "B/s".toList else "0.0MB/s".toList := by
  have hpos := strstr_first (front ++ run) "B/s".toList post hfirst
  have htake : (front ++ run ++ "B/s".toList ++ post).take (front ++ run).length =
      front ++ run := by
    rw [List.append_assoc (front ++ run), List.take_left]
  have hback := backward_run front run hrun hmax
  have hlen : ((front ++ run).reverse.takeWhile is_speed_char).length = run.length := by
    have := congrArg List.length hback
    simpa using this
  have hdrop : (front ++ run ++ "B/s".toList ++ post).drop
      ((front ++ run).length - run.length) = run ++ ("B/s".toList ++ post) := by
    have : (front ++ run).length - run.length = front.length := by simp
    rw [this]
    simp
  have htk : (run ++ ("B/s".toList ++ post)).take (run.length + 3) = run ++ "B/s".toList := by
    rw [← List.append_assoc, List.take_append_of_le_length (by simp)]
    apply List.take_of_length_le
    simp
  have hrl : run.length ≤ (front ++ run).length := by simp
  unfold extract_speed
  simp only [hpos, htake, hlen]
  have harith : (front ++ run).length - ((front ++ run).length - run.length) + 3 =
      run.length + 3 := by omega
  simp only [harith, hdrop, htk]

/-- The `PROGRESS:` branch of the ordinary path: the percent field is the text
before the first colon after the prefix. -/
theorem progress_line_split (f m : List Char) (app : InstallerApp) :
    ∃ k, k ≤ f.length ∧ (':' ∉ f → k = f.length) ∧
      parse_control_line ("PROGRESS:".toList ++ f ++ ":".toList ++ m) app =
        (if (strtol (f.take k)).2 ≠ 0 ∧ (strtol (f.take k)).1 ≥ 0 ∧ (strtol (f.take k)).1 ≤ 100 then
           [OutputEvent.LogLine ("PROGRESS:".toList ++ f ++ ":".toList ++ m),
            OutputEvent.ProgressUpdate (strtol (f.take k)).1 ((f ++ ':' :: m).drop (k + 1))]
         else [OutputEvent.LogLine ("PROGRESS:".toList ++ f ++ ":".toList ++ m)], app) := by
  obtain ⟨k, hk, hk2⟩ := strchr_append_cons f m ':'
  refine ⟨k, hk, ?_, ?_⟩
  · intro hnot
    have := strchr_append_of_not_mem f m ':' hnot
    rw [this] at hk2
    exact (Option.some.inj hk2).symm
  · have hP : strncmp_eq ("PROGRESS:".toList ++ f ++ ":".toList ++ m) "PROGRESS:".toList 9 = true := by
      simp [strncmp_eq]
    have hdrop : ("PROGRESS:".toList ++ f ++ ":".toList ++ m).drop 9 = f ++ ':' :: m := by
      simp
    have hlen : ("PROGRESS:".toList ++ f ++ ":".toList ++ m).length > 0 := by
      simp
    have htake : (f ++ ':' :: m).take k = f.take k := List.take_append_of_le_length hk
    unfold parse_control_line
    simp only [hP, hdrop, hlen, if_true, hk2, htake]
    split <;> simp

theorem integer_numeral_some (f : List Char) (v : Int) (h : integer_numeral f = some v) :
    ∃ ds, ds ≠ [] ∧ (∀ c ∈ ds, isdigit c = true) ∧
      ((f = ds ∧ v = numeral_value ds) ∨ (f = '-' :: ds ∧ v = -(numeral_value ds : Int)) ∨
        (f = '+' :: ds ∧ v = numeral_value ds)) := by
  unfold integer_numeral at h
  split at h
  · rename_i ds
    split at h
    · rename_i hc
      refine ⟨ds, hc.1, by simpa using hc.2, Or.inr (Or.inl ⟨rfl, ?_⟩)⟩
      exact (Option.some.inj h).symm
    · exact absurd h (by simp)
  · rename_i ds
    split at h
    · rename_i hc
      refine ⟨ds, hc.1, by simpa using hc.2, Or.inr (Or.inr ⟨rfl, ?_⟩)⟩
      exact (Option.some.inj h).symm
    · exact absurd h (by simp)
  · split at h
    · rename_i hc
      refine ⟨f, hc.1, by simpa using hc.2, Or.inl ⟨rfl, ?_⟩⟩
      exact (Option.some.inj h).symm
    · exact absurd h (by simp)

theorem digits_no_colon (ds : List Char) (hd : ∀ c ∈ ds, isdigit c = true) : ':' ∉ ds :=
  fun hmem => (isdigit_not_special ':' (hd ':' hmem)).2.2.2.1 rfl

/-! ## Lemmas on the read loop and the session -/

theorem takeWhile_not_newline (text nl : List Char) (h : '\n' ∉ text)
    (hnl : nl = [] ∨ nl = ['\n']) :
    (text ++ nl).takeWhile (fun c => c ≠ '\n') = text := by
  rw [List.takeWhile_append_of_pos]
  · rcases hnl with rfl | rfl <;> simp [List.takeWhile]
  · intro c hc
    have : c ≠ '\n' := fun e => h (e ▸ hc)
    simpa using this

/-- A buffer without NUL is the string the routines see. -/
theorem c_string_of_no_nul (s : List Char) (h : NUL ∉ s) : c_string s = s := by
  unfold c_string
  rw [List.takeWhile_eq_self_iff]
  intro c hc
  have : c ≠ NUL := fun e => h (e ▸ hc)
  simpa using this

theorem no_nul_append_newline (s nl : List Char) (h : NUL ∉ s)
    (hnl : nl = [] ∨ nl = ['\n']) : NUL ∉ s ++ nl := by
  intro hm
  rcases List.mem_append.mp hm with h1 | h1
  · exact h h1
  · rcases hnl with rfl | rfl
    · exact absurd h1 (List.not_mem_nil _)
    · exact absurd (List.mem_singleton.mp h1) (by decide)

/-- The loop body on a buffer with a carriage return, split at the last one. -/
theorem read_loop_body_cr (pre suffix nl : List Char) (app : InstallerApp)
    (hpre : '\n' ∉ pre) (hs1 : '\n' ∉ suffix) (hs2 : '\r' ∉ suffix)
    (hz1 : NUL ∉ pre) (hz2 : NUL ∉ suffix)
    (hnl : nl = [] ∨ nl = ['\n']) :
    read_loop_body (pre ++ '\r' :: suffix ++ nl) app =
      if suffix.length = 0 ∨ suffix.head? = some ' ' then ([], app)
      else parse_installation_output suffix app := by
  have hmem : '\n' ∉ pre ++ '\r' :: suffix := by
    intro hm
    rcases List.mem_append.mp hm with h | h
    · exact hpre h
    · rcases List.mem_cons.mp h with h | h
      · exact absurd h (by decide)
      · exact hs1 h
  have hcut := takeWhile_not_newline (pre ++ '\r' :: suffix) nl hmem hnl
  have hcr := strrchr_append_of_not_mem pre suffix '\r' hs2
  have hdrop : (pre ++ '\r' :: suffix).drop (pre.length + 1) = suffix := by
    rw [List.drop_append_eq_append_drop]
    simp
  have hz : NUL ∉ pre ++ '\r' :: suffix ++ nl := by
    apply no_nul_append_newline _ _ _ hnl
    intro hm
    rcases List.mem_append.mp hm with h | h
    · exact hz1 h
    · rcases List.mem_cons.mp h with h | h
      · exact absurd h (by decide)
      · exact hz2 h
  unfold read_loop_body
  simp only [c_string_of_no_nul _ hz, hcut, hcr, hdrop]

/-- The loop body on a buffer without carriage return. -/
theorem read_loop_body_plain (line nl : List Char) (app : InstallerApp)
    (h1 : '\n' ∉ line) (h2 : '\r' ∉ line) (hz : NUL ∉ line)
    (hnl : nl = [] ∨ nl = ['\n']) :
    read_loop_body (line ++ nl) app = parse_installation_output line app := by
  have hcut := takeWhile_not_newline line nl h1 hnl
  have hcr := strrchr_eq_none line '\r' h2
  unfold read_loop_body
  simp only [c_string_of_no_nul _ (no_nul_append_newline line nl hz hnl), hcut, hcr]

/-- The ordinary path writes the session in its `SUCCESS:` branch only. -/
theorem parse_control_line_state (line : List Char) (app : InstallerApp) :
    (parse_control_line line app).2 = app ∨
      ("SUCCESS:".toList <+: line ∧
        (parse_control_line line app).2 =
          { app with config :=
            { app.config with installation_complete := true,
                              installation_started := false } }) := by
  unfold parse_control_line
  simp only
  cases hP : strncmp_eq line "PROGRESS:".toList 9
  · cases hE : strncmp_eq line "ERROR:".toList 6
    · cases hS : strncmp_eq line "SUCCESS:".toList 8
      · left
        simp only [Bool.false_eq_true, if_false]
        repeat' split
        all_goals rfl
      · right
        refine ⟨(strncmp_success line).mp hS, ?_⟩
        simp only [Bool.false_eq_true, if_false, if_true]
    · left
      simp only [Bool.false_eq_true, if_false, if_true]
  · left
    simp only [if_true]
    repeat' split
    all_goals rfl

/-- The classifier writes the session in the `SUCCESS:` branch only. -/
theorem parse_state (line : List Char) (app : InstallerApp) :
    (parse_installation_output line app).2 = app ∨
      ("SUCCESS:".toList <+: line ∧
        (parse_installation_output line app).2 =
          { app with config :=
            { app.config with installation_complete := true,
                              installation_started := false } }) := by
  unfold parse_installation_output
  split
  · simp only
    split
    · left; rfl
    · exact parse_control_line_state line app
  · split
    · left; rfl
    · exact parse_control_line_state line app

/-- The events of the ordinary path do not depend on the session. -/
theorem parse_control_line_events (line : List Char) (app app2 : InstallerApp) :
    (parse_control_line line app).1 = (parse_control_line line app2).1 := by
  unfold parse_control_line
  simp only
  repeat' split
  all_goals rfl

/-- The events of the classifier do not depend on the session. -/
theorem parse_events (line : List Char) (app app2 : InstallerApp) :
    (parse_installation_output line app).1 = (parse_installation_output line app2).1 := by
  unfold parse_installation_output
  split
  · simp only
    split
    · rfl
    · exact parse_control_line_events line app app2
  · split
    · rfl
    · exact parse_control_line_events line app app2

/-- The events of the loop body do not depend on the session. -/
theorem read_loop_body_events (line_buffer : List Char) (app app2 : InstallerApp) :
    (read_loop_body line_buffer app).1 = (read_loop_body line_buffer app2).1 := by
  unfold read_loop_body
  simp only
  split
  · split
    · rfl
    · exact parse_events _ app app2
  · exact parse_events _ app app2

/-- The events of the end of the stream do not depend on the session. -/
theorem end_of_stream_events (exit_code : Int) (app app2 : InstallerApp) :
    (end_of_stream exit_code app).1 = (end_of_stream exit_code app2).1 := by
  unfold end_of_stream
  simp only
  split <;> rfl

/-- The read loop posts the events of its buffers one buffer after the other. -/
theorem read_loop_events (buffers : List (List Char)) (app app0 : InstallerApp) :
    (read_loop buffers app).1 =
      (buffers.map (fun b => (read_loop_body b app0).1)).flatten := by
  induction buffers generalizing app with
  | nil => rfl
  | cons b bs ih =>
    simp only [read_loop, List.map_cons, List.flatten_cons]
    rw [ih, read_loop_body_events b app app0]

/-- The exit line of the log is not the success line. -/
theorem exit_line_ne_success (tail : List Char) :
    snprintf 256 ("=== Installation process finished with exit code: ".toList ++ tail) ≠
      "=== Installation completed successfully! ===".toList := by
  intro h
  have h18 := congrArg (List.take 18) h
  simp [snprintf, List.take_take] at h18

/-- The `strtol` of a run of digits behind white space. -/
theorem strtol_ws_digits (ws ds rest : List Char) (hws : ∀ c ∈ ws, isspace c = true)
    (hne : ds ≠ []) (hd : ∀ c ∈ ds, isdigit c = true)
    (hrest : rest.takeWhile isdigit = []) :
    strtol (ws ++ ds ++ rest) =
      (max LONG_MIN (min LONG_MAX (numeral_value ds : Int)), ws.length + ds.length) := by
  obtain ⟨c, t, rfl⟩ := List.exists_cons_of_ne_nil hne
  have hc := isdigit_not_special c (hd c (by simp))
  have hrun := takeWhile_isdigit_run (c :: t) rest hd hrest
  have hws2 : (ws ++ (c :: t) ++ rest).takeWhile isspace = ws := by
    rw [List.append_assoc, List.takeWhile_append_of_pos hws]
    simp [List.takeWhile, hc.1]
  have hdrop : (ws ++ (c :: t) ++ rest).drop ws.length = (c :: t) ++ rest := by
    rw [List.append_assoc, List.drop_left]
  have hhead : ((c :: t) ++ rest).head? = some c := rfl
  have h1 : ¬ (some c = some '-') := by simpa using hc.2.1
  have h2 : ¬ (some c = some '+') := by simpa using hc.2.2.1
  unfold strtol
  simp only [hws2, hdrop, hhead, h1, h2, or_self, if_false, List.drop_zero, hrun,
    digits_value_eq]
  simp

/-! ## Lemmas on the validation -/

theorem char_of_toNat (c : Char) : c = Char.ofNat c.toNat := (Char.ofNat_toNat c).symm

theorem isdigit_iff (c : Char) : isdigit c = true ↔ c ∈ DIGIT_CHARS := by
  constructor
  · intro h
    unfold isdigit at h
    simp only [Bool.and_eq_true, decide_eq_true_eq] at h
    rw [char_of_toNat c]
    generalize c.toNat = n at h
    obtain ⟨h1, h2⟩ := h
    interval_cases n <;> decide
  · intro h
    have hall : ∀ x ∈ DIGIT_CHARS, isdigit x = true := by decide
    exact hall c h

theorem name_char_iff (c : Char) :
    (is_lower c || is_upper c || isdigit c || decide (c = '_') || decide (c = '-')) = true ↔
      c ∈ NAME_CHARS := by
  constructor
  · intro h
    simp only [Bool.or_eq_true, decide_eq_true_eq] at h
    rcases h with (((h | h) | h) | h) | h
    · unfold is_lower at h
      simp only [Bool.and_eq_true, decide_eq_true_eq] at h
      rw [char_of_toNat c]
      generalize c.toNat = n at h
      obtain ⟨h1, h2⟩ := h
      interval_cases n <;> decide
    · unfold is_upper at h
      simp only [Bool.and_eq_true, decide_eq_true_eq] at h
      rw [char_of_toNat c]
      generalize c.toNat = n at h
      obtain ⟨h1, h2⟩ := h
      interval_cases n <;> decide
    · unfold isdigit at h
      simp only [Bool.and_eq_true, decide_eq_true_eq] at h
      rw [char_of_toNat c]
      generalize c.toNat = n at h
      obtain ⟨h1, h2⟩ := h
      interval_cases n <;> decide
    · subst h; decide
    · subst h; decide
  · intro h
    have hall : ∀ x ∈ NAME_CHARS,
        (is_lower x || is_upper x || isdigit x || decide (x = '_') || decide (x = '-')) = true := by
      decide
    exact hall c h

/-- The end of the stream writes both flags, whatever the value of `pclose`. -/
theorem end_of_stream_flags (exit_code : Int) (app : InstallerApp) :
    (end_of_stream exit_code app).2.config =
      { installation_started := false, installation_complete := true } := by
  unfold end_of_stream
  simp only
  split <;> rfl

/-! ## Lemmas on the session flag -/

/-- The ordinary path posts an `ErrorNotice` for an `ERROR:` line only. -/
theorem parse_control_line_error (line : List Char) (app : InstallerApp) (m : List Char)
    (h : OutputEvent.ErrorNotice m ∈ (parse_control_line line app).1) :
    "ERROR:".toList <+: line := by
  unfold parse_control_line at h
  simp only at h
  cases hP : strncmp_eq line "PROGRESS:".toList 9
  · cases hE : strncmp_eq line "ERROR:".toList 6
    · exfalso
      rw [hP, hE] at h
      simp only [Bool.false_eq_true, if_false] at h
      repeat' split at h
      all_goals simp at h
    · exact (strncmp_error line).mp hE
  · exfalso
    rw [hP] at h
    simp only [if_true] at h
    repeat' split at h
    all_goals simp at h

/-- The classifier posts an `ErrorNotice` for an `ERROR:` line only. -/
theorem parse_error (line : List Char) (app : InstallerApp) (m : List Char)
    (h : OutputEvent.ErrorNotice m ∈ (parse_installation_output line app).1) :
    "ERROR:".toList <+: line := by
  unfold parse_installation_output at h
  split at h
  · simp only at h
    split at h
    · simp at h
    · exact parse_control_line_error line app m h
  · split at h
    · simp at h
    · exact parse_control_line_error line app m h

/-- The text that the loop body classifies is a part of the buffer. -/
theorem clean_line_within (line_buffer : List Char) (k : Nat) :
    (((c_string line_buffer).takeWhile (fun c => c ≠ '\n')).drop k) <:+: line_buffer ∧
      ((c_string line_buffer).takeWhile (fun c => c ≠ '\n')) <:+: line_buffer := by
  have h1 : ((c_string line_buffer).takeWhile (fun c => c ≠ '\n')) <+: line_buffer :=
    (List.takeWhile_prefix _).trans (List.takeWhile_prefix _)
  exact ⟨(List.drop_suffix k _).isInfix.trans h1.isInfix, h1.isInfix⟩

/-- A buffer without `SUCCESS:` and without `ERROR:` leaves the session as it is
and posts no `show_error_dialog`. -/
theorem read_loop_body_quiet (line_buffer : List Char) (app : InstallerApp)
    (hS : ¬ "SUCCESS:".toList <:+: line_buffer) (hE : ¬ "ERROR:".toList <:+: line_buffer) :
    (read_loop_body line_buffer app).2 = app ∧
      ∀ m, OutputEvent.ErrorNotice m ∉ (read_loop_body line_buffer app).1 := by
  have key : ∀ line : List Char, line <:+: line_buffer →
      (parse_installation_output line app).2 = app ∧
        ∀ m, OutputEvent.ErrorNotice m ∉ (parse_installation_output line app).1 := by
    intro line hl
    constructor
    · rcases parse_state line app with h | h
      · exact h
      · exact absurd (h.1.isInfix.trans hl) hS
    · intro m hm
      exact hE ((parse_error line app m hm).isInfix.trans hl)
  unfold read_loop_body
  simp only
  split
  · rename_i k _
    split
    · exact ⟨rfl, fun m hm => absurd hm (List.not_mem_nil _)⟩
    · exact key _ (clean_line_within line_buffer (k + 1)).1
  · exact key _ (clean_line_within line_buffer 0).2

/-- A step that keeps the flag keeps one worker reading with the flag set. -/
theorem step_keeps_started (s : Session) (a : Action) (hs : one_worker_reading s)
    (ha : keeps_started a) : one_worker_reading (step s a) := by
  obtain ⟨hw, hst, hq⟩ := hs
  cases a with
  | start ok =>
    have h : start_installation ok s.app = (false, s.app) := by
      simp [start_installation, hst]
    simp only [step, h, Bool.false_eq_true, if_false]
    exact ⟨hw, hst, hq⟩
  | read_line line_buffer =>
    have hw0 : ¬ s.workers = 0 := by omega
    obtain ⟨h1, h2⟩ := read_loop_body_quiet line_buffer s.app ha.1 ha.2
    simp only [step, hw0, if_false]
    refine ⟨hw, by rw [h1]; exact hst, ?_⟩
    intro m hm
    rcases List.mem_append.mp hm with h | h
    · exact hq m h
    · exact h2 m h
  | run_idle =>
    unfold step
    simp only
    split
    · exact ⟨hw, hst, hq⟩
    · rename_i e rest hqueue
      have hq2 : ∀ m, OutputEvent.ErrorNotice m ∉ e :: rest := by
        intro m
        rw [← hqueue]
        exact hq m
      refine ⟨hw, ?_, fun m hm => hq2 m (List.mem_cons_of_mem _ hm)⟩
      cases e with
      | ErrorNotice m => exact absurd (List.mem_cons_self _ _) (hq2 m)
      | SuccessDialog => exact hst
      | _ => exact hst
  | end_of_stream exit_code => exact absurd ha (by simp [keeps_started])

/-- A run of steps that keep the flag. -/
theorem run_steps_keeps_started (actions : List Action) (s : Session)
    (hs : one_worker_reading s) (h : ∀ a ∈ actions, keeps_started a) :
    one_worker_reading (run_steps s actions) := by
  induction actions generalizing s with
  | nil => exact hs
  | cons a rest ih =>
    exact ih (step s a) (step_keeps_started s a hs (h a (List.mem_cons_self _ _)))
      (fun b hb => h b (List.mem_cons_of_mem _ hb))

/-! ## Lemmas on the decimal conversion -/

theorem digitChar_digit (k : Nat) (hk : k < 10) :
    isdigit (Nat.digitChar k) = true ∧ (Nat.digitChar k).toNat - 48 = k := by
  interval_cases k <;> decide

theorem numeral_value_cons (c : Char) (l : List Char) :
    numeral_value (c :: l) = (c.toNat - 48) * 10 ^ l.length + numeral_value l := by
  simp only [numeral_value, List.map_cons, List.reverse_cons, Nat.ofDigits_append,
    List.length_reverse, List.length_map, Nat.ofDigits_singleton]
  ring

/-- The digits that `Nat.repr` writes in front of `ds`, and their value. -/
theorem toDigitsCore_spec (fuel n : Nat) (ds : List Char) (h : n < fuel) :
    ∃ l, Nat.toDigitsCore 10 fuel n ds = l ++ ds ∧ l ≠ [] ∧
      (∀ c ∈ l, isdigit c = true) ∧ numeral_value l = n := by
  induction fuel generalizing n ds with
  | zero => omega
  | succ fuel ih =>
    have hd := digitChar_digit (n % 10) (Nat.mod_lt _ (by norm_num))
    unfold Nat.toDigitsCore
    simp only
    by_cases h0 : n / 10 = 0
    · rw [if_pos h0]
      refine ⟨[Nat.digitChar (n % 10)], rfl, by simp, by simpa using hd.1, ?_⟩
      rw [numeral_value_cons]
      simp only [List.length_nil, pow_zero, mul_one, numeral_value, List.map_nil,
        List.reverse_nil, Nat.ofDigits_nil, add_zero, hd.2]
      omega
    · rw [if_neg h0]
      obtain ⟨l, hl, hne, hdig, hval⟩ := ih (n / 10) (Nat.digitChar (n % 10) :: ds) (by omega)
      refine ⟨l ++ [Nat.digitChar (n % 10)], by rw [hl]; simp, by simp, ?_, ?_⟩
      · intro c hc
        rcases List.mem_append.mp hc with h1 | h1
        · exact hdig c h1
        · rw [List.mem_singleton.mp h1]; exact hd.1
      · simp only [numeral_value, List.map_append, List.map_cons, List.map_nil,
          List.reverse_append, List.reverse_cons, List.reverse_nil, List.nil_append,
          List.singleton_append, Nat.ofDigits_cons, hd.2]
        have hv : Nat.ofDigits 10 (l.map (fun c => c.toNat - 48)).reverse = n / 10 := hval
        rw [hv]
        omega

theorem repr_spec (n : Nat) :
    (Nat.repr n).toList ≠ [] ∧ (∀ c ∈ (Nat.repr n).toList, isdigit c = true) ∧
      numeral_value (Nat.repr n).toList = n := by
  obtain ⟨l, hl, hne, hdig, hval⟩ := toDigitsCore_spec (n + 1) n [] (by omega)
  have e : (Nat.repr n).toList = l := by
    simp only [Nat.repr, Nat.toDigits, hl, List.append_nil]
    rfl
  rw [e]
  exact ⟨hne, hdig, hval⟩

/-- The `%d` conversion writes a decimal numeral of the value. -/
theorem integer_numeral_fmt_d (v : Int) : integer_numeral (fmt_d v) = some v := by
  unfold fmt_d
  by_cases h : v < 0
  · rw [if_pos h]
    obtain ⟨hne, hdig, hval⟩ := repr_spec v.natAbs
    have hall : (Nat.repr v.natAbs).toList.all isdigit = true := by
      rw [List.all_eq_true]; exact hdig
    simp only [integer_numeral, hne, hall, ne_eq, not_false_eq_true, and_self, if_true, hval]
    congr 1
    omega
  · rw [if_neg h]
    obtain ⟨hne, hdig, hval⟩ := repr_spec v.toNat
    have hall : (Nat.repr v.toNat).toList.all isdigit = true := by
      rw [List.all_eq_true]; exact hdig
    cases hl : (Nat.repr v.toNat).toList with
    | nil => exact absurd hl hne
    | cons c t =>
      rw [hl] at hall hval
      have hc : isdigit c = true := by
        have := hdig c (by rw [hl]; simp)
        exact this
      have hm : c ≠ '-' := fun e => by rw [e] at hc; exact absurd hc (by decide)
      have hp : c ≠ '+' := fun e => by rw [e] at hc; exact absurd hc (by decide)
      unfold integer_numeral
      split
      · rename_i heq; exact absurd (List.cons.inj heq).1 hm
      · rename_i heq; exact absurd (List.cons.inj heq).1 hp
      · simp only [ne_eq, reduceCtorEq, not_false_eq_true, hall, and_self, if_true, hval]
        congr 1
        omega

/-! ## Lemmas on the stream -/

theorem fgets_take_append (n : Nat) (s : List Char) :
    (fgets_take n s).1 ++ (fgets_take n s).2 = s := by
  induction n generalizing s with
  | zero => simp [fgets_take]
  | succ n ih =>
    cases s with
    | nil => simp [fgets_take]
    | cons c t =>
      by_cases hc : c = '\n'
      · simp [fgets_take, hc]
      · simp [fgets_take, hc, ih t]

theorem fgets_take_rest_length (n : Nat) (hn : 0 < n) (c : Char) (s : List Char) :
    (fgets_take n (c :: s)).2.length ≤ s.length := by
  obtain ⟨m, rfl⟩ : ∃ m, n = m + 1 := ⟨n - 1, by omega⟩
  have h := congrArg List.length (fgets_take_append (m + 1) (c :: s))
  have h1 : 1 ≤ (fgets_take (m + 1) (c :: s)).1.length := by
    by_cases hc : c = '\n'
    · simp [fgets_take, hc]
    · simp [fgets_take, hc]
  simp only [List.length_append, List.length_cons] at h
  omega

/-- More calls than the stream has bytes read nothing more. -/
theorem fgets_loop_fuel (fuel : Nat) (s : List Char) (h : s.length ≤ fuel) :
    fgets_loop fuel s = fgets_loop s.length s := by
  induction fuel using Nat.strong_induction_on generalizing s with
  | _ fuel ih =>
    cases s with
    | nil => cases fuel <;> rfl
    | cons c t =>
      obtain ⟨f, rfl⟩ : ∃ f, fuel = f + 1 := ⟨fuel - 1, by simp at h; omega⟩
      have hrest := fgets_take_rest_length 2047 (by norm_num) c t
      simp only [List.length_cons] at h
      simp only [fgets_loop, List.length_cons]
      rw [ih f (by omega) _ (by omega), ih t.length (by omega) _ hrest]

/-- Every byte of the stream is in one of the buffers, in order. -/
theorem stream_buffers_flatten (s : List Char) : (stream_buffers s).flatten = s := by
  unfold stream_buffers
  generalize hn : s.length = n
  induction n using Nat.strong_induction_on generalizing s with
  | _ n ih =>
    cases s with
    | nil => subst hn; rfl
    | cons c t =>
      subst hn
      have hrest := fgets_take_rest_length 2047 (by norm_num) c t
      simp only [List.length_cons, fgets_loop, List.flatten_cons]
      rw [fgets_loop_fuel t.length _ hrest, ih _ (by simp; omega) _ rfl]
      exact fgets_take_append 2047 (c :: t)

/-- A call of `fgets` on `n` bytes without newline, followed by more text. -/
theorem fgets_take_full (n : Nat) (first rest : List Char) (hlen : first.length = n)
    (hnl : '\n' ∉ first) : fgets_take n (first ++ rest) = (first, rest) := by
  induction first generalizing n with
  | nil =>
    subst hlen
    simp [fgets_take]
  | cons c t ih =>
    subst hlen
    have hc : ¬ c = '\n' := fun e => hnl (by simp [e])
    have ht : '\n' ∉ t := fun e => hnl (by simp [e])
    simp [fgets_take, hc, ih t.length rfl ht]

/-- A full buffer is followed by the buffers of the rest of the stream. -/
theorem stream_buffers_full (first rest : List Char) (hlen : first.length = 2047)
    (hnl : '\n' ∉ first) :
    stream_buffers (first ++ rest) = first :: stream_buffers rest := by
  obtain ⟨c, t, rfl⟩ : ∃ c t, first = c :: t := by
    cases first with
    | nil => simp at hlen
    | cons c t => exact ⟨c, t, rfl⟩
  have hfull : fgets_take 2047 (c :: (t ++ rest)) = (c :: t, rest) :=
    fgets_take_full 2047 (c :: t) rest hlen hnl
  have hcons : (c :: t) ++ rest = c :: (t ++ rest) := rfl
  rw [hcons]
  unfold stream_buffers
  rw [List.length_cons, fgets_loop, hfull]
  simp only
  rw [fgets_loop_fuel (t ++ rest).length rest (by simp)]

/-- A call of `fgets` on a line that fits the buffer takes it with its newline. -/
theorem fgets_take_line (n : Nat) (line rest : List Char) (hlen : line.length < n)
    (hnl : '\n' ∉ line) : fgets_take n (line ++ '\n' :: rest) = (line ++ ['\n'], rest) := by
  induction line generalizing n with
  | nil =>
    obtain ⟨m, rfl⟩ : ∃ m, n = m + 1 := ⟨n - 1, by simp at hlen; omega⟩
    simp [fgets_take]
  | cons c t ih =>
    obtain ⟨m, rfl⟩ : ∃ m, n = m + 1 := ⟨n - 1, by simp at hlen; omega⟩
    have hc : ¬ c = '\n' := fun e => hnl (by simp [e])
    have ht : '\n' ∉ t := fun e => hnl (by simp [e])
    simp [fgets_take, hc, ih m (by simpa using hlen) ht]

/-- A call of `fgets` on the last bytes of the stream, without newline. -/
theorem fgets_take_all (n : Nat) (line : List Char) (hlen : line.length ≤ n)
    (hnl : '\n' ∉ line) : fgets_take n line = (line, []) := by
  induction line generalizing n with
  | nil => cases n <;> rfl
  | cons c t ih =>
    obtain ⟨m, rfl⟩ : ∃ m, n = m + 1 := ⟨n - 1, by simp at hlen; omega⟩
    have hc : ¬ c = '\n' := fun e => hnl (by simp [e])
    have ht : '\n' ∉ t := fun e => hnl (by simp [e])
    simp [fgets_take, hc, ih m (by simpa using hlen) ht]

/-- The first buffer of a stream, and the buffers of what is left. -/
theorem stream_buffers_cons (c : Char) (t : List Char) :
    stream_buffers (c :: t) =
      (fgets_take 2047 (c :: t)).1 :: stream_buffers (fgets_take 2047 (c :: t)).2 := by
  unfold stream_buffers
  rw [List.length_cons, fgets_loop]
  rw [fgets_loop_fuel t.length _ (fgets_take_rest_length 2047 (by norm_num) c t)]

/-- A call of `fgets` inside a text that ends with a newline does not reach
what follows the text. -/
theorem fgets_take_before (n : Nat) (b s : List Char) (hb : b.getLast? = some '\n') :
    fgets_take n (b ++ s) = ((fgets_take n b).1, (fgets_take n b).2 ++ s) := by
  induction n generalizing b with
  | zero =>
    cases b with
    | nil => simp at hb
    | cons c t => rfl
  | succ n ih =>
    match b, hb with
    | [c], hb =>
      have hc : c = '\n' := by simpa using hb
      simp [fgets_take, hc]
    | c :: d :: t, hb =>
      by_cases hc : c = '\n'
      · simp [fgets_take, hc]
      · have hb2 : (d :: t).getLast? = some '\n' := by
          rw [List.getLast?_cons_cons] at hb
          exact hb
        have := ih (d :: t) hb2
        simp only [List.cons_append] at this ⊢
        simp [fgets_take, hc, this]

/-- The buffers of a stream after a text that is empty or ends with a newline
are read as if the stream began there. -/
theorem stream_buffers_append (before s : List Char)
    (hb : ∀ c ∈ before.getLast?, c = '\n') :
    stream_buffers (before ++ s) = stream_buffers before ++ stream_buffers s := by
  generalize hn : before.length = n
  induction n using Nat.strong_induction_on generalizing before with
  | _ n ih =>
    cases before with
    | nil => rfl
    | cons c t =>
      subst hn
      obtain ⟨x, hx⟩ : ∃ x, (c :: t).getLast? = some x :=
        ⟨(c :: t).getLast (by simp), List.getLast?_eq_getLast _ (by simp)⟩
      have hx2 : x = '\n' := hb x (by rw [hx]; exact rfl)
      rw [hx2] at hx
      have hsplit := fgets_take_append 2047 (c :: t)
      have hrest := fgets_take_rest_length 2047 (by norm_num) c t
      have hb2 : ∀ y ∈ (fgets_take 2047 (c :: t)).2.getLast?, y = '\n' := by
        intro y hy
        by_cases hnil : (fgets_take 2047 (c :: t)).2 = []
        · rw [hnil] at hy
          exact absurd hy (by simp)
        · have h1 := congrArg List.getLast? hsplit
          rw [List.getLast?_append_of_ne_nil _ hnil, hx] at h1
          rw [h1] at hy
          exact (Option.mem_some_iff.mp hy).symm
      rw [List.cons_append, stream_buffers_cons, stream_buffers_cons c t, ← List.cons_append,
        fgets_take_before 2047 (c :: t) s hx]
      simp only
      rw [ih _ (by simp only [List.length_cons]; omega) _ hb2 rfl]
      rfl

/-- The read loop over two runs of buffers. -/
theorem read_loop_append (a b : List (List Char)) (app : InstallerApp) :
    read_loop (a ++ b) app =
      ((read_loop a app).1 ++ (read_loop b (read_loop a app).2).1,
        (read_loop b (read_loop a app).2).2) := by
  induction a generalizing app with
  | nil => simp [read_loop]
  | cons x xs ih =>
    rw [List.cons_append, read_loop, read_loop]
    simp only
    rw [ih]
    simp only [List.append_assoc]

/-- A raw line that fits the buffer is read as one buffer, wherever it stands in
the stream: ended by its newline, or without one at the end of the stream. -/
theorem stream_buffers_raw_line (before line nl after : List Char)
    (hb : ∀ c ∈ before.getLast?, c = '\n') (hlen : line.length ≤ 2046)
    (hnl : '\n' ∉ line) (hend : nl = ['\n'] ∨ (nl = [] ∧ after = []))
    (hne : line ++ nl ≠ []) :
    stream_buffers (before ++ (line ++ nl) ++ after) =
      stream_buffers before ++ (line ++ nl) :: stream_buffers after := by
  rw [List.append_assoc, stream_buffers_append before _ hb]
  congr 1
  rcases hend with rfl | ⟨rfl, rfl⟩
  · have e : line ++ ['\n'] ++ after = line ++ '\n' :: after := by simp
    rw [e]
    cases h : line ++ '\n' :: after with
    | nil => simp at h
    | cons c t =>
      rw [stream_buffers_cons, ← h, fgets_take_line 2047 line after (by omega) hnl]
  · rw [List.append_nil, List.append_nil] at *
    cases line with
    | nil => exact absurd rfl hne
    | cons c t =>
      rw [stream_buffers_cons, fgets_take_all 2047 (c :: t) (by omega) hnl]

/-- A buffer for which the loop body does nothing can be left out. -/
theorem read_loop_skip (bs as : List (List Char)) (b : List Char) (app : InstallerApp)
    (h : ∀ a, read_loop_body b a = ([], a)) :
    read_loop (bs ++ b :: as) app = read_loop (bs ++ as) app := by
  rw [read_loop_append, read_loop_append]
  simp only [read_loop, h, List.nil_append]

/-- A line of 100 bytes or more without colon and without slash goes to the
log, and nothing else is posted. -/
theorem parse_long_plain (line : List Char) (app : InstallerApp) (hc : ':' ∉ line)
    (hs : '/' ∉ line) (hlen : 100 ≤ line.length) :
    parse_installation_output line app = ([OutputEvent.LogLine line], app) := by
  have hinf : ∀ p : List Char, (':' ∈ p ∨ '/' ∈ p) → ¬ p <:+: line := by
    intro p hp h
    rcases hp with hp | hp
    · exact hc (h.subset hp)
    · exact hs (h.subset hp)
  have hpre : ∀ p : List Char, ':' ∈ p → ¬ p <+: line :=
    fun p hp h => hc (h.subset hp)
  rw [parse_without_marker line app (hinf _ (Or.inl (by decide)))
    (fun h => by
      rcases h with h | h | h
      · exact hinf _ (Or.inr (by decide)) h
      · exact hinf _ (Or.inr (by decide)) h
      · exact hinf _ (Or.inr (by decide)) h)]
  have hP : strncmp_eq line "PROGRESS:".toList 9 = false := by
    have := (strncmp_progress line).not.mpr (hpre _ (by decide))
    simpa using this
  have hE : strncmp_eq line "ERROR:".toList 6 = false := by
    have := (strncmp_error line).not.mpr (hpre _ (by decide))
    simpa using this
  have hS : strncmp_eq line "SUCCESS:".toList 8 = false := by
    have := (strncmp_success line).not.mpr (hpre _ (by decide))
    simpa using this
  have hI : strncmp_eq line "INFO:".toList 5 = false := by
    have := (strncmp_info line).not.mpr (hpre _ (by decide))
    simpa using this
  have hcol : (strchr line ':').isSome = false := by
    rw [← strchr_isSome_iff] at hc
    simpa using hc
  have hpos : line.length > 0 := by omega
  have hlong : ¬ line.length < 100 := by omega
  unfold parse_control_line
  simp only [hP, hE, hS, hI, hcol, hpos, hlong, Bool.false_eq_true, if_false, if_true,
    false_and, List.append_nil]

/-- A stream that begins with 2047 bytes `x`: they fill the first buffer, which
is logged, and the loop goes on with the rest of the stream. -/
theorem read_loop_long_x (rest : List Char) (app : InstallerApp) :
    (read_loop (stream_buffers (List.replicate 2047 'x' ++ rest)) app).1 =
      OutputEvent.LogLine (List.replicate 2047 'x') ::
        (read_loop (stream_buffers rest) app).1 := by
  have hx : ∀ c : Char, c ≠ 'x' → c ∉ List.replicate 2047 'x' :=
    fun c hc hm => hc (List.eq_of_mem_replicate hm)
  have hbuf := stream_buffers_full (List.replicate 2047 'x') rest (List.length_replicate _ _)
    (hx _ (by decide))
  have hbody := read_loop_body_plain (List.replicate 2047 'x') [] app (hx _ (by decide))
    (hx _ (by decide)) (hx _ (by decide)) (Or.inl rfl)
  rw [List.append_nil, parse_long_plain _ app (hx _ (by decide)) (hx _ (by decide))
    (by rw [List.length_replicate]; norm_num)] at hbody
  rw [hbuf, read_loop, hbody]
  rfl

/-! ## Lemmas on `extract_device` -/

theorem trim_end_of_no_space (d : List Char) (h : ∀ c ∈ d, isspace c = false) :
    trim_end d = d := by
  cases d with
  | nil => rfl
  | cons c rest =>
    have hrev : rest.reverse.dropWhile isspace = rest.reverse := by
      cases hr : rest.reverse with
      | nil => rfl
      | cons x xs =>
        have hx : x ∈ rest := by
          rw [← List.mem_reverse, hr]
          simp
        have := h x (List.mem_cons_of_mem _ hx)
        rw [List.dropWhile_cons_of_neg (by simp [this])]
    simp only [trim_end, hrev, List.reverse_reverse]

theorem strchr_eq_none (s : List Char) (c : Char) (h : c ∉ s) : strchr s c = none := by
  have := (strchr_isSome_iff s c).not.mpr h
  simpa using this

/-- A pattern that begins with `x` occurs first right after a text free of `x`. -/
theorem first_after_free (d pat post : List Char) (x : Char) (hx : x ∉ d)
    (hpat : pat.head? = some x) :
    ∀ a b, d ++ pat ++ post = a ++ pat ++ b → d.length ≤ a.length := by
  intro a b hab
  by_contra hlt
  have hlt2 : a.length < d.length := by omega
  rw [List.append_assoc, List.append_assoc] at hab
  obtain ⟨k, hk⟩ : a <+: d :=
    List.prefix_of_prefix_length_le ⟨pat ++ b, hab.symm⟩ ⟨pat ++ post, rfl⟩ (by omega)
  have hkne : k ≠ [] := by
    intro e
    subst e
    simp at hk
    rw [hk] at hlt2
    omega
  rw [← hk, List.append_assoc] at hab
  have hab2 := List.append_cancel_left hab
  obtain ⟨y, ys, rfl⟩ := List.exists_cons_of_ne_nil hkne
  cases pat with
  | nil => simp at hpat
  | cons p ps =>
    simp only [List.head?_cons, Option.some.injEq] at hpat
    subst hpat
    simp only [List.cons_append, List.cons.injEq] at hab2
    apply hx
    rw [← hk, hab2.1]
    simp

/-- A prefix free of `x` is not completed by appending a text that begins with `x`. -/
theorem not_prefix_append (p d rest : List Char) (x : Char) (hx : x ∉ p)
    (hnp : ¬ p <+: d) : ¬ p <+: d ++ x :: rest := by
  intro hp
  by_cases hlen : p.length ≤ d.length
  · exact hnp (List.prefix_of_prefix_length_le hp ⟨x :: rest, rfl⟩ hlen)
  · obtain ⟨k, hk⟩ : d <+: p :=
      List.prefix_of_prefix_length_le ⟨x :: rest, rfl⟩ hp (by omega)
    obtain ⟨b, hb⟩ := hp
    rw [← hk, List.append_assoc] at hb
    have hb2 := List.append_cancel_left hb
    cases k with
    | nil =>
      simp at hk
      rw [hk] at hlen
      omega
    | cons y ys =>
      simp only [List.cons_append, List.cons.injEq] at hb2
      apply hx
      rw [← hk, hb2.1]
      simp

/-- The device text in front of a separator at offset `d.length`. -/
theorem extract_device_at (d post buffer : List Char) (sep : List Char)
    (hlen : d.length ≤ 63) (hws : ∀ c ∈ d, isspace c = false)
    (hnone : ¬ "(None)".toList <+: d ++ sep ++ post)
    (hsep : (match strchr (d ++ sep ++ post) '|' with
        | some i => some i
        | none => strstr (d ++ sep ++ post) " - ".toList) = some d.length) :
    extract_device (some (d ++ sep ++ post)) buffer 64 = (true, d) := by
  have hno : strncmp_eq (d ++ sep ++ post) "(None)".toList 6 = false := by
    have := (strncmp_eq_iff (d ++ sep ++ post) "(None)".toList).not.mpr hnone
    simpa using this
  have htake : (d ++ sep ++ post).take d.length = d := by
    rw [List.append_assoc, List.take_left]
  have hlt : d.length < 64 := by omega
  unfold extract_device
  simp only [hno, Bool.false_eq_true, if_false, hsep, hlt, if_true, htake,
    trim_end_of_no_space d hws]

/-! ## Lemmas on the timezone table -/

theorem strcmp_range (a b : List Char) : strcmp a b = -1 ∨ strcmp a b = 0 ∨ strcmp a b = 1 := by
  induction a generalizing b with
  | nil => cases b <;> simp [strcmp]
  | cons x xs ih =>
    cases b with
    | nil => simp [strcmp]
    | cons y ys =>
      unfold strcmp
      split
      · simp
      · split
        · simp
        · exact ih ys

theorem strcmp_eq_zero_iff (a b : List Char) : strcmp a b = 0 ↔ a = b := by
  induction a generalizing b with
  | nil => cases b <;> simp [strcmp]
  | cons x xs ih =>
    cases b with
    | nil => simp [strcmp]
    | cons y ys =>
      unfold strcmp
      by_cases h1 : x.toNat < y.toNat
      · rw [if_pos h1]
        have : x ≠ y := fun e => by subst e; omega
        simp [this]
      · rw [if_neg h1]
        by_cases h2 : y.toNat < x.toNat
        · rw [if_pos h2]
          have : x ≠ y := fun e => by subst e; omega
          simp [this]
        · rw [if_neg h2]
          have hxy : x = y := by
            rw [char_of_toNat x, char_of_toNat y]
            congr 1
            omega
          subst hxy
          simp [ih ys]

theorem strcmp_swap (a b : List Char) : strcmp b a = - strcmp a b := by
  induction a generalizing b with
  | nil => cases b <;> simp [strcmp]
  | cons x xs ih =>
    cases b with
    | nil => simp [strcmp]
    | cons y ys =>
      unfold strcmp
      by_cases h1 : x.toNat < y.toNat
      · have h2 : ¬ y.toNat < x.toNat := by omega
        rw [if_pos h1, if_neg h2, if_pos h1]
        rfl
      · by_cases h2 : y.toNat < x.toNat
        · rw [if_pos h2, if_neg h1, if_pos h2]
        · rw [if_neg h2, if_neg h1, if_neg h1, if_neg h2]
          exact ih ys

theorem strcmp_trans (a b c : List Char) (h1 : strcmp a b ≤ 0) (h2 : strcmp b c ≤ 0) :
    strcmp a c ≤ 0 := by
  induction a generalizing b c with
  | nil => cases c <;> simp [strcmp]
  | cons x xs ih =>
    cases b with
    | nil => simp [strcmp] at h1
    | cons y ys =>
      cases c with
      | nil => simp [strcmp] at h2
      | cons z zs =>
        unfold strcmp at h1 h2 ⊢
        by_cases hxy : x.toNat < y.toNat
        · by_cases hyz : y.toNat < z.toNat
          · rw [if_pos (by omega)]; decide
          · rw [if_neg hyz] at h2
            by_cases hzy : z.toNat < y.toNat
            · rw [if_pos hzy] at h2; omega
            · rw [if_pos (by omega)]; decide
        · rw [if_neg hxy] at h1
          by_cases hyx : y.toNat < x.toNat
          · rw [if_pos hyx] at h1; omega
          · rw [if_neg hyx] at h1
            by_cases hyz : y.toNat < z.toNat
            · rw [if_pos (by omega)]; decide
            · rw [if_neg hyz] at h2
              by_cases hzy : z.toNat < y.toNat
              · rw [if_pos hzy] at h2; omega
              · rw [if_neg hzy] at h2
                rw [if_neg (by omega), if_neg (by omega)]
                exact ih ys zs h1 h2

theorem strcmp_neg_iff (a b : List Char) : strcmp a b < 0 ↔ byte_lt a b := by
  unfold byte_lt
  induction a generalizing b with
  | nil =>
    cases b with
    | nil => simp [strcmp]
    | cons y ys => simp [strcmp, List.Lex.nil]
  | cons x xs ih =>
    cases b with
    | nil => simp [strcmp]
    | cons y ys =>
      unfold strcmp
      by_cases h1 : x.toNat < y.toNat
      · rw [if_pos h1]
        exact ⟨fun _ => List.Lex.rel h1, fun _ => by decide⟩
      · rw [if_neg h1]
        by_cases h2 : y.toNat < x.toNat
        · rw [if_pos h2]
          constructor
          · intro h; omega
          · intro h
            cases h with
            | cons h => omega
            | rel h => omega
        · rw [if_neg h2]
          have hxy : x = y := by
            rw [char_of_toNat x, char_of_toNat y]
            congr 1
            omega
          subst hxy
          rw [ih ys]
          constructor
          · exact List.Lex.cons
          · intro h
            cases h with
            | cons h => exact h
            | rel h => omega

theorem exchange_pass_perm {α : Type} (key : α → List Char) (x : α) (l : List α) :
    List.Perm ((exchange_pass key x l).1 :: (exchange_pass key x l).2) (x :: l) := by
  induction l generalizing x with
  | nil => exact List.Perm.refl _
  | cons y ys ih =>
    unfold exchange_pass
    by_cases h : strcmp (key x) (key y) > 0
    · rw [if_pos h]
      exact (List.Perm.swap _ _ _).trans ((ih y).cons x)
    · rw [if_neg h]
      exact ((List.Perm.swap _ _ _).trans ((ih x).cons y)).trans (List.Perm.swap _ _ _)

theorem exchange_pass_length {α : Type} (key : α → List Char) (x : α) (l : List α) :
    (exchange_pass key x l).2.length = l.length := by
  have h := (exchange_pass_perm key x l).length_eq
  simpa using h

theorem exchange_pass_min {α : Type} (key : α → List Char) (x : α) (l : List α) :
    strcmp (key (exchange_pass key x l).1) (key x) ≤ 0 ∧
      ∀ y ∈ (exchange_pass key x l).2, strcmp (key (exchange_pass key x l).1) (key y) ≤ 0 := by
  induction l generalizing x with
  | nil =>
    refine ⟨?_, by simp [exchange_pass]⟩
    simp only [exchange_pass]
    rw [(strcmp_eq_zero_iff _ _).mpr rfl]
  | cons y ys ih =>
    unfold exchange_pass
    by_cases h : strcmp (key x) (key y) > 0
    · rw [if_pos h]
      obtain ⟨h1, h2⟩ := ih y
      have hyx : strcmp (key y) (key x) ≤ 0 := by rw [strcmp_swap]; omega
      have hx := strcmp_trans _ _ _ h1 hyx
      refine ⟨hx, ?_⟩
      intro z hz
      rcases List.mem_cons.mp hz with e | e
      · rw [e]; exact hx
      · exact h2 z e
    · rw [if_neg h]
      obtain ⟨h1, h2⟩ := ih x
      refine ⟨h1, ?_⟩
      intro z hz
      rcases List.mem_cons.mp hz with e | e
      · rw [e]; exact strcmp_trans _ _ _ h1 (by omega)
      · exact h2 z e

theorem exchange_sort_from_perm {α : Type} (key : α → List Char) (n : Nat) (l : List α) :
    List.Perm (exchange_sort_from key n l) l := by
  induction n generalizing l with
  | zero => exact List.Perm.refl _
  | succ n ih =>
    cases l with
    | nil => exact List.Perm.refl _
    | cons x xs =>
      unfold exchange_sort_from
      exact ((ih _).cons _).trans (exchange_pass_perm key x xs)

theorem exchange_sort_from_sorted {α : Type} (key : α → List Char) (n : Nat) (l : List α)
    (hn : l.length ≤ n + 1) :
    (exchange_sort_from key n l).Pairwise (fun a b => strcmp (key a) (key b) ≤ 0) := by
  induction n generalizing l with
  | zero =>
    unfold exchange_sort_from
    match l, hn with
    | [], _ => exact List.Pairwise.nil
    | [x], _ => exact List.pairwise_singleton _ _
  | succ n ih =>
    cases l with
    | nil => unfold exchange_sort_from; exact List.Pairwise.nil
    | cons x xs =>
      unfold exchange_sort_from
      have hlen := exchange_pass_length key x xs
      have hmin := (exchange_pass_min key x xs).2
      refine List.Pairwise.cons ?_ (ih _ (by simp only [List.length_cons] at hn; omega))
      intro z hz
      exact hmin z ((exchange_sort_from_perm key n _).mem_iff.mp hz)

theorem exchange_sort_perm {α : Type} (key : α → List Char) (l : List α) :
    List.Perm (exchange_sort key l) l :=
  exchange_sort_from_perm key _ l

theorem exchange_sort_sorted {α : Type} (key : α → List Char) (l : List α) :
    (exchange_sort key l).Pairwise (fun a b => strcmp (key a) (key b) ≤ 0) :=
  exchange_sort_from_sorted key _ l (by omega)

/-- A list in `strcmp` order whose keys are all different is in strict byte
order. -/
theorem strict_of_sorted_nodup {α : Type} (key : α → List Char) (l : List α)
    (hs : l.Pairwise (fun a b => strcmp (key a) (key b) ≤ 0)) (hd : (l.map key).Nodup) :
    (l.map key).Pairwise byte_lt := by
  rw [List.pairwise_map]
  have hd2 : l.Pairwise (fun a b => key a ≠ key b) := by
    rw [List.Nodup, List.pairwise_map] at hd
    exact hd
  refine (hs.and hd2).imp ?_
  intro a b hab
  rw [← strcmp_neg_iff]
  have := (strcmp_eq_zero_iff (key a) (key b)).not.mpr hab.2
  have := hab.1
  omega

theorem any_strcmp_iff (cities : List (List Char)) (c : List Char) :
    cities.any (fun x => decide (strcmp x c = 0)) = true ↔ c ∈ cities := by
  rw [List.any_eq_true]
  constructor
  · rintro ⟨x, hx, h⟩
    have e := (strcmp_eq_zero_iff x c).mp (of_decide_eq_true h)
    rw [← e]; exact hx
  · intro h
    exact ⟨c, h, decide_eq_true ((strcmp_eq_zero_iff c c).mpr rfl)⟩

theorem add_city_nodup (cities : List (List Char)) (c : List Char) (h : cities.Nodup) :
    (add_city cities c).Nodup := by
  unfold add_city
  by_cases hc : c ∈ cities
  · rw [if_pos ((any_strcmp_iff cities c).mpr hc)]; exact h
  · rw [if_neg (fun e => hc ((any_strcmp_iff cities c).mp e))]
    exact List.Nodup.append h (List.nodup_singleton c) (by simpa using hc)

theorem add_city_mem (cities : List (List Char)) (c : List Char) : c ∈ add_city cities c := by
  unfold add_city
  by_cases hc : c ∈ cities
  · rw [if_pos ((any_strcmp_iff cities c).mpr hc)]; exact hc
  · rw [if_neg (fun e => hc ((any_strcmp_iff cities c).mp e))]
    simp

theorem add_city_subset (cities : List (List Char)) (c x : List Char) (hx : x ∈ cities) :
    x ∈ add_city cities c := by
  unfold add_city
  split
  · exact hx
  · exact List.mem_append_left _ hx

theorem add_empty_city_nodup (cities : List (List Char)) (h : cities.Nodup) :
    (add_empty_city cities).Nodup := by
  unfold add_empty_city
  split
  · exact List.nodup_singleton _
  · exact h

theorem add_empty_city_subset (cities : List (List Char)) (x : List Char) (hx : x ∈ cities) :
    x ∈ add_empty_city cities := by
  unfold add_empty_city
  split
  · rename_i h
    rw [List.length_eq_zero.mp h] at hx
    exact absurd hx (List.not_mem_nil x)
  · exact hx

theorem update_region_names (n : List Char) (f : List (List Char) → List (List Char))
    (rs : List TimezoneRegion) :
    (update_region n f rs).map (fun r => r.name) =
      if n ∈ rs.map (fun r => r.name) then rs.map (fun r => r.name)
      else rs.map (fun r => r.name) ++ [n] := by
  induction rs with
  | nil => simp [update_region]
  | cons r rs ih =>
    unfold update_region
    by_cases h : strcmp r.name n = 0
    · rw [if_pos h]
      have e := (strcmp_eq_zero_iff _ _).mp h
      simp [e]
    · rw [if_neg h]
      have e : ¬ n = r.name := fun e => h ((strcmp_eq_zero_iff _ _).mpr e.symm)
      rw [List.map_cons, ih]
      by_cases hm : n ∈ rs.map (fun r => r.name)
      · rw [if_pos hm, if_pos (by rw [List.map_cons]; exact List.mem_cons_of_mem _ hm)]
        rfl
      · rw [if_neg hm, if_neg (by
          rw [List.map_cons]
          intro hh
          rcases List.mem_cons.mp hh with h1 | h1
          · exact e h1
          · exact hm h1)]
        rfl

theorem update_region_cities (n : List Char) (f : List (List Char) → List (List Char))
    (P : List (List Char) → Prop) (hf : ∀ cs, P cs → P (f cs)) (h0 : P [])
    (rs : List TimezoneRegion) (h : ∀ r ∈ rs, P r.cities) :
    ∀ r ∈ update_region n f rs, P r.cities := by
  induction rs with
  | nil =>
    intro r hr
    simp only [update_region, List.mem_singleton] at hr
    rw [hr]; exact hf _ h0
  | cons r0 rs ih =>
    intro r hr
    unfold update_region at hr
    split at hr
    · rcases List.mem_cons.mp hr with e | e
      · rw [e]; exact hf _ (h r0 (List.mem_cons_self _ _))
      · exact h r (List.mem_cons_of_mem _ e)
    · rcases List.mem_cons.mp hr with e | e
      · rw [e]; exact h r0 (List.mem_cons_self _ _)
      · exact ih (fun r hr => h r (List.mem_cons_of_mem _ hr)) r e

theorem update_region_distinct (n : List Char) (f : List (List Char) → List (List Char))
    (hf : ∀ cs, cs.Nodup → (f cs).Nodup) (rs : List TimezoneRegion)
    (h : regions_distinct rs) : regions_distinct (update_region n f rs) := by
  constructor
  · rw [update_region_names]
    split
    · exact h.1
    · rename_i hm
      exact List.Nodup.append h.1 (List.nodup_singleton n) (by simpa using hm)
  · exact update_region_cities n f List.Nodup hf List.nodup_nil rs h.2

theorem add_zone_distinct (rs : List TimezoneRegion) (tz : List Char)
    (h : regions_distinct rs) : regions_distinct (add_zone rs tz) := by
  unfold add_zone
  split
  · exact h
  · split
    · exact update_region_distinct _ _ (fun cs hcs => add_city_nodup cs _ hcs) rs h
    · exact update_region_distinct _ _ add_empty_city_nodup rs h

theorem foldl_add_zone_distinct (tzs : List (List Char)) (rs : List TimezoneRegion)
    (h : regions_distinct rs) : regions_distinct (tzs.foldl add_zone rs) := by
  induction tzs generalizing rs with
  | nil => exact h
  | cons tz tzs ih => exact ih _ (add_zone_distinct rs tz h)

theorem update_region_has_city_new (R C : List Char) (f : List (List Char) → List (List Char))
    (hf : ∀ cs, C ∈ f cs) (rs : List TimezoneRegion) : has_city (update_region R f rs) R C := by
  induction rs with
  | nil => exact ⟨_, List.mem_singleton.mpr rfl, rfl, hf []⟩
  | cons r rs ih =>
    unfold update_region
    by_cases h : strcmp r.name R = 0
    · rw [if_pos h]
      exact ⟨_, List.mem_cons_self _ _, (strcmp_eq_zero_iff _ _).mp h, hf _⟩
    · rw [if_neg h]
      obtain ⟨r1, hr1, hn, hc⟩ := ih
      exact ⟨r1, List.mem_cons_of_mem _ hr1, hn, hc⟩

theorem update_region_has_city_mono (n R C : List Char) (f : List (List Char) → List (List Char))
    (hf : ∀ cs, C ∈ cs → C ∈ f cs) (rs : List TimezoneRegion) (h : has_city rs R C) :
    has_city (update_region n f rs) R C := by
  induction rs with
  | nil =>
    obtain ⟨r, hr, _⟩ := h
    exact absurd hr (List.not_mem_nil r)
  | cons r0 rs ih =>
    obtain ⟨r, hr, hn, hc⟩ := h
    unfold update_region
    split
    · rcases List.mem_cons.mp hr with e | e
      · exact ⟨_, List.mem_cons_self _ _, by rw [← hn, e], hf _ (by rw [← e]; exact hc)⟩
      · exact ⟨r, List.mem_cons_of_mem _ e, hn, hc⟩
    · rcases List.mem_cons.mp hr with e | e
      · exact ⟨r0, List.mem_cons_self _ _, by rw [← hn, e], by rw [← e]; exact hc⟩
      · obtain ⟨r1, hr1, hn1, hc1⟩ := ih ⟨r, e, hn, hc⟩
        exact ⟨r1, List.mem_cons_of_mem _ hr1, hn1, hc1⟩

theorem add_zone_has_city_mono (rs : List TimezoneRegion) (tz R C : List Char)
    (h : has_city rs R C) : has_city (add_zone rs tz) R C := by
  unfold add_zone
  split
  · exact h
  · split
    · exact update_region_has_city_mono _ R C _ (fun cs hc => add_city_subset cs _ C hc) rs h
    · exact update_region_has_city_mono _ R C _ (fun cs hc => add_empty_city_subset cs C hc) rs h

theorem foldl_add_zone_has_city_mono (tzs : List (List Char)) (rs : List TimezoneRegion)
    (R C : List Char) (h : has_city rs R C) : has_city (tzs.foldl add_zone rs) R C := by
  induction tzs generalizing rs with
  | nil => exact h
  | cons tz tzs ih => exact ih _ (add_zone_has_city_mono rs tz R C h)

/-- A name with a slash is none of the skipped names. -/
theorem slash_name_not_special (R C : List Char) : is_special_zone (R ++ '/' :: C) = false := by
  have hs : ∀ s : List Char, '/' ∉ s → ¬ strcmp (R ++ '/' :: C) s = 0 := by
    intro s hs h
    have e := (strcmp_eq_zero_iff _ _).mp h
    exact hs (by rw [← e]; simp)
  unfold is_special_zone
  simp only [Bool.or_eq_false_iff, decide_eq_false_iff_not]
  exact ⟨⟨hs _ (by decide), hs _ (by decide)⟩, hs _ (by decide)⟩

theorem add_zone_has_city (rs : List TimezoneRegion) (R C : List Char) (hR : '/' ∉ R) :
    has_city (add_zone rs (R ++ '/' :: C)) R C := by
  unfold add_zone
  rw [slash_name_not_special, strchr_append_of_not_mem R C '/' hR]
  simp only [Bool.false_eq_true, if_false]
  have h1 : (R ++ '/' :: C).take R.length = R := List.take_left R _
  have h2 : (R ++ '/' :: C).drop (R.length + 1) = C := by
    have : R ++ '/' :: C = (R ++ ['/']) ++ C := by simp
    rw [this]
    have hl : R.length + 1 = (R ++ ['/']).length := by simp
    rw [hl]
    exact List.drop_left (R ++ ['/']) C
  rw [h1, h2]
  exact update_region_has_city_new R C _ (fun cs => add_city_mem cs C) rs

theorem foldl_add_zone_has_city (tzs : List (List Char)) (rs : List TimezoneRegion)
    (R C : List Char) (hR : '/' ∉ R) (h : R ++ '/' :: C ∈ tzs) :
    has_city (tzs.foldl add_zone rs) R C := by
  induction tzs generalizing rs with
  | nil => exact absurd h (List.not_mem_nil _)
  | cons tz tzs ih =>
    rcases List.mem_cons.mp h with e | e
    · rw [List.foldl_cons, ← e]
      exact foldl_add_zone_has_city_mono tzs _ R C (add_zone_has_city rs R C hR)
    · exact ih _ e

theorem sorted_regions_names (timezones : List (List Char)) :
    ((sorted_regions timezones).map (fun r => r.name)).Pairwise byte_lt := by
  unfold sorted_regions
  rw [List.map_map]
  have hd := (foldl_add_zone_distinct timezones [] ⟨List.nodup_nil, fun r hr =>
    absurd hr (List.not_mem_nil r)⟩).1
  have hp := exchange_sort_perm (fun r : TimezoneRegion => r.name) (timezones.foldl add_zone [])
  exact strict_of_sorted_nodup (fun r : TimezoneRegion => r.name) _ (exchange_sort_sorted _ _)
    ((hp.map _).nodup_iff.mpr hd)

theorem map_self (l : List (List Char)) : l.map (fun c => c) = l := by
  induction l with
  | nil => rfl
  | cons c cs ih => rw [List.map_cons, ih]

theorem short_list_pairwise (cs : List (List Char)) (h : ¬ cs.length > 1) :
    cs.Pairwise byte_lt := by
  match cs, h with
  | [], _ => exact List.Pairwise.nil
  | [c], _ => exact List.pairwise_singleton _ _
  | _ :: _ :: _, h => exact absurd (by simp) h

theorem sorted_regions_cities (timezones : List (List Char)) :
    ∀ cs ∈ (sorted_regions timezones).map (fun r => r.cities), cs.Pairwise byte_lt := by
  intro cs hcs
  unfold sorted_regions at hcs
  rw [List.map_map] at hcs
  obtain ⟨r, hr, e⟩ := List.mem_map.mp hcs
  have hr2 := (exchange_sort_perm _ _).mem_iff.mp hr
  have hd := (foldl_add_zone_distinct timezones [] ⟨List.nodup_nil, fun r hr =>
    absurd hr (List.not_mem_nil r)⟩).2 r hr2
  simp only [Function.comp] at e
  rw [← e]
  split
  · have hp := exchange_sort_perm (fun c : List Char => c) r.cities
    have h := strict_of_sorted_nodup (fun c : List Char => c) _ (exchange_sort_sorted _ r.cities)
      (by rw [map_self]; exact hp.nodup_iff.mpr hd)
    rw [map_self] at h
    exact h
  · rename_i hlen
    exact short_list_pairwise _ hlen

theorem sorted_regions_has_city (timezones : List (List Char)) (R C : List Char)
    (hR : '/' ∉ R) (h : R ++ '/' :: C ∈ timezones) : has_city (sorted_regions timezones) R C := by
  obtain ⟨r, hr, hn, hc⟩ := foldl_add_zone_has_city timezones [] R C hR h
  unfold sorted_regions
  refine ⟨_, List.mem_map.mpr ⟨r, (exchange_sort_perm _ _).mem_iff.mpr hr, rfl⟩, hn, ?_⟩
  simp only
  split
  · exact (exchange_sort_perm _ _).mem_iff.mpr hc
  · exact hc

theorem has_city_index (rs : List TimezoneRegion) (R C : List Char) (h : has_city rs R C) :
    ∃ (i : Nat) (cs : List (List Char)), (rs.map (fun r => r.name))[i]? = some R ∧
      (rs.map (fun r => r.cities))[i]? = some cs ∧ C ∈ cs := by
  obtain ⟨r, hr, hn, hc⟩ := h
  obtain ⟨i, hi⟩ := List.getElem?_of_mem hr
  exact ⟨i, r.cities, by rw [List.getElem?_map, hi, ← hn]; rfl,
    by rw [List.getElem?_map, hi]; rfl, hc⟩

theorem get_selected_timezone_joins (R C : List Char) (hC : C ≠ [])
    (hU : R ≠ "UTC".toList) (hG : R ≠ "GMT".toList) :
    get_selected_timezone (some R) (some C) = some (R ++ '/' :: C) := by
  unfold get_selected_timezone
  have h1 : ¬ (strcmp R "UTC".toList = 0 ∨ strcmp R "GMT".toList = 0) := by
    rintro (h | h)
    · exact hU ((strcmp_eq_zero_iff _ _).mp h)
    · exact hG ((strcmp_eq_zero_iff _ _).mp h)
  simp only
  rw [if_neg h1]
  cases C with
  | nil => exact absurd rfl hC
  | cons c cs => simp

/-! ## The claims -/

/-- C1. A line `PROGRESS:<d>:<m>` without transfer marker, where `d` is a
decimal numeral of value at most 100, posts the log line and exactly one
`ProgressUpdate`, whose percent is the value of `d` and whose message is all of
`m`, colons included. -/
theorem progress_line_event (d m : List Char) (app : InstallerApp)
    (hne : d ≠ []) (hd : ∀ c ∈ d, isdigit c = true) (hval : numeral_value d ≤ 100)
    (h1 : ¬ contains_tag ("PROGRESS:".toList ++ d ++ ":".toList ++ m))
    (h2 : ¬ contains_rate_unit ("PROGRESS:".toList ++ d ++ ":".toList ++ m)) :
    parse_installation_output ("PROGRESS:".toList ++ d ++ ":".toList ++ m) app =
      ([OutputEvent.LogLine ("PROGRESS:".toList ++ d ++ ":".toList ++ m),
        OutputEvent.ProgressUpdate (numeral_value d) m], app) := by
  rw [parse_without_marker _ app h1 h2]
  obtain ⟨k, -, hk, hparse⟩ := progress_line_split d m app
  have hk2 := hk (digits_no_colon d hd)
  subst hk2
  have hst := strtol_digits d [] hne hd rfl
  rw [List.append_nil] at hst
  have hpos : d.length ≠ 0 := fun e => hne (List.length_eq_zero.mp e)
  have hclamp : max LONG_MIN (min LONG_MAX (numeral_value d : Int)) = numeral_value d := by
    unfold LONG_MIN LONG_MAX
    omega
  rw [hparse, List.take_length, hst, hclamp]
  have hcond : d.length ≠ 0 ∧ (numeral_value d : Int) ≥ 0 ∧ (numeral_value d : Int) ≤ 100 :=
    ⟨hpos, by omega, by omega⟩
  simp only [hcond, and_self, if_true]
  simp [hne]

/-- Witness of C1 at the line `PROGRESS:42:Copying: step 2`. -/
theorem progress_line_event_witness :
    parse_installation_output "PROGRESS:42:Copying: step 2".toList running_app =
      ([OutputEvent.LogLine "PROGRESS:42:Copying: step 2".toList,
        OutputEvent.ProgressUpdate 42 "Copying: step 2".toList], running_app) := by
  have h := progress_line_event "42".toList "Copying: step 2".toList running_app
    (by decide) (by decide) (by decide) (by decide) (by decide)
  have hv : numeral_value "42".toList = 42 := by decide
  rw [hv] at h
  exact h

/-- C2. A line `PROGRESS:<f>:<m>` without transfer marker whose percent field
is an integer numeral of value below 0 or above 100, or holds no digit at all,
posts no `ProgressUpdate`: the only event is the `LogLine` of the whole line. -/
theorem malformed_progress_dropped (f m : List Char) (app : InstallerApp)
    (hf : (∃ v, integer_numeral f = some v ∧ (v < 0 ∨ 100 < v)) ∨
      (∀ c ∈ f, isdigit c = false))
    (h1 : ¬ contains_tag ("PROGRESS:".toList ++ f ++ ":".toList ++ m))
    (h2 : ¬ contains_rate_unit ("PROGRESS:".toList ++ f ++ ":".toList ++ m)) :
    parse_installation_output ("PROGRESS:".toList ++ f ++ ":".toList ++ m) app =
      ([OutputEvent.LogLine ("PROGRESS:".toList ++ f ++ ":".toList ++ m)], app) := by
  rw [parse_without_marker _ app h1 h2]
  obtain ⟨k, hkle, hk, hparse⟩ := progress_line_split f m app
  rw [hparse]
  have hgoal : ¬ ((strtol (f.take k)).2 ≠ 0 ∧ (strtol (f.take k)).1 ≥ 0 ∧
      (strtol (f.take k)).1 ≤ 100) := by
    rcases hf with ⟨v, hv, hout⟩ | hnod
    · obtain ⟨ds, hne, hd, hshape⟩ := integer_numeral_some f v hv
      have hcol := digits_no_colon ds hd
      rcases hshape with ⟨e1, e2⟩ | ⟨rfl, rfl⟩ | ⟨rfl, rfl⟩
      · subst e2
        subst e1
        have hst := strtol_digits f [] hne hd rfl
        rw [List.append_nil] at hst
        rw [hk hcol, List.take_length, hst]
        unfold LONG_MIN LONG_MAX
        simp only
        omega
      · have hcol2 : ':' ∉ '-' :: ds := by
          intro hmem
          rcases List.mem_cons.mp hmem with e | e
          · exact absurd e (by decide)
          · exact hcol e
        have hst := strtol_minus_digits ds [] hne hd rfl
        rw [List.append_nil] at hst
        rw [hk hcol2, List.take_length, hst]
        unfold LONG_MIN LONG_MAX
        simp only
        omega
      · have hcol2 : ':' ∉ '+' :: ds := by
          intro hmem
          rcases List.mem_cons.mp hmem with e | e
          · exact absurd e (by decide)
          · exact hcol e
        have hst := strtol_plus_digits ds [] hne hd rfl
        rw [List.append_nil] at hst
        rw [hk hcol2, List.take_length, hst]
        unfold LONG_MIN LONG_MAX
        simp only
        omega
    · have hst := strtol_no_digit (f.take k) (fun c hc => hnod c (List.mem_of_mem_take hc))
      rw [hst]
      simp
  rw [if_neg hgoal]

/-- Witness of C2 at the lines `PROGRESS:150:done` and `PROGRESS:abc:done`. -/
theorem malformed_progress_dropped_witness :
    parse_installation_output "PROGRESS:150:done".toList running_app =
        ([OutputEvent.LogLine "PROGRESS:150:done".toList], running_app) ∧
      parse_installation_output "PROGRESS:abc:done".toList running_app =
        ([OutputEvent.LogLine "PROGRESS:abc:done".toList], running_app) :=
  ⟨malformed_progress_dropped "150".toList "done".toList running_app
      (Or.inl ⟨150, by decide, by decide⟩) (by decide) (by decide),
   malformed_progress_dropped "abc".toList "done".toList running_app
      (Or.inr (by decide)) (by decide) (by decide)⟩

/-- C3, counterexample. The line `SUCCESS: 5MB/s` begins with `SUCCESS:` and
holds a byte-rate unit: it is handled as a raw transfer line, so the only event
is a `LogLineReplace` and `installation_complete` stays false. -/
theorem success_with_rate_unit_not_success :
    parse_installation_output "SUCCESS: 5MB/s".toList running_app =
        ([OutputEvent.LogLineReplace "Copying: 0% 5MB/s".toList], running_app) ∧
      running_app.config.installation_complete = false := by
  decide

/-- C3, amended. A line that begins with `SUCCESS:` and contains no transfer
marker posts, after the log line and the two navigation callbacks,
`ProgressUpdate 100 "Installation complete!"` and then
`StatusUpdate "Installation completed successfully!"`, and sets
`installation_complete` (clearing `installation_started`), whatever follows the
prefix. -/
theorem success_line_events (rest : List Char) (app : InstallerApp)
    (h1 : ¬ contains_tag ("SUCCESS:".toList ++ rest))
    (h2 : ¬ contains_rate_unit ("SUCCESS:".toList ++ rest)) :
    parse_installation_output ("SUCCESS:".toList ++ rest) app =
      ([OutputEvent.LogLine ("SUCCESS:".toList ++ rest),
        OutputEvent.SuccessDialog, OutputEvent.NavigationUpdate,
        OutputEvent.ProgressUpdate 100 "Installation complete!".toList,
        OutputEvent.StatusUpdate "Installation completed successfully!".toList],
       { app with config :=
          { app.config with installation_complete := true, installation_started := false } }) := by
  rw [parse_without_marker _ app h1 h2]
  have hP : strncmp_eq ("SUCCESS:".toList ++ rest) "PROGRESS:".toList 9 = false := by
    simp [strncmp_eq]
  have hE : strncmp_eq ("SUCCESS:".toList ++ rest) "ERROR:".toList 6 = false := by
    simp [strncmp_eq]
  have hS : strncmp_eq ("SUCCESS:".toList ++ rest) "SUCCESS:".toList 8 = true := by
    simp [strncmp_eq]
  unfold parse_control_line
  simp only [hP, hE, hS, Bool.false_eq_true, if_false, if_true]
  simp

/-- Witness of the amended C3 at the line `SUCCESS: all done`. -/
theorem success_line_events_witness :
    parse_installation_output "SUCCESS: all done".toList running_app =
      ([OutputEvent.LogLine "SUCCESS: all done".toList,
        OutputEvent.SuccessDialog, OutputEvent.NavigationUpdate,
        OutputEvent.ProgressUpdate 100 "Installation complete!".toList,
        OutputEvent.StatusUpdate "Installation completed successfully!".toList],
       { config := { installation_started := false, installation_complete := true },
         thread_running := true }) :=
  success_line_events " all done".toList running_app (by decide) (by decide)

/-- C4, counterexample. On `RSYNC_PROGRESS: 12% 10.5MB/s(avg:9.8MB/s) 0:01:23`
a `StatusUpdate` is posted next to the `LogLineReplace`, and the 21-byte speed
does not fit its 19-byte conversion: the replaced log line holds neither the
speed nor the time. -/
theorem tagged_line_status_and_cut :
    parse_installation_output
        "RSYNC_PROGRESS: 12% 10.5MB/s(avg:9.8MB/s) 0:01:23".toList running_app =
        ([OutputEvent.LogLineReplace "Copying files: 12% 10.5MB/s(avg:9.8MB/ s)".toList,
          OutputEvent.StatusUpdate "Copying system files... 12% 10.5MB/s(avg:9.8MB/".toList],
         running_app) ∧
      ¬ "10.5MB/s(avg:9.8MB/s)".toList <:+: "Copying files: 12% 10.5MB/s(avg:9.8MB/ s)".toList ∧
      ¬ "0:01:23".toList <:+: "Copying files: 12% 10.5MB/s(avg:9.8MB/ s)".toList := by
  decide

/-- C4, amended. For a percentage `n` in 0..100, a speed of at most 19 bytes
and a time of at most 9 bytes (non-empty, free of white space), the tagged line
posts a `LogLineReplace` whose message contains `<n>%`, the speed and the time,
then the companion `StatusUpdate`, and nothing else. -/
theorem tagged_percent_line_events (n : Nat) (s t : List Char) (app : InstallerApp)
    (hn : n ≤ 100) (hs : is_field 19 s) (ht : is_field 9 t) :
    ∃ msg,
      parse_installation_output
          ("RSYNC_PROGRESS: ".toList ++ (Nat.repr n).toList ++ "% ".toList ++ s ++
            " ".toList ++ t) app =
        ([OutputEvent.LogLineReplace msg,
          OutputEvent.StatusUpdate
            ("Copying system files... ".toList ++ (Nat.repr n).toList ++ "% ".toList ++ s)],
         app) ∧
      ((Nat.repr n).toList ++ "%".toList) <:+: msg ∧ s <:+: msg ∧ t <:+: msg := by
  have h := parse_three_fields ((Nat.repr n).toList ++ "%".toList) s t app
    (percent_numeral_field n hn) hs ht
  refine ⟨"Copying files: ".toList ++ ((Nat.repr n).toList ++ "%".toList) ++ " ".toList ++ s ++
    " ".toList ++ t, ?_, ?_, ?_, ?_⟩
  · simpa using h
  · exact ⟨"Copying files: ".toList, " ".toList ++ s ++ " ".toList ++ t, by simp⟩
  · exact ⟨"Copying files: ".toList ++ ((Nat.repr n).toList ++ "%".toList) ++ " ".toList,
      " ".toList ++ t, by simp⟩
  · exact ⟨"Copying files: ".toList ++ ((Nat.repr n).toList ++ "%".toList) ++ " ".toList ++ s ++
      " ".toList, [], by simp⟩

/-- Witness of the amended C4 at 12 percent, `10.5MB/s`, `0:01:23`. -/
theorem tagged_percent_line_events_witness :
    ∃ msg,
      parse_installation_output
          ("RSYNC_PROGRESS: ".toList ++ (Nat.repr 12).toList ++ "% ".toList ++
            "10.5MB/s".toList ++ " ".toList ++ "0:01:23".toList) running_app =
        ([OutputEvent.LogLineReplace msg,
          OutputEvent.StatusUpdate
            ("Copying system files... ".toList ++ (Nat.repr 12).toList ++ "% ".toList ++
              "10.5MB/s".toList)],
         running_app) ∧
      ((Nat.repr 12).toList ++ "%".toList) <:+: msg ∧ "10.5MB/s".toList <:+: msg ∧
        "0:01:23".toList <:+: msg :=
  tagged_percent_line_events 12 "10.5MB/s".toList "0:01:23".toList running_app
    (by decide) (by decide) (by decide)

/-- C5. A tagged line with three fields that are non-empty, free of white
space and of at most 9, 19 and 9 bytes posts exactly two events, in this order:
the `LogLineReplace` of `Copying files: <p> <s> <t>` and the `StatusUpdate` of
`Copying system files... <p> <s>`; no `LogLine`. -/
theorem tagged_line_events (p s t : List Char) (app : InstallerApp)
    (hp : is_field 9 p) (hs : is_field 19 s) (ht : is_field 9 t) :
    parse_installation_output
        ("RSYNC_PROGRESS:".toList ++ " ".toList ++ p ++ " ".toList ++ s ++ " ".toList ++ t) app =
      ([OutputEvent.LogLineReplace
          ("Copying files: ".toList ++ p ++ " ".toList ++ s ++ " ".toList ++ t),
        OutputEvent.StatusUpdate ("Copying system files... ".toList ++ p ++ " ".toList ++ s)],
       app) :=
  parse_three_fields p s t app hp hs ht

/-- Witness of C5 at the line `RSYNC_PROGRESS: 12% 10.5MB/s 0:01:23`. -/
theorem tagged_line_events_witness :
    parse_installation_output "RSYNC_PROGRESS: 12% 10.5MB/s 0:01:23".toList running_app =
      ([OutputEvent.LogLineReplace "Copying files: 12% 10.5MB/s 0:01:23".toList,
        OutputEvent.StatusUpdate "Copying system files... 12% 10.5MB/s".toList],
       running_app) :=
  tagged_line_events "12%".toList "10.5MB/s".toList "0:01:23".toList running_app
    (by decide) (by decide) (by decide)

/-- C6, counterexample. The bare tag has no field: the `sscanf` call stores
nothing, the guard `>= 1` fails and the line runs through the ordinary path, so
no `LogLineReplace` with the defaults is posted.  And a 10-byte first field
overflows the 9-byte conversion into the speed, which is then not the default. -/
theorem bare_tag_is_plain_line :
    parse_installation_output "RSYNC_PROGRESS:".toList running_app =
        ([OutputEvent.LogLine "RSYNC_PROGRESS:".toList,
          OutputEvent.StatusUpdate "RSYNC_PROGRESS:".toList], running_app) ∧
      parse_installation_output "RSYNC_PROGRESS: 1234567890".toList running_app =
        ([OutputEvent.LogLineReplace "Copying files: 123456789 0 0:00:00".toList,
          OutputEvent.StatusUpdate "Copying system files... 123456789 0".toList],
         running_app) := by
  decide

/-- C6, amended. With one or two fields that are non-empty, free of white
space and of at most 9 and 19 bytes, the `LogLineReplace` is
`Copying files: <percent> <speed> <time>` where the absent speed is `0.0MB/s`
and the absent time is `0:00:00`.  The bare tag posts no `LogLineReplace`: it is
logged and shown as an ordinary line. -/
theorem tagged_line_defaults (p s : List Char) (app : InstallerApp)
    (hp : is_field 9 p) (hs : is_field 19 s) :
    parse_installation_output ("RSYNC_PROGRESS:".toList ++ " ".toList ++ p) app =
        ([OutputEvent.LogLineReplace
            ("Copying files: ".toList ++ p ++ " 0.0MB/s 0:00:00".toList),
          OutputEvent.StatusUpdate
            ("Copying system files... ".toList ++ p ++ " 0.0MB/s".toList)], app) ∧
      parse_installation_output
          ("RSYNC_PROGRESS:".toList ++ " ".toList ++ p ++ " ".toList ++ s) app =
        ([OutputEvent.LogLineReplace
            ("Copying files: ".toList ++ p ++ " ".toList ++ s ++ " 0:00:00".toList),
          OutputEvent.StatusUpdate
            ("Copying system files... ".toList ++ p ++ " ".toList ++ s)], app) ∧
      parse_installation_output "RSYNC_PROGRESS:".toList app =
        ([OutputEvent.LogLine "RSYNC_PROGRESS:".toList,
          OutputEvent.StatusUpdate "RSYNC_PROGRESS:".toList], app) :=
  ⟨parse_one_field p app hp, parse_two_fields p s app hp hs, rfl⟩

/-- Witness of the amended C6 at the fields `12%` and `10.5MB/s`. -/
theorem tagged_line_defaults_witness :
    parse_installation_output "RSYNC_PROGRESS: 12%".toList running_app =
        ([OutputEvent.LogLineReplace "Copying files: 12% 0.0MB/s 0:00:00".toList,
          OutputEvent.StatusUpdate "Copying system files... 12% 0.0MB/s".toList],
         running_app) ∧
      parse_installation_output "RSYNC_PROGRESS: 12% 10.5MB/s".toList running_app =
        ([OutputEvent.LogLineReplace "Copying files: 12% 10.5MB/s 0:00:00".toList,
          OutputEvent.StatusUpdate "Copying system files... 12% 10.5MB/s".toList],
         running_app) ∧
      parse_installation_output "RSYNC_PROGRESS:".toList running_app =
        ([OutputEvent.LogLine "RSYNC_PROGRESS:".toList,
          OutputEvent.StatusUpdate "RSYNC_PROGRESS:".toList], running_app) :=
  tagged_line_defaults "12%".toList "10.5MB/s".toList running_app (by decide) (by decide)

set_option maxRecDepth 100000 in
/-- C7, counterexample. On `09999999999999999999% 1MB/s` the digit run right
before the `%` is not carried verbatim: `strtol` drops the leading zero and
stops at `LONG_MAX`, and the 10-byte buffer keeps 9 bytes, without the `%`. -/
theorem raw_percent_not_verbatim :
    parse_installation_output "09999999999999999999% 1MB/s".toList running_app =
      ([OutputEvent.LogLineReplace "Copying: 922337203 1MB/s".toList], running_app) := by
  decide

/-- C7, amended. On a raw transfer line the percentage is read at the first run
of digits of the line: when a `%` follows that run, the text shown is the value
of the run in decimal (at most `LONG_MAX`) with `%` appended, cut to 9 bytes;
when no digit of the line stands right before a `%`, it is `0%`. -/
theorem raw_percent_shown (line : List Char) (app : InstallerApp)
    (h1 : ¬ contains_tag line) (h2 : contains_rate_unit line) :
    (∀ pre ds post, line = pre ++ ds ++ '%' :: post →
        (∀ c ∈ pre, isdigit c = false) → ds ≠ [] → (∀ c ∈ ds, isdigit c = true) →
        parse_installation_output line app =
          ([OutputEvent.LogLineReplace
              ("Copying: ".toList ++
                ((Nat.repr (min (numeral_value ds) (2 ^ 63 - 1))).toList ++ "%".toList).take 9 ++
                " ".toList ++ extract_speed line)], app)) ∧
      ((∀ a d b, line = a ++ d :: '%' :: b → isdigit d = false) →
        parse_installation_output line app =
          ([OutputEvent.LogLineReplace
              ("Copying: ".toList ++ "0%".toList ++ " ".toList ++ extract_speed line)],
           app)) := by
  constructor
  · intro pre ds post hline hpre hne hd
    have hrest : ('%' :: post).takeWhile isdigit = [] := by
      have : isdigit '%' = false := by decide
      simp [List.takeWhile, this]
    have hp := extract_percent_run pre ds ('%' :: post) hpre hne hd hrest
    rw [← hline] at hp
    simp only [List.head?_cons, if_true] at hp
    rw [parse_raw line app h1 h2, hp]
  · intro hno
    rw [parse_raw line app h1 h2, extract_percent_default line hno]

/-- Witness of the amended C7 at the lines `sending 045% 10.5MB/s` and
`sending at 10.5MB/s`. -/
theorem raw_percent_shown_witness :
    parse_installation_output "sending 045% 10.5MB/s".toList running_app =
        ([OutputEvent.LogLineReplace "Copying: 45% 10.5MB/s".toList], running_app) ∧
      parse_installation_output "sending at 10.5MB/s".toList running_app =
        ([OutputEvent.LogLineReplace "Copying: 0% 10.5MB/s".toList], running_app) :=
  ⟨(raw_percent_shown "sending 045% 10.5MB/s".toList running_app (by decide) (by decide)).1
      "sending ".toList "045".toList " 10.5MB/s".toList rfl (by decide) (by decide) (by decide),
   (raw_percent_shown "sending at 10.5MB/s".toList running_app (by decide) (by decide)).2
      (fun a d b hab => by
        have hmem : '%' ∈ "sending at 10.5MB/s".toList := by rw [hab]; simp
        exact absurd hmem (by decide))⟩

/-- Only the first run of digits is examined: on `1.5M 45% 10MB/s` the run `1`
is followed by `.`, and the later `45%` is not looked at. -/
theorem raw_percent_first_run_only :
    parse_installation_output "1.5M 45% 10MB/s".toList running_app =
      ([OutputEvent.LogLineReplace "Copying: 0% 10MB/s".toList], running_app) := by
  decide

/-- C8. On a raw transfer line, at the first `B/s` of the line: the speed shown
is the longest run of bytes among the digits, `.`, `M`, `K`, `G` that ends right
before that `B/s`, followed by `B/s`, when the token has fewer than 20 bytes, and
`0.0MB/s` otherwise. -/
theorem raw_speed_shown (front run post : List Char) (app : InstallerApp)
    (hfirst : ∀ a b, front ++ run ++ "B/s".toList ++ post = a ++ "B/s".toList ++ b →
      (front ++ run).length ≤ a.length)
    (hrun : ∀ c ∈ run, c ∈ "0123456789.MKG".toList)
    (hmax : ∀ c ∈ front.getLast?, c ∉ "0123456789.MKG".toList)
    (h1 : ¬ contains_tag (front ++ run ++ "B/s".toList ++ post))
    (h2 : contains_rate_unit (front ++ run ++ "B/s".toList ++ post)) :
    parse_installation_output (front ++ run ++ "B/s".toList ++ post) app =
      ([OutputEvent.LogLineReplace
          ("Copying: ".toList ++ extract_percent (front ++ run ++ "B/s".toList ++ post) ++
            " ".toList ++
            (if (run ++ "B/s".toList).length < 20 then run ++ "B/s".toList
             else "0.0MB/s".toList))], app) := by
  have hsp := extract_speed_first front run post hfirst
    (fun c hc => (is_speed_char_iff c).mpr (hrun c hc))
    (fun c hc => by
      have := hmax c hc
      rw [← is_speed_char_iff] at this
      simpa using this)
  have hl : (run ++ "B/s".toList).length = run.length + 3 := by simp
  rw [parse_raw _ app h1 h2, hsp, hl]

/-- Witness of C8 at the line `   45%  10.5MB/s  0:00:12`. -/
theorem raw_speed_shown_witness :
    parse_installation_output "   45%  10.5MB/s  0:00:12".toList running_app =
      ([OutputEvent.LogLineReplace "Copying: 45% 10.5MB/s".toList], running_app) :=
  raw_speed_shown "   45%  ".toList "10.5M".toList "  0:00:12".toList running_app
    (strstr_some_min "   45%  10.5MB/s  0:00:12".toList "B/s".toList 13 (by decide))
    (by decide) (by decide) (by decide) (by decide)

/-- C9. A line without transfer marker and without control prefix: nothing is
posted when it is empty; otherwise `LogLine line` is posted, followed by one
`StatusUpdate line` when the line has a colon or fewer than 100 characters, and
by nothing when it has no colon and at least 100 characters. -/
theorem plain_line_events (line : List Char) (app : InstallerApp)
    (h1 : ¬ contains_tag line) (h2 : ¬ contains_rate_unit line)
    (hP : ¬ "PROGRESS:".toList <+: line) (hE : ¬ "ERROR:".toList <+: line)
    (hS : ¬ "SUCCESS:".toList <+: line) (hI : ¬ "INFO:".toList <+: line) :
    parse_installation_output line app =
      (if line = [] then []
       else if ':' ∈ line ∨ line.length < 100 then
         [OutputEvent.LogLine line, OutputEvent.StatusUpdate line]
       else [OutputEvent.LogLine line], app) := by
  rw [parse_without_marker line app h1 h2]
  rw [← strncmp_progress] at hP
  rw [← strncmp_error] at hE
  rw [← strncmp_success] at hS
  rw [← strncmp_info] at hI
  have hP2 : strncmp_eq line "PROGRESS:".toList 9 = false := by simpa using hP
  have hE2 : strncmp_eq line "ERROR:".toList 6 = false := by simpa using hE
  have hS2 : strncmp_eq line "SUCCESS:".toList 8 = false := by simpa using hS
  have hI2 : strncmp_eq line "INFO:".toList 5 = false := by simpa using hI
  unfold parse_control_line
  simp only [hP2, hE2, hS2, hI2, Bool.false_eq_true, if_false, not_false_eq_true, and_true]
  by_cases hl : line = []
  · subst hl
    simp
  · have hpos : 0 < line.length := List.length_pos.mpr hl
    by_cases hc : ':' ∈ line
    · have hc2 := (strchr_isSome_iff line ':').mpr hc
      simp [hl, hpos, hc, hc2]
    · have hc2 : (strchr line ':').isSome = false := by
        rw [← strchr_isSome_iff] at hc
        simpa using hc
      by_cases hlen : line.length < 100
      · simp [hl, hpos, hc, hc2, hlen]
      · simp [hl, hpos, hc, hc2, hlen]

/-- Witness of C9 at the line `Formatting /dev/sda1`. -/
theorem plain_line_events_witness :
    parse_installation_output "Formatting /dev/sda1".toList running_app =
      ([OutputEvent.LogLine "Formatting /dev/sda1".toList,
        OutputEvent.StatusUpdate "Formatting /dev/sda1".toList], running_app) := by
  have h := plain_line_events "Formatting /dev/sda1".toList running_app
    (by decide) (by decide) (by decide) (by decide) (by decide) (by decide)
  simpa using h

/-- C10, counterexample. The raw line of 2047 bytes `x` followed by a carriage
return has an empty text after its last `\r`, yet the worker posts an event
for it: `fgets` returns the first 2047 bytes as a buffer of their own, which is
logged.  The same happens to a short line with a NUL before the carriage
return: the string routines see the text before the NUL only. -/
theorem long_cr_line_logged :
    (read_loop (stream_buffers (List.replicate 2047 'x' ++ "\r\n".toList)) running_app).1 =
        [OutputEvent.LogLine (List.replicate 2047 'x')] ∧
      (read_loop (stream_buffers ("ab".toList ++ NUL :: "cd\r\n".toList)) running_app).1 =
        [OutputEvent.LogLine "ab".toList, OutputEvent.StatusUpdate "ab".toList] := by
  refine ⟨?_, by decide⟩
  rw [read_loop_long_x]
  have h : (read_loop (stream_buffers "\r\n".toList) running_app).1 = [] := by decide
  rw [h]

/-- C10, amended. A raw line of at most 2046 bytes without NUL byte that ends in
a carriage return, wherever it stands in the stream (after a newline or at the
start; ended by its newline or by the end of the stream), is read as one buffer
for which the loop body posts nothing and leaves the session as it is: the
result of the read loop is that of the other buffers alone. -/
theorem cr_empty_suffix_dropped (before pre nl after : List Char) (app : InstallerApp)
    (hb : ∀ c ∈ before.getLast?, c = '\n') (hlen : (pre ++ ['\r']).length ≤ 2046)
    (hpre : '\n' ∉ pre) (hz : NUL ∉ pre)
    (hend : nl = ['\n'] ∨ (nl = [] ∧ after = [])) :
    stream_buffers (before ++ (pre ++ ['\r'] ++ nl) ++ after) =
        stream_buffers before ++ (pre ++ ['\r'] ++ nl) :: stream_buffers after ∧
      (∀ a, read_loop_body (pre ++ ['\r'] ++ nl) a = ([], a)) ∧
      read_loop (stream_buffers (before ++ (pre ++ ['\r'] ++ nl) ++ after)) app =
        read_loop (stream_buffers before ++ stream_buffers after) app := by
  have hnl2 : nl = [] ∨ nl = ['\n'] := by
    rcases hend with h | h
    · exact Or.inr h
    · exact Or.inl h.1
  have hnl : '\n' ∉ pre ++ ['\r'] := by
    intro hm
    rcases List.mem_append.mp hm with h | h
    · exact hpre h
    · exact absurd (List.mem_singleton.mp h) (by decide)
  have hbuf := stream_buffers_raw_line before (pre ++ ['\r']) nl after hb hlen hnl hend
    (by simp)
  have hbody : ∀ a, read_loop_body (pre ++ ['\r'] ++ nl) a = ([], a) := by
    intro a
    have h := read_loop_body_cr pre [] nl a hpre (List.not_mem_nil _) (List.not_mem_nil _) hz
      (List.not_mem_nil _) hnl2
    have e : pre ++ '\r' :: [] ++ nl = pre ++ ['\r'] ++ nl := rfl
    rw [e] at h
    rw [h]
    simp
  refine ⟨hbuf, hbody, ?_⟩
  rw [hbuf]
  exact read_loop_skip _ _ _ app hbody

/-- Witness of the amended C10 at the line `Copying...\r` between the lines
`INFO:a` and `INFO:b`. -/
theorem cr_empty_suffix_dropped_witness :
    (read_loop (stream_buffers ("INFO:a\n".toList ++ ("Copying...".toList ++ ['\r'] ++ ['\n']) ++
        "INFO:b\n".toList)) running_app).1 =
      [OutputEvent.LogLine "INFO:a".toList, OutputEvent.StatusUpdate "a".toList,
        OutputEvent.LogLine "INFO:b".toList, OutputEvent.StatusUpdate "b".toList] := by
  rw [(cr_empty_suffix_dropped "INFO:a\n".toList "Copying...".toList ['\n'] "INFO:b\n".toList
    running_app (by decide) (by decide) (by decide) (by decide) (Or.inl rfl)).2.2]
  decide

/-- C11, counterexample. In the buffer `50%\r\tdone\n` the text after the last
carriage return begins with a tab: the line is not discarded, it is classified
and posts two events. -/
theorem cr_tab_suffix_kept :
    read_loop_body "50%\r\tdone\n".toList running_app =
      ([OutputEvent.LogLine "\tdone".toList, OutputEvent.StatusUpdate "\tdone".toList],
       running_app) := by
  decide

/-- C11, amended. A raw line of at most 2046 bytes without NUL byte in which the
text after the last carriage return begins with a space character, wherever it
stands in the stream, is read as one buffer for which the loop body posts
nothing and leaves the session as it is: the result of the read loop is that of
the other buffers alone. -/
theorem cr_space_suffix_dropped (before pre rest nl after : List Char) (app : InstallerApp)
    (hb : ∀ c ∈ before.getLast?, c = '\n')
    (hlen : (pre ++ '\r' :: ' ' :: rest).length ≤ 2046)
    (hpre : '\n' ∉ pre) (hr1 : '\n' ∉ rest) (hr2 : '\r' ∉ rest)
    (hz1 : NUL ∉ pre) (hz2 : NUL ∉ rest)
    (hend : nl = ['\n'] ∨ (nl = [] ∧ after = [])) :
    stream_buffers (before ++ (pre ++ '\r' :: ' ' :: rest ++ nl) ++ after) =
        stream_buffers before ++ (pre ++ '\r' :: ' ' :: rest ++ nl) :: stream_buffers after ∧
      (∀ a, read_loop_body (pre ++ '\r' :: ' ' :: rest ++ nl) a = ([], a)) ∧
      read_loop (stream_buffers (before ++ (pre ++ '\r' :: ' ' :: rest ++ nl) ++ after)) app =
        read_loop (stream_buffers before ++ stream_buffers after) app := by
  have hnl2 : nl = [] ∨ nl = ['\n'] := by
    rcases hend with h | h
    · exact Or.inr h
    · exact Or.inl h.1
  have h1 : '\n' ∉ ' ' :: rest := by
    intro hm
    rcases List.mem_cons.mp hm with h | h
    · exact absurd h (by decide)
    · exact hr1 h
  have h2 : '\r' ∉ ' ' :: rest := by
    intro hm
    rcases List.mem_cons.mp hm with h | h
    · exact absurd h (by decide)
    · exact hr2 h
  have h3 : NUL ∉ ' ' :: rest := by
    intro hm
    rcases List.mem_cons.mp hm with h | h
    · exact absurd h (by decide)
    · exact hz2 h
  have hnl : '\n' ∉ pre ++ '\r' :: ' ' :: rest := by
    intro hm
    rcases List.mem_append.mp hm with h | h
    · exact hpre h
    · rcases List.mem_cons.mp h with h | h
      · exact absurd h (by decide)
      · exact h1 h
  have hbuf := stream_buffers_raw_line before (pre ++ '\r' :: ' ' :: rest) nl after hb hlen hnl
    hend (by simp)
  have hbody : ∀ a, read_loop_body (pre ++ '\r' :: ' ' :: rest ++ nl) a = ([], a) := by
    intro a
    rw [read_loop_body_cr pre (' ' :: rest) nl a hpre h1 h2 hz1 h3 hnl2]
    simp
  refine ⟨hbuf, hbody, ?_⟩
  rw [hbuf]
  exact read_loop_skip _ _ _ app hbody

/-- Witness of the amended C11 at the line `50%\r 60%` between the lines
`INFO:a` and `INFO:b`. -/
theorem cr_space_suffix_dropped_witness :
    (read_loop (stream_buffers ("INFO:a\n".toList ++
        ("50%".toList ++ '\r' :: ' ' :: "60%".toList ++ ['\n']) ++
        "INFO:b\n".toList)) running_app).1 =
      [OutputEvent.LogLine "INFO:a".toList, OutputEvent.StatusUpdate "a".toList,
        OutputEvent.LogLine "INFO:b".toList, OutputEvent.StatusUpdate "b".toList] := by
  rw [(cr_space_suffix_dropped "INFO:a\n".toList "50%".toList "60%".toList ['\n']
    "INFO:b\n".toList running_app (by decide) (by decide) (by decide) (by decide) (by decide)
    (by decide) (by decide) (Or.inl rfl)).2.2]
  decide

/-- C12, counterexample. For the raw line of 2047 bytes `x`, a carriage return
and `INFO:ok`, the worker posts the events of the classifier on `INFO:ok` and,
before them, a log line with the text that stands before the carriage return. -/
theorem long_cr_line_prefix_logged :
    (read_loop (stream_buffers (List.replicate 2047 'x' ++ "\rINFO:ok\n".toList))
        running_app).1 =
      [OutputEvent.LogLine (List.replicate 2047 'x'), OutputEvent.LogLine "INFO:ok".toList,
        OutputEvent.StatusUpdate "ok".toList] ∧
    (parse_installation_output "INFO:ok".toList running_app).1 =
      [OutputEvent.LogLine "INFO:ok".toList, OutputEvent.StatusUpdate "ok".toList] := by
  refine ⟨?_, by decide⟩
  rw [read_loop_long_x]
  have h : (read_loop (stream_buffers "\rINFO:ok\n".toList) running_app).1 =
      [OutputEvent.LogLine "INFO:ok".toList, OutputEvent.StatusUpdate "ok".toList] := by decide
  rw [h]

/-- C12, amended. A raw line of at most 2046 bytes without NUL byte, wherever it
stands in the stream, is read as one buffer.  When it has a carriage return and
the text after the last one is neither empty nor begins with a space, the loop
body is the classifier on that text, whatever stands before it; when it has no
carriage return the loop body is the classifier on the line as it is, also when
the line is empty or begins with a space. -/
theorem cr_suffix_classified (before pre suffix line nl after : List Char)
    (hb : ∀ c ∈ before.getLast?, c = '\n')
    (hlen : (pre ++ '\r' :: suffix).length ≤ 2046) (hlen2 : line.length ≤ 2046)
    (hpre : '\n' ∉ pre) (hs1 : '\n' ∉ suffix) (hs2 : '\r' ∉ suffix)
    (hz1 : NUL ∉ pre) (hz2 : NUL ∉ suffix)
    (hkeep : suffix ≠ [] ∧ suffix.head? ≠ some ' ')
    (hl1 : '\n' ∉ line) (hl2 : '\r' ∉ line) (hl3 : NUL ∉ line)
    (hend : nl = ['\n'] ∨ (nl = [] ∧ after = [])) (hne : line ++ nl ≠ []) :
    (stream_buffers (before ++ (pre ++ '\r' :: suffix ++ nl) ++ after) =
        stream_buffers before ++ (pre ++ '\r' :: suffix ++ nl) :: stream_buffers after ∧
      ∀ a, read_loop_body (pre ++ '\r' :: suffix ++ nl) a =
        parse_installation_output suffix a) ∧
    (stream_buffers (before ++ (line ++ nl) ++ after) =
        stream_buffers before ++ (line ++ nl) :: stream_buffers after ∧
      ∀ a, read_loop_body (line ++ nl) a = parse_installation_output line a) := by
  have hnl2 : nl = [] ∨ nl = ['\n'] := by
    rcases hend with h | h
    · exact Or.inr h
    · exact Or.inl h.1
  have hnl : '\n' ∉ pre ++ '\r' :: suffix := by
    intro hm
    rcases List.mem_append.mp hm with h | h
    · exact hpre h
    · rcases List.mem_cons.mp h with h | h
      · exact absurd h (by decide)
      · exact hs1 h
  refine ⟨⟨stream_buffers_raw_line before (pre ++ '\r' :: suffix) nl after hb hlen hnl hend
    (by simp), ?_⟩, ⟨stream_buffers_raw_line before line nl after hb hlen2 hl1 hend hne, ?_⟩⟩
  · intro a
    rw [read_loop_body_cr pre suffix nl a hpre hs1 hs2 hz1 hz2 hnl2]
    have hl : ¬ suffix.length = 0 := fun e => hkeep.1 (List.length_eq_zero.mp e)
    simp only [hl, hkeep.2, or_self, if_false]
  · intro a
    exact read_loop_body_plain line nl a hl1 hl2 hl3 hnl2

/-- Witness of the amended C12 at the lines `10%\r20%\rINFO:Copying` and
` done`, each after the line `INFO:a`. -/
theorem cr_suffix_classified_witness :
    read_loop_body ("10%\r20%".toList ++ '\r' :: "INFO:Copying".toList ++ ['\n']) running_app =
        ([OutputEvent.LogLine "INFO:Copying".toList, OutputEvent.StatusUpdate "Copying".toList],
          running_app) ∧
      read_loop_body (" done".toList ++ ['\n']) running_app =
        ([OutputEvent.LogLine " done".toList, OutputEvent.StatusUpdate " done".toList],
          running_app) := by
  have h := cr_suffix_classified "INFO:a\n".toList "10%\r20%".toList "INFO:Copying".toList
    " done".toList ['\n'] [] (by decide) (by decide) (by decide) (by decide) (by decide)
    (by decide) (by decide) (by decide) (by decide) (by decide) (by decide) (by decide)
    (Or.inl rfl) (by decide)
  refine ⟨?_, ?_⟩
  · rw [h.1.2 running_app]; decide
  · rw [h.2.2 running_app]; decide

/-- C13. With `exit_code` the value captured at the end of the stream: when it
is 0, 23 or 24 the last two events are the success line of the log and then
`ProgressUpdate 100 "Installation complete!"`, and no `ErrorNotice` is posted;
for every other value an `ErrorNotice` is posted whose message is
`Installation failed with exit code ` followed by a decimal numeral of that
value, and neither of the two success events is posted. -/
theorem exit_code_paths (exit_code : Int) (app : InstallerApp) :
    ((exit_code = 0 ∨ exit_code = 23 ∨ exit_code = 24) →
        [OutputEvent.LogLine "=== Installation completed successfully! ===".toList,
          OutputEvent.ProgressUpdate 100 "Installation complete!".toList] <:+
            (end_of_stream exit_code app).1 ∧
        ∀ m, OutputEvent.ErrorNotice m ∉ (end_of_stream exit_code app).1) ∧
      (¬ (exit_code = 0 ∨ exit_code = 23 ∨ exit_code = 24) →
        (∃ d, integer_numeral d = some exit_code ∧
          OutputEvent.ErrorNotice ("Installation failed with exit code ".toList ++ d) ∈
            (end_of_stream exit_code app).1) ∧
        OutputEvent.LogLine "=== Installation completed successfully! ===".toList ∉
            (end_of_stream exit_code app).1 ∧
        OutputEvent.ProgressUpdate 100 "Installation complete!".toList ∉
            (end_of_stream exit_code app).1) := by
  constructor
  · intro h
    unfold end_of_stream
    simp only [h, if_true]
    constructor
    · exact ⟨[_, _, _], rfl⟩
    · intro m hm
      simp at hm
  · intro h
    unfold end_of_stream
    simp only [h, if_false]
    refine ⟨⟨fmt_d exit_code, integer_numeral_fmt_d exit_code, by simp⟩, ?_, by simp⟩
    intro hm
    simp only [List.mem_cons, OutputEvent.LogLine.injEq, reduceCtorEq, false_or,
      List.not_mem_nil, or_false] at hm
    rcases hm with hm | hm
    · have := exit_line_ne_success (fmt_d exit_code ++ " ===".toList)
      rw [List.append_assoc] at hm
      exact this hm.symm
    · have h1 := congrArg (List.take 1) hm
      simp at h1

/-- Witness of C13 at the values 23 and 1; for 1 the message is
`Installation failed with exit code 1`. -/
theorem exit_code_paths_witness :
    ([OutputEvent.LogLine "=== Installation completed successfully! ===".toList,
          OutputEvent.ProgressUpdate 100 "Installation complete!".toList] <:+
            (end_of_stream 23 running_app).1 ∧
        ∀ m, OutputEvent.ErrorNotice m ∉ (end_of_stream 23 running_app).1) ∧
      ((∃ d, integer_numeral d = some 1 ∧
          OutputEvent.ErrorNotice ("Installation failed with exit code ".toList ++ d) ∈
            (end_of_stream 1 running_app).1) ∧
        OutputEvent.LogLine "=== Installation completed successfully! ===".toList ∉
            (end_of_stream 1 running_app).1 ∧
        OutputEvent.ProgressUpdate 100 "Installation complete!".toList ∉
            (end_of_stream 1 running_app).1) ∧
      OutputEvent.ErrorNotice "Installation failed with exit code 1".toList ∈
        (end_of_stream 1 running_app).1 :=
  ⟨(exit_code_paths 23 running_app).1 (by decide), (exit_code_paths 1 running_app).2 (by decide),
    by decide⟩

/-- C14, counterexample. For the single buffer `SUCCESS:\n` and the value 0 at
the end of the stream, the last posted event is
`ProgressUpdate 100 "Installation complete!"`, and the same event was already
posted for the `SUCCESS:` line: the sequence does not end in an event that is
posted exactly once, and no callback of the worker is a terminal event. -/
theorem last_event_posted_twice :
    (read_and_finish ["SUCCESS:\n".toList] 0 running_app).1.getLast? =
        some (OutputEvent.ProgressUpdate 100 "Installation complete!".toList) ∧
      (read_and_finish ["SUCCESS:\n".toList] 0 running_app).1.count
        (OutputEvent.ProgressUpdate 100 "Installation complete!".toList) = 2 := by
  decide

/-- C14, amended. The events posted from the read loop on are the events of
each buffer, buffer after buffer in the order read, followed by the events of
the end of the stream; the last one is `ProgressUpdate 100 "Installation
complete!"` when the captured value is 0, 23 or 24 and the `ErrorNotice` with
the value otherwise. -/
theorem worker_event_order (buffers : List (List Char)) (exit_code : Int)
    (app : InstallerApp) :
    (read_and_finish buffers exit_code app).1 =
        (buffers.map (fun b => (read_loop_body b app).1)).flatten ++
          (end_of_stream exit_code app).1 ∧
      (read_and_finish buffers exit_code app).1.getLast? =
        some (if exit_code = 0 ∨ exit_code = 23 ∨ exit_code = 24 then
            OutputEvent.ProgressUpdate 100 "Installation complete!".toList
          else
            OutputEvent.ErrorNotice
              ("Installation failed with exit code ".toList ++ fmt_d exit_code)) := by
  have hev : (read_and_finish buffers exit_code app).1 =
      (buffers.map (fun b => (read_loop_body b app).1)).flatten ++
        (end_of_stream exit_code app).1 := by
    unfold read_and_finish
    simp only
    rw [read_loop_events buffers app app,
      end_of_stream_events exit_code (read_loop buffers app).2 app]
  refine ⟨hev, ?_⟩
  rw [hev]
  unfold end_of_stream
  simp only
  split <;> simp [List.getLast?_append]

/-- C16. A call of `start_installation` on a session whose
`installation_started` is set creates no thread and returns the session as it
was; from an idle session a second call right after the first creates no thread
and changes nothing, whether `pthread_create` succeeded in the first call (the
guard returns) or failed in both. -/
theorem start_installation_guard (ok ok2 : Bool) (app idle : InstallerApp)
    (h : app.config.installation_started = true)
    (hidle : idle.config.installation_started = false) :
    start_installation ok app = (false, app) ∧
      (start_installation true idle).1 = true ∧
      start_installation ok2 (start_installation true idle).2 =
        (false, (start_installation true idle).2) ∧
      start_installation ok (start_installation ok idle).2 =
        (false, (start_installation ok idle).2) := by
  obtain ⟨⟨started, complete⟩, running⟩ := idle
  simp only at hidle
  subst hidle
  refine ⟨?_, ?_, ?_, ?_⟩
  · simp [start_installation, h]
  · simp [start_installation]
  · simp [start_installation]
  · cases ok <;> simp [start_installation]

/-- Witness of C16 at the running session and the initial session. -/
theorem start_installation_guard_witness :
    start_installation true running_app = (false, running_app) ∧
      (start_installation true initial_app).1 = true ∧
      start_installation true (start_installation true initial_app).2 =
        (false, (start_installation true initial_app).2) ∧
      start_installation true (start_installation true initial_app).2 =
        (false, (start_installation true initial_app).2) :=
  start_installation_guard true true running_app initial_app rfl rfl

/-- C17, counterexample. On the line `SUCCESS:` the classifier itself writes
both flags of the running session, before any posted callback has run. -/
theorem success_line_writes_flags :
    running_app.config = { installation_started := true, installation_complete := false } ∧
      (parse_installation_output "SUCCESS:".toList running_app).2.config =
        { installation_started := false, installation_complete := true } := by
  decide

/-- C17, amended. The classifier leaves the session as it is for every line
that does not begin with `SUCCESS:`; for any line the session afterwards is
either unchanged or has `installation_complete` set and `installation_started`
cleared, the two writes of the `SUCCESS:` branch. -/
theorem parse_state_frame (line : List Char) (app : InstallerApp)
    (h : ¬ "SUCCESS:".toList <+: line) :
    (parse_installation_output line app).2 = app ∧
      ∀ other : List Char,
        (parse_installation_output other app).2 = app ∨
          (parse_installation_output other app).2 =
            { app with config :=
              { app.config with installation_complete := true,
                                installation_started := false } } := by
  constructor
  · rcases parse_state line app with h1 | ⟨h1, -⟩
    · exact h1
    · exact absurd h1 h
  · intro other
    rcases parse_state other app with h1 | ⟨-, h1⟩
    · exact Or.inl h1
    · exact Or.inr h1

/-- Witness of the amended C17 at the line `ERROR:disk full`. -/
theorem parse_state_frame_witness :
    (parse_installation_output "ERROR:disk full".toList running_app).2 = running_app ∧
      ∀ other : List Char,
        (parse_installation_output other running_app).2 = running_app ∨
          (parse_installation_output other running_app).2 =
            { running_app with config :=
              { running_app.config with installation_complete := true,
                                        installation_started := false } } :=
  parse_state_frame "ERROR:disk full".toList running_app (by decide)

set_option maxRecDepth 100000 in
/-- C18, counterexample. In the scenario the third event is the `LogLine` of
the `INFO:` line, not `StatusUpdate "Copying kernel"`, and fourteen events are
posted, not eight. -/
theorem scenario_logs_control_lines :
    (read_and_finish
        ["RSYNC_PROGRESS: 12% 10.5MB/s 0:01:23\n".toList, "INFO:Copying kernel\n".toList,
          "SUCCESS:\n".toList] 0 running_app).1.get? 2 =
        some (OutputEvent.LogLine "INFO:Copying kernel".toList) ∧
      (read_and_finish
        ["RSYNC_PROGRESS: 12% 10.5MB/s 0:01:23\n".toList, "INFO:Copying kernel\n".toList,
          "SUCCESS:\n".toList] 0 running_app).1.length = 14 := by
  decide

set_option maxRecDepth 100000 in
/-- C18, amended. The events of the scenario, from the three lines and from the
end of the stream with the value 0, in order; the session ends with
`installation_complete` set and `installation_started` cleared. -/
theorem scenario_events :
    read_and_finish
        ["RSYNC_PROGRESS: 12% 10.5MB/s 0:01:23\n".toList, "INFO:Copying kernel\n".toList,
          "SUCCESS:\n".toList] 0 running_app =
      ([OutputEvent.LogLineReplace "Copying files: 12% 10.5MB/s 0:01:23".toList,
        OutputEvent.StatusUpdate "Copying system files... 12% 10.5MB/s".toList,
        OutputEvent.LogLine "INFO:Copying kernel".toList,
        OutputEvent.StatusUpdate "Copying kernel".toList,
        OutputEvent.LogLine "SUCCESS:".toList,
        OutputEvent.SuccessDialog,
        OutputEvent.NavigationUpdate,
        OutputEvent.ProgressUpdate 100 "Installation complete!".toList,
        OutputEvent.StatusUpdate "Installation completed successfully!".toList,
        OutputEvent.LogLine "=== Installation process finished with exit code: 0 ===".toList,
        OutputEvent.NavigationUpdate,
        OutputEvent.NavigationUpdate,
        OutputEvent.LogLine "=== Installation completed successfully! ===".toList,
        OutputEvent.ProgressUpdate 100 "Installation complete!".toList],
       { config := { installation_started := false, installation_complete := true },
         thread_running := true }) := by
  decide

/-- C19. A line that begins with `ERROR:` and has no transfer marker posts the
log line and exactly one `ErrorNotice`, whose message is everything after the
six bytes of the prefix, untrimmed; no `ProgressUpdate`, no `StatusUpdate`. -/
theorem error_line_event (rest : List Char) (app : InstallerApp)
    (h1 : ¬ contains_tag ("ERROR:".toList ++ rest))
    (h2 : ¬ contains_rate_unit ("ERROR:".toList ++ rest)) :
    parse_installation_output ("ERROR:".toList ++ rest) app =
      ([OutputEvent.LogLine ("ERROR:".toList ++ rest), OutputEvent.ErrorNotice rest], app) := by
  rw [parse_without_marker _ app h1 h2]
  have hP : strncmp_eq ("ERROR:".toList ++ rest) "PROGRESS:".toList 9 = false := by
    simp [strncmp_eq]
  have hE : strncmp_eq ("ERROR:".toList ++ rest) "ERROR:".toList 6 = true := by
    simp [strncmp_eq]
  have hdrop : ("ERROR:".toList ++ rest).drop 6 = rest :=
    List.drop_left "ERROR:".toList rest
  have hlen : ("ERROR:".toList ++ rest).length > 0 := by simp
  unfold parse_control_line
  simp only [hP, hE, hdrop, hlen, Bool.false_eq_true, if_false, if_true]
  rfl

/-- Witness of C19 at the line `ERROR:  disk full `. -/
theorem error_line_event_witness :
    parse_installation_output "ERROR:  disk full ".toList running_app =
      ([OutputEvent.LogLine "ERROR:  disk full ".toList,
        OutputEvent.ErrorNotice "  disk full ".toList], running_app) :=
  error_line_event "  disk full ".toList running_app (by decide) (by decide)

/-- C20, failing input. For a command that ends by `exit (23)` the value of
`pclose` is 5888: the comparison with 23 fails, the failure events are posted
and the messages show 5888; a command that ends by `exit (1)` is reported with
the value 256. -/
theorem exit_23_taken_as_failure :
    pclose_status 23 = 5888 ∧
      (end_of_stream (pclose_status 23) running_app).1 =
        [OutputEvent.LogLine
            "=== Installation process finished with exit code: 5888 ===".toList,
          OutputEvent.NavigationUpdate,
          OutputEvent.LogLine "Installation failed with exit code 5888".toList,
          OutputEvent.ErrorNotice "Installation failed with exit code 5888".toList] ∧
      (end_of_stream (pclose_status 1) running_app).1 =
        [OutputEvent.LogLine
            "=== Installation process finished with exit code: 256 ===".toList,
          OutputEvent.NavigationUpdate,
          OutputEvent.LogLine "Installation failed with exit code 256".toList,
          OutputEvent.ErrorNotice "Installation failed with exit code 256".toList] := by
  decide

/-- C22, counterexample. The fields `50abc`, ` 50` and `5 0` do not parse in
their entirety as an integer, yet each yields a `ProgressUpdate`: `strtol`
skips leading white space and stops at the first byte that is not a digit. -/
theorem lenient_percent_accepted :
    parse_installation_output "PROGRESS:50abc:done".toList running_app =
        ([OutputEvent.LogLine "PROGRESS:50abc:done".toList,
          OutputEvent.ProgressUpdate 50 "done".toList], running_app) ∧
      parse_installation_output "PROGRESS: 50:done".toList running_app =
        ([OutputEvent.LogLine "PROGRESS: 50:done".toList,
          OutputEvent.ProgressUpdate 50 "done".toList], running_app) ∧
      parse_installation_output "PROGRESS:5 0:done".toList running_app =
        ([OutputEvent.LogLine "PROGRESS:5 0:done".toList,
          OutputEvent.ProgressUpdate 5 "done".toList], running_app) := by
  decide

/-- C22, amended. When the percent field, free of colons, is made of optional
white space, a run of digits and any text that does not begin with a digit, the
`ProgressUpdate` carries the value of the run when it is at most 100, and none
is posted when it is above 100; what follows the run plays no part. -/
theorem leading_number_decides (ws ds rest m : List Char) (app : InstallerApp)
    (hws : ∀ c ∈ ws, isspace c = true) (hne : ds ≠ [])
    (hd : ∀ c ∈ ds, isdigit c = true) (hrest : ∀ c ∈ rest.head?, isdigit c = false)
    (hcolon : ':' ∉ ws ++ ds ++ rest)
    (h1 : ¬ contains_tag ("PROGRESS:".toList ++ (ws ++ ds ++ rest) ++ ":".toList ++ m))
    (h2 : ¬ contains_rate_unit ("PROGRESS:".toList ++ (ws ++ ds ++ rest) ++ ":".toList ++ m)) :
    parse_installation_output ("PROGRESS:".toList ++ (ws ++ ds ++ rest) ++ ":".toList ++ m) app =
      (if numeral_value ds ≤ 100 then
          [OutputEvent.LogLine ("PROGRESS:".toList ++ (ws ++ ds ++ rest) ++ ":".toList ++ m),
            OutputEvent.ProgressUpdate (numeral_value ds) m]
        else [OutputEvent.LogLine ("PROGRESS:".toList ++ (ws ++ ds ++ rest) ++ ":".toList ++ m)],
       app) := by
  rw [parse_without_marker _ app h1 h2]
  obtain ⟨k, -, hk, hparse⟩ := progress_line_split (ws ++ ds ++ rest) m app
  have hk2 := hk hcolon
  subst hk2
  have hrest2 : rest.takeWhile isdigit = [] := by
    cases rest with
    | nil => rfl
    | cons c t =>
      have := hrest c rfl
      simp [List.takeWhile, this]
  have hst := strtol_ws_digits ws ds rest hws hne hd hrest2
  have hpos : ws.length + ds.length ≠ 0 := by
    have : ds.length ≠ 0 := fun e => hne (List.length_eq_zero.mp e)
    omega
  rw [hparse, List.take_length, hst]
  have hdrop : ((ws ++ ds ++ rest) ++ ':' :: m).drop ((ws ++ ds ++ rest).length + 1) = m := by
    rw [List.drop_append_eq_append_drop]
    simp
  simp only [hdrop]
  by_cases hv : numeral_value ds ≤ 100
  · have hclamp : max LONG_MIN (min LONG_MAX (numeral_value ds : Int)) = numeral_value ds := by
      unfold LONG_MIN LONG_MAX
      omega
    have hcond : ws.length + ds.length ≠ 0 ∧ (numeral_value ds : Int) ≥ 0 ∧
        (numeral_value ds : Int) ≤ 100 := ⟨hpos, by omega, by omega⟩
    rw [hclamp, if_pos hcond, if_pos hv]
  · have hcond : ¬ (ws.length + ds.length ≠ 0 ∧
        max LONG_MIN (min LONG_MAX (numeral_value ds : Int)) ≥ 0 ∧
        max LONG_MIN (min LONG_MAX (numeral_value ds : Int)) ≤ 100) := by
      unfold LONG_MIN LONG_MAX
      omega
    rw [if_neg hcond, if_neg hv]

/-- Witness of the amended C22 at the line `PROGRESS: 50abc:done`. -/
theorem leading_number_decides_witness :
    parse_installation_output "PROGRESS: 50abc:done".toList running_app =
      ([OutputEvent.LogLine "PROGRESS: 50abc:done".toList,
        OutputEvent.ProgressUpdate 50 "done".toList], running_app) := by
  have h := leading_number_decides " ".toList "50".toList "abc".toList "done".toList running_app
    (by decide) (by decide) (by decide) (by decide) (by decide) (by decide) (by decide)
  have hv : numeral_value "50".toList = 50 := by decide
  rw [hv] at h
  exact h

/-- C23. A line with a byte-rate unit and without the tag posts exactly one
event, a `LogLineReplace` whose text begins with `Copying: `, and leaves the
session as it is, whatever the line begins with. -/
theorem transfer_line_precedence (line : List Char) (app : InstallerApp)
    (h1 : ¬ contains_tag line) (h2 : contains_rate_unit line) :
    parse_installation_output line app =
        ([OutputEvent.LogLineReplace
            ("Copying: ".toList ++ extract_percent line ++ " ".toList ++ extract_speed line)],
         app) ∧
      "Copying: ".toList <+:
        ("Copying: ".toList ++ extract_percent line ++ " ".toList ++ extract_speed line) :=
  ⟨parse_raw line app h1 h2, ⟨extract_percent line ++ " ".toList ++ extract_speed line, by simp⟩⟩

/-- Witness of C23 at the lines `ERROR: stalled at 5MB/s` and `SUCCESS: 10KB/s`. -/
theorem transfer_line_precedence_witness :
    parse_installation_output "ERROR: stalled at 5MB/s".toList running_app =
        ([OutputEvent.LogLineReplace "Copying: 0% 5MB/s".toList], running_app) ∧
      parse_installation_output "SUCCESS: 10KB/s".toList running_app =
        ([OutputEvent.LogLineReplace "Copying: 0% 10KB/s".toList], running_app) :=
  ⟨(transfer_line_precedence "ERROR: stalled at 5MB/s".toList running_app
      (by decide) (by decide)).1,
   (transfer_line_precedence "SUCCESS: 10KB/s".toList running_app (by decide) (by decide)).1⟩

/-- C24, failing input. On `[rsync] RSYNC_PROGRESS: 12% 10.5MB/s 0:01:23` the
tag is found by `strstr`, but the scan starts 15 bytes after the start of the
line, inside the tag: the percent is `ROGRESS:`, the speed is `12%` and the time
is `10.5MB/s`. -/
theorem tag_offset_from_line_start :
    parse_installation_output "[rsync] RSYNC_PROGRESS: 12% 10.5MB/s 0:01:23".toList
        running_app =
      ([OutputEvent.LogLineReplace "Copying files: ROGRESS: 12% 10.5MB/s".toList,
        OutputEvent.StatusUpdate "Copying system files... ROGRESS: 12%".toList],
       running_app) := by
  decide


/-- C21, counterexample. The name `1abc` has four characters, all of them
letters or digits, and is rejected: a name must not begin with a digit. -/
theorem digit_first_username_rejected :
    is_valid_username (some "1abc".toList) = false ∧
      (2 ≤ "1abc".toList.length ∧ "1abc".toList.length ≤ 32 ∧
        ∀ c ∈ "1abc".toList, c ∈ NAME_CHARS) := by
  decide

/-- C21, amended. A name is accepted if and only if it has between 2 and 32
bytes, each an ASCII letter, a digit, an underscore or a hyphen, and its first
byte is not a digit. -/
theorem username_valid_iff (u : List Char) :
    is_valid_username (some u) = true ↔
      (2 ≤ u.length ∧ u.length ≤ 32 ∧ (∀ c ∈ u, c ∈ NAME_CHARS) ∧
        ∀ c ∈ u.head?, c ∉ DIGIT_CHARS) := by
  have hall : u.all (fun c => is_lower c || is_upper c || isdigit c || decide (c = '_') ||
      decide (c = '-')) = true ↔ ∀ c ∈ u, c ∈ NAME_CHARS := by
    rw [List.all_eq_true]
    exact forall_congr' fun c => imp_congr_right fun _ => name_char_iff c
  have hhead : (!(match u.head? with
      | some c => isdigit c
      | none => false)) = true ↔ ∀ c ∈ u.head?, c ∉ DIGIT_CHARS := by
    cases u with
    | nil => simp
    | cons x xs =>
      simp only [List.head?_cons, Option.mem_def, Option.some.injEq, forall_eq',
        Bool.not_eq_true', ← isdigit_iff]
      simp
  unfold is_valid_username
  simp only
  by_cases hlen : u.length < 2 ∨ u.length > 32
  · simp only [hlen, if_true]
    constructor
    · intro h; exact absurd h (by simp)
    · rintro ⟨h1, h2, -⟩; omega
  · simp only [hlen, if_false]
    have hl : 2 ≤ u.length ∧ u.length ≤ 32 := by omega
    by_cases hchars : u.all (fun c => is_lower c || is_upper c || isdigit c ||
        decide (c = '_') || decide (c = '-')) = true
    · simp only [hchars, if_true, hhead]
      constructor
      · intro h; exact ⟨hl.1, hl.2, hall.mp hchars, h⟩
      · rintro ⟨-, -, -, h⟩; exact h
    · simp only [hchars, if_false]
      constructor
      · intro h; exact absurd h (by simp)
      · rintro ⟨-, -, h, -⟩; exact absurd (hall.mpr h) hchars

/-- C27, failing input. The entry `en_US.UTF-8 - English` gives `en_US.UTF`
and the entry `alt-intl - International` gives `alt`: the code is cut at its
first hyphen.  The entry `default - Default (no variant)` gives `default`. -/
theorem hyphen_code_cut :
    extract_code (some "en_US.UTF-8 - English".toList) = some "en_US.UTF".toList ∧
      extract_code (some "alt-intl - International".toList) = some "alt".toList ∧
      extract_code (some "default - Default (no variant)".toList) =
        some "default".toList := by
  decide

/-- C29, failing input. A name of 32 letters is accepted by
`is_valid_username` and a password of 64 bytes by `is_valid_password`; the
copies keep 31 and 63 bytes. -/
theorem long_credentials_truncated :
    is_valid_username (some (List.replicate 32 'a')) = true ∧
      is_valid_password (some (List.replicate 64 'p')) = true ∧
      on_install_clicked_credentials (List.replicate 32 'a') "Ann".toList "pc".toList
          (List.replicate 64 'p') (List.replicate 64 'p') true [] [] =
        some { username := List.replicate 31 'a',
               realname := "Ann".toList,
               hostname := "pc".toList,
               password := List.replicate 63 'p',
               root_password := List.replicate 63 'p' } := by
  decide

/-- C30. When `popen` succeeds, the worker ends with `installation_complete`
set and `installation_started` cleared for every stream and every value of
`pclose`, so the Finish button is shown exactly on the progress page; in
general the button is shown exactly when the page is the progress page and
`installation_complete` is set; when `popen` fails the worker ends with
`installation_complete` false. -/
theorem finish_after_read_loop (safe_cmd stream err : List Char) (exit_code : Int)
    (page : Int) (app : InstallerApp) :
    (run_installation_thread safe_cmd (Except.ok (stream, exit_code)) app).2.config =
        { installation_started := false, installation_complete := true } ∧
      ((update_navigation_buttons page
          (run_installation_thread safe_cmd (Except.ok (stream, exit_code)) app).2).show_finish
          = true ↔ page = TAB_PROGRESS) ∧
      (∀ a : InstallerApp, (update_navigation_buttons page a).show_finish = true ↔
          (page = TAB_PROGRESS ∧ a.config.installation_complete = true)) ∧
      (run_installation_thread safe_cmd (Except.error err) app).2.config.installation_complete
        = false := by
  have hflags : (run_installation_thread safe_cmd (Except.ok (stream, exit_code)) app).2.config =
      { installation_started := false, installation_complete := true } := by
    simp only [run_installation_thread, read_and_finish]
    exact end_of_stream_flags exit_code _
  refine ⟨hflags, ?_, ?_, rfl⟩
  · simp [update_navigation_buttons, hflags]
  · intro a
    simp [update_navigation_buttons]

/-- C26, counterexample. The device text `sda` followed by a tab has no space
and no `|`, yet `extract_device` does not write it back: the trailing tab is
trimmed. -/
theorem tab_ended_device_trimmed :
    extract_device (some ("sda\t".toList ++ " - ".toList ++ "10G".toList ++ " ".toList ++
        "ext4".toList)) [] 64 = (true, "sda".toList) ∧
      ' ' ∉ "sda\t".toList ∧ '|' ∉ "sda\t".toList := by
  decide

/-- C26, amended. For a device text that is non-empty, of at most 63 bytes, free
of white space and of `|` and that does not begin with `(None)`, and for a size
and a file system free of `|`, `extract_device` with a 64-byte buffer returns
true and writes the device text, from both display formats; it returns false
exactly when the text is NULL or begins with `(None)`, and then the buffer is
empty. -/
theorem extract_device_round_trip (d s f buffer : List Char)
    (_hne : d ≠ []) (hlen : d.length ≤ 63) (hws : ∀ c ∈ d, isspace c = false)
    (hbar : '|' ∉ d) (hnone : ¬ "(None)".toList <+: d) (hs : '|' ∉ s) (hf : '|' ∉ f) :
    extract_device (some (d ++ " - ".toList ++ s ++ " ".toList ++ f)) buffer 64 = (true, d) ∧
      extract_device (some (d ++ "|".toList ++ s ++ "|".toList ++ f)) buffer 64 = (true, d) ∧
      (∀ text buf, (extract_device text buf 64).1 = false ↔
        (text = none ∨ ∃ t, text = some t ∧ "(None)".toList <+: t)) ∧
      (∀ text buf, (extract_device text buf 64).1 = false →
        (extract_device text buf 64).2 = []) := by
  have hsp : ' ' ∉ d := fun hm => by
    have := hws ' ' hm
    revert this
    decide
  refine ⟨?_, ?_, ?_, ?_⟩
  · have e : d ++ " - ".toList ++ s ++ " ".toList ++ f =
        d ++ " - ".toList ++ (s ++ " ".toList ++ f) := by simp
    rw [e]
    apply extract_device_at d _ buffer " - ".toList hlen hws
    · have e2 : d ++ " - ".toList ++ (s ++ " ".toList ++ f) =
          d ++ ' ' :: ("- ".toList ++ (s ++ " ".toList ++ f)) := by simp
      rw [e2]
      exact not_prefix_append _ d _ ' ' (by decide) hnone
    · have hnobar : '|' ∉ d ++ " - ".toList ++ (s ++ " ".toList ++ f) := by
        simp only [List.mem_append, not_or]
        exact ⟨⟨hbar, by decide⟩, ⟨hs, by decide⟩, hf⟩
      rw [strchr_eq_none _ _ hnobar]
      exact strstr_first d " - ".toList _ (first_after_free d " - ".toList _ ' ' hsp rfl)
  · have e : d ++ "|".toList ++ s ++ "|".toList ++ f =
        d ++ "|".toList ++ (s ++ "|".toList ++ f) := by simp
    rw [e]
    apply extract_device_at d _ buffer "|".toList hlen hws
    · have e2 : d ++ "|".toList ++ (s ++ "|".toList ++ f) =
          d ++ '|' :: (s ++ "|".toList ++ f) := by simp
      rw [e2]
      exact not_prefix_append _ d _ '|' (by decide) hnone
    · have e2 : d ++ "|".toList ++ (s ++ "|".toList ++ f) =
          d ++ '|' :: (s ++ "|".toList ++ f) := by simp
      rw [e2, strchr_append_of_not_mem d _ '|' hbar]
  · intro text buf
    cases text with
    | none => simp [extract_device]
    | some t =>
      simp only [reduceCtorEq, Option.some.injEq, exists_eq_left', false_or]
      rw [← strncmp_eq_iff]
      have hlenp : "(None)".toList.length = 6 := rfl
      rw [hlenp]
      unfold extract_device
      simp only
      cases strncmp_eq t "(None)".toList 6 with
      | true => simp only [if_true, iff_true]
      | false =>
        simp only [Bool.false_eq_true, if_false, iff_false]
        repeat' split
        all_goals simp
  · intro text buf h
    cases text with
    | none => simp [extract_device]
    | some t =>
      unfold extract_device at h ⊢
      simp only at h ⊢
      cases hn : strncmp_eq t "(None)".toList 6 with
      | true => simp
      | false =>
        exfalso
        rw [hn] at h
        simp only [Bool.false_eq_true, if_false] at h
        revert h
        repeat' split
        all_goals simp

/-- Witness of the amended C26 at `/dev/sda1`, `10G`, `ext4`. -/
theorem extract_device_round_trip_witness :
    extract_device (some ("/dev/sda1".toList ++ " - ".toList ++ "10G".toList ++ " ".toList ++
        "ext4".toList)) [] 64 = (true, "/dev/sda1".toList) ∧
      extract_device (some ("/dev/sda1".toList ++ "|".toList ++ "10G".toList ++ "|".toList ++
        "ext4".toList)) [] 64 = (true, "/dev/sda1".toList) ∧
      (∀ text buf, (extract_device text buf 64).1 = false ↔
        (text = none ∨ ∃ t, text = some t ∧ "(None)".toList <+: t)) ∧
      (∀ text buf, (extract_device text buf 64).1 = false →
        (extract_device text buf 64).2 = []) :=
  extract_device_round_trip "/dev/sda1".toList "10G".toList "ext4".toList []
    (by decide) (by decide) (by decide) (by decide) (by decide) (by decide) (by decide)

/-- Claim C28, the input that contradicts it: from the one name `Europe/` the
table gets the region `Europe` with the empty city, and for that region and
city `get_selected_timezone` returns `Europe/London`, not the input name. -/
theorem empty_city_not_rebuilt :
    (load_timezones_hierarchical ["Europe/".toList]).region_names = ["Europe".toList] ∧
    (load_timezones_hierarchical ["Europe/".toList]).timezone_regions = [["".toList]] ∧
    get_selected_timezone (some "Europe".toList) (some "".toList) =
      some "Europe/London".toList ∧
    get_selected_timezone (some "Europe".toList) (some "".toList) ≠
      some "Europe/".toList := by
  decide

/-- Claim C28 as amended: for every non-empty list of names the region names
are in strictly ascending byte order, so are the cities of each region, and for
every input name `R/C` (`R` the text before the first slash) `C` is a city of
region `R` at the index of `R`; `get_selected_timezone` rebuilds the input name
from `R` and `C` when `C` is not empty and `R` is neither `UTC` nor `GMT`. -/
theorem timezone_table_sorted (timezones : List (List Char)) (hne : timezones ≠ []) :
    (load_timezones_hierarchical timezones).region_names.Pairwise byte_lt ∧
    (∀ cs ∈ (load_timezones_hierarchical timezones).timezone_regions, cs.Pairwise byte_lt) ∧
    ∀ R C : List Char, '/' ∉ R → R ++ '/' :: C ∈ timezones →
      (∃ (i : Nat) (cs : List (List Char)), (load_timezones_hierarchical timezones).region_names[i]? = some R ∧
        (load_timezones_hierarchical timezones).timezone_regions[i]? = some cs ∧ C ∈ cs) ∧
      (C ≠ [] → R ≠ "UTC".toList → R ≠ "GMT".toList →
        get_selected_timezone (some R) (some C) = some (R ++ '/' :: C)) := by
  have hlen : ¬ timezones.length = 0 := fun h => hne (List.length_eq_zero.mp h)
  unfold load_timezones_hierarchical
  rw [if_neg hlen]
  refine ⟨sorted_regions_names timezones, sorted_regions_cities timezones, ?_⟩
  intro R C hR hmem
  exact ⟨has_city_index _ R C (sorted_regions_has_city timezones R C hR hmem),
    get_selected_timezone_joins R C⟩

/-- Claim C28, the amended statement at the names `Europe/Paris`, `UTC`,
`America/New_York` and `Europe/London`. -/
theorem timezone_table_sorted_witness :
    ["Europe/Paris".toList, "UTC".toList, "America/New_York".toList, "Europe/London".toList] ≠ [] ∧
    '/' ∉ "Europe".toList ∧
    (load_timezones_hierarchical ["Europe/Paris".toList, "UTC".toList,
      "America/New_York".toList, "Europe/London".toList]).region_names.Pairwise byte_lt ∧
    get_selected_timezone (some "Europe".toList) (some "Paris".toList) =
      some "Europe/Paris".toList :=
  ⟨by decide, by decide,
    (timezone_table_sorted ["Europe/Paris".toList, "UTC".toList, "America/New_York".toList,
      "Europe/London".toList] (by decide)).1,
    ((timezone_table_sorted ["Europe/Paris".toList, "UTC".toList, "America/New_York".toList,
      "Europe/London".toList] (by decide)).2.2 "Europe".toList "Paris".toList (by decide)
      (by decide)).2 (by decide) (by decide) (by decide)⟩

end Installer
